import Mathlib

/-!
# SingleLinkedList

A verification development for `single-linked-list.h`: a singly linked list with a
sentinel head node, forward iterators, and free-standing relational operators.

The C++ objects live in a `Memory`: a growing array of cells, addressed by index.
A cell is either a heap `Node` or a `SingleLinkedList` object (its sentinel `head_`
and its `size_`).  A `Node*` is an `Option Nat` (`none` is `nullptr`); the address of
a list object doubles as the address of its `head_` member, so `before_begin()` of the
list at address `l` is the pointer `some l`.  Undefined behaviour (dereferencing a null
or dangling pointer) is the result `none` / `Outcome.undefined`; a thrown exception is
`Outcome.throws`, carrying the memory at the time the exception leaves the function.
Whether creating a node throws is decided by a parameter `copy_throws`, a schedule over
the allocation count and the value, so that any creation of a node can be the one that
fails.
-/

namespace SingleLinkedList

/-! ## Memory -/

/-- A list node, `struct Node { Type value; Node* next_node; }`. -/
structure Node (α : Type) where
  value : α
  next_node : Option Nat
deriving DecidableEq

/-- A memory cell: a heap-allocated `Node`, or a `SingleLinkedList` object with its
members `head_` (the sentinel) and `size_`. -/
inductive Cell (α : Type) where
  | node (n : Node α)
  | list (head_ : Node α) (size_ : Nat)
deriving DecidableEq

/-- The store: cell `a` is `some c` while live, `none` once deleted; addresses that
were never allocated lie beyond the end. -/
abbrev Memory (α : Type) := List (Option (Cell α))

/-- The number of values of `size_t` (64-bit): `++size_` and `--size_` wrap modulo this. -/
def SIZE_MOD : Nat := 18446744073709551616

/-- Result of a call that may throw: normal return, an exception propagating with
the memory as the handler chain left it, or undefined behaviour. -/
inductive Outcome (α σ : Type) where
  | ok (r : σ)
  | throws (m : Memory α)
  | undefined

variable {α : Type}

/-- The live cell at address `a`, if any. -/
def read (m : Memory α) (a : Nat) : Option (Cell α) :=
  match m[a]? with
  | some c => c
  | none => none

/-- Reads `*p` for a `Node* p` that points to a heap node or to the `head_` of a list
object. -/
def load (m : Memory α) (p : Nat) : Option (Node α) :=
  match read m p with
  | some (.node n) => some n
  | some (.list h _) => some h
  | none => none

/-- The assignment `p->next_node = q`. -/
def set_next (m : Memory α) (p : Nat) (q : Option Nat) : Option (Memory α) :=
  match read m p with
  | some (.node n) => some (m.set p (some (.node ⟨n.value, q⟩)))
  | some (.list h s) => some (m.set p (some (.list ⟨h.value, q⟩ s)))
  | none => none

/-- Reads the member `size_` of the list object at `this`. -/
def get_size (m : Memory α) (this : Nat) : Option Nat :=
  match read m this with
  | some (.list _ s) => some s
  | _ => none

/-- The assignment `size_ = s` in the list object at `this`. -/
def set_size (m : Memory α) (this : Nat) (s : Nat) : Option (Memory α) :=
  match read m this with
  | some (.list h _) => some (m.set this (some (.list h s)))
  | _ => none

/-- The expression `new Node(value, next)`.  It throws (`std::bad_alloc` from the
allocation, or whatever the copy constructor of `value` throws) when
`copy_throws m.length value`: the first argument is the number of cells allocated so far,
which grows with every allocation, so that a failure may depend on when the node is
created as well as on the value copied.  Otherwise the node is placed at a fresh
address. -/
def new_Node (copy_throws : Nat → α → Bool) (m : Memory α) (value : α) (next : Option Nat) :
    Outcome α (Memory α × Nat) :=
  if copy_throws m.length value then .throws m
  else .ok (m ++ [some (.node ⟨value, next⟩)], m.length)

/-- The schedule under which no creation of a node throws. -/
def never_throws : Nat → α → Bool := fun _ _ => false

/-- The statement `delete p` for a heap node. -/
def delete (m : Memory α) (p : Nat) : Option (Memory α) :=
  match read m p with
  | some (.node _) => some (m.set p none)
  | _ => none

/-! ## Iterators -/

/-- An iterator is its `node_` pointer. -/
abbrev BasicIterator := Option Nat

/-- The operator `++it`: `node_ = node_->next_node`. -/
def incr (m : Memory α) (it : BasicIterator) : Option BasicIterator :=
  match it with
  | none => none
  | some p => (load m p).map (fun n => n.next_node)

/-- The operator `*it`: `node_->value`. -/
def deref (m : Memory α) (it : BasicIterator) : Option α :=
  match it with
  | none => none
  | some p => (load m p).map (fun n => n.value)

/-- The iterator `begin()`: `Iterator(head_.next_node)`. -/
def begin (m : Memory α) (this : Nat) : Option BasicIterator :=
  (load m this).map (fun n => n.next_node)

/-- The iterator `end()`: `Iterator(nullptr)`, the same for every list. -/
def end_ (_this : Nat) : BasicIterator := none

/-- The iterator `before_begin()`: `Iterator(&head_)`. -/
def before_begin (this : Nat) : BasicIterator := some this

/-! ## The container -/

/-- The default constructor `SingleLinkedList()`: a new list object with
`head_ = Node()` and `size_ = 0`. -/
def ctor_default [Inhabited α] (m : Memory α) : Memory α × Nat :=
  (m ++ [some (.list ⟨default, none⟩ 0)], m.length)

/-- Method `GetSize()`. -/
def GetSize (m : Memory α) (this : Nat) : Option Nat := get_size m this

/-- Method `IsEmpty()`: `size_ ? false : true`. -/
def IsEmpty (m : Memory α) (this : Nat) : Option Bool :=
  (get_size m this).map (fun s => if s ≠ 0 then false else true)

/-- Method `PushFront(value)`: `head_.next_node = new Node(value, head_.next_node); ++size_;`. -/
def PushFront (copy_throws : Nat → α → Bool) (m : Memory α) (this : Nat) (value : α) :
    Outcome α (Memory α) :=
  match load m this with
  | none => .undefined
  | some h =>
    match new_Node copy_throws m value h.next_node with
    | .undefined => .undefined
    | .throws m1 => .throws m1
    | .ok (m1, a) =>
      match set_next m1 this (some a) with
      | none => .undefined
      | some m2 =>
        match get_size m2 this with
        | none => .undefined
        | some s =>
          match set_size m2 this ((s + 1) % SIZE_MOD) with
          | none => .undefined
          | some m3 => .ok m3

/-- Method `InsertAfter(pos, value)`, with its `try`/`catch` that restores the link and
the size before rethrowing. -/
def InsertAfter (copy_throws : Nat → α → Bool) (m : Memory α) (this : Nat) (pos : BasicIterator)
    (value : α) : Outcome α (Memory α × BasicIterator) :=
  match pos with
  | none => .undefined
  | some p =>
    match load m p, get_size m this with
    | some n, some size =>
      let ptr := n.next_node
      match new_Node copy_throws m value ptr with
      | .undefined => .undefined
      | .throws m1 =>
        match set_next m1 p ptr with
        | none => .undefined
        | some m2 =>
          match set_size m2 this size with
          | none => .undefined
          | some m3 => .throws m3
      | .ok (m1, a) =>
        match set_next m1 p (some a) with
        | none => .undefined
        | some m2 =>
          match get_size m2 this with
          | none => .undefined
          | some s =>
            match set_size m2 this ((s + 1) % SIZE_MOD) with
            | none => .undefined
            | some m3 =>
              match load m3 p with
              | none => .undefined
              | some n3 => .ok (m3, n3.next_node)
    | _, _ => .undefined

/-- Method `PopFront()`: unlink the first node, `--size_`, delete the node. -/
def PopFront (m : Memory α) (this : Nat) : Option (Memory α) :=
  match incr m (before_begin this) with
  | some (some ptr) =>
    match load m ptr with
    | none => none
    | some n =>
      match set_next m this n.next_node with
      | none => none
      | some m1 =>
        match get_size m1 this with
        | none => none
        | some s =>
          match set_size m1 this ((s + SIZE_MOD - 1) % SIZE_MOD) with
          | none => none
          | some m2 => delete m2 ptr
  | _ => none

/-- Method `EraseAfter(pos)`: delete the node after `pos`, relink, return
`Iterator(pos.node_->next_node)`.  The member `size_` is not written. -/
def EraseAfter (m : Memory α) (_this : Nat) (pos : BasicIterator) :
    Option (Memory α × BasicIterator) :=
  match incr m pos, pos with
  | some (some next), some p =>
    match load m next with
    | none => none
    | some n =>
      let ptr := n.next_node
      match delete m next with
      | none => none
      | some m1 =>
        match set_next m1 p ptr with
        | none => none
        | some m2 =>
          match load m2 p with
          | none => none
          | some n2 => some (m2, n2.next_node)
  | _, _ => none

/-- The `while (head_.next_node != nullptr)` loop of `Clear()`; each round deletes one
live node, so `fuel` rounds with `fuel` above the number of cells always suffice. -/
def Clear_loop : Nat → Memory α → Nat → Option (Memory α)
  | 0, _, _ => none
  | fuel + 1, m, this =>
    match load m this with
    | none => none
    | some h =>
      match h.next_node with
      | none => some m
      | some deleter =>
        match load m deleter with
        | none => none
        | some d =>
          match set_next m this d.next_node with
          | none => none
          | some m1 =>
            match delete m1 deleter with
            | none => none
            | some m2 => Clear_loop fuel m2 this

/-- Method `Clear()`: delete every node, then `size_ = 0`. -/
def Clear (m : Memory α) (this : Nat) : Option (Memory α) :=
  match Clear_loop (m.length + 1) m this with
  | none => none
  | some m1 => set_size m1 this 0

/-- The destructor `~SingleLinkedList()`: `Clear()`, after which the object's storage
is released. -/
def destroy (m : Memory α) (this : Nat) : Option (Memory α) :=
  match Clear m this with
  | none => none
  | some m1 =>
    match read m1 this with
    | some (.list _ _) => some (m1.set this none)
    | _ => none

/-- Member `swap(other)`: exchange head links and sizes unless `this == &other`. -/
def swap (m : Memory α) (this other : Nat) : Option (Memory α) :=
  if this ≠ other then
    match load m other, get_size m other, load m this with
    | some oh, some copy_size, some h =>
      let copy_ptr := oh.next_node
      match set_next m other h.next_node with
      | none => none
      | some m1 =>
        match get_size m1 this with
        | none => none
        | some size =>
          match set_size m1 other size with
          | none => none
          | some m2 =>
            match set_next m2 this copy_ptr with
            | none => none
            | some m3 => set_size m3 this copy_size
    | _, _, _ => none
  else
    match read m this with
    | some (.list _ _) => some m
    | _ => none

/-! ## Bulk fill, construction from values, copy and assignment -/

/-- What `Filling` uses of its template iterator type: `*it`, `++it`, `it == end` and
`std::distance`. -/
structure InputRange (α I : Type) where
  deref : Memory α → I → Option α
  incr : Memory α → I → Option I
  eq : I → I → Bool
  distance : Memory α → I → I → Option Nat

/-- The counting loop of `std::distance` for forward iterators. -/
def distance_loop : Nat → Memory α → BasicIterator → BasicIterator → Option Nat
  | 0, _, first, last => if first = last then some 0 else none
  | fuel + 1, m, first, last =>
    if first = last then some 0
    else
      match incr m first with
      | none => none
      | some nxt => (distance_loop fuel m nxt last).map (fun d => d + 1)

/-- The list's own `ConstIterator` as a range iterator.  A walk that does not revisit a
cell takes at most `m.length` increments, which bounds the counting loop. -/
def ListIt : InputRange α BasicIterator where
  deref := deref
  incr := incr
  eq := fun a b => decide (a = b)
  distance := fun m first last => distance_loop (m.length + 1) m first last

/-- The iterator of `std::initializer_list<Type>`: a `const Type*` into the backing array
`values`, represented by its index; `std::distance` is pointer subtraction. -/
def ArrayIt (values : List α) : InputRange α Nat where
  deref := fun _ i => values[i]?
  incr := fun _ i => if i < values.length then some (i + 1) else none
  eq := fun a b => decide (a = b)
  distance := fun _ first last => if first ≤ last then some (last - first) else none

/-- The loop `for (auto it = begin; it != end; ++it) dst.PushFront(*it);` of `Filling`,
run for at most `fuel` rounds. -/
def push_range {I : Type} (ops : InputRange α I) (copy_throws : Nat → α → Bool) :
    Nat → Memory α → Nat → I → I → Outcome α (Memory α)
  | 0, m, _, it, last => if ops.eq it last then .ok m else .undefined
  | fuel + 1, m, dst, it, last =>
    if ops.eq it last then .ok m
    else
      match ops.deref m it with
      | none => .undefined
      | some x =>
        match PushFront copy_throws m dst x with
        | .undefined => .undefined
        | .throws m1 => .throws m1
        | .ok m1 =>
          match ops.incr m1 it with
          | none => .undefined
          | some nxt => push_range ops copy_throws fuel m1 dst nxt last

/-- The tail shared by both exits of `Filling`: `tmp_reverse.Clear(); tmp.Clear();` and
then the destructors of the two locals, in reverse order of construction. -/
def Filling_release (m : Memory α) (tmp_reverse tmp : Nat) : Option (Memory α) :=
  match Clear m tmp_reverse with
  | none => none
  | some m1 =>
    match Clear m1 tmp with
    | none => none
    | some m2 =>
      match destroy m2 tmp with
      | none => none
      | some m3 => destroy m3 tmp_reverse

/-- Method `Filling(begin, end)`.  The first loop runs once per element of the range,
so the distance just computed is its fuel; the second loop walks `tmp_reverse`.  Either
loop leaves through the handler when a `PushFront` throws; every `PushFront` of the two
loops creates its node at a different allocation count, so each of them can be the one
that throws. -/
def Filling [Inhabited α] {I : Type} (ops : InputRange α I) (copy_throws : Nat → α → Bool)
    (m : Memory α) (this : Nat) (first last : I) : Outcome α (Memory α) :=
  match ops.distance m first last with
  | none => .undefined
  | some 0 => .ok m
  | some (d + 1) =>
    match ctor_default m with
    | (m1, tmp_reverse) =>
      match ctor_default m1 with
      | (m2, tmp) =>
        match push_range ops copy_throws (d + 1) m2 tmp_reverse first last with
        | .undefined => .undefined
        | .throws m3 =>
          match Filling_release m3 tmp_reverse tmp with
          | none => .undefined
          | some m4 => .throws m4
        | .ok m3 =>
          match begin m3 tmp_reverse with
          | none => .undefined
          | some b =>
            match push_range ListIt copy_throws (m3.length + 1) m3 tmp b (end_ tmp_reverse) with
            | .undefined => .undefined
            | .throws m4 =>
              match Filling_release m4 tmp_reverse tmp with
              | none => .undefined
              | some m5 => .throws m5
            | .ok m4 =>
              match swap m4 this tmp with
              | none => .undefined
              | some m5 =>
                match Filling_release m5 tmp_reverse tmp with
                | none => .undefined
                | some m6 => .ok m6

/-- The constructor `SingleLinkedList(std::initializer_list<Type> values)`.  When `Filling`
throws, the half-built object's storage is released. -/
def ctor_values [Inhabited α] (copy_throws : Nat → α → Bool) (m : Memory α) (values : List α) :
    Outcome α (Memory α × Nat) :=
  match ctor_default m with
  | (m1, this) =>
    match Filling (ArrayIt values) copy_throws m1 this 0 values.length with
    | .undefined => .undefined
    | .throws m2 => .throws (m2.set this none)
    | .ok m2 => .ok (m2, this)

/-- The copy assignment `operator=(const SingleLinkedList& rhs)`. -/
def operator_assign [Inhabited α] (copy_throws : Nat → α → Bool) (m : Memory α) (this rhs : Nat) :
    Outcome α (Memory α) :=
  if this ≠ rhs then
    match ctor_default m with
    | (m1, tmp) =>
      match begin m1 rhs with
      | none => .undefined
      | some b =>
        match Filling ListIt copy_throws m1 tmp b (end_ rhs) with
        | .undefined => .undefined
        | .throws m2 =>
          match Clear m2 tmp with
          | none => .undefined
          | some m3 =>
            match destroy m3 tmp with
            | none => .undefined
            | some m4 => .throws m4
        | .ok m2 =>
          match swap m2 this tmp with
          | none => .undefined
          | some m3 =>
            match Clear m3 tmp with
            | none => .undefined
            | some m4 =>
              match destroy m4 tmp with
              | none => .undefined
              | some m5 => .ok m5
  else .ok m

/-! ## Relational operators -/

/-- The three-iterator `std::equal(first1, last1, first2)`: the second range has no end,
so `*first2` is read for as long as the first range lasts. -/
def std_equal [DecidableEq α] :
    Nat → Memory α → BasicIterator → BasicIterator → BasicIterator → Option Bool
  | 0, _, first1, last1, _ => if first1 = last1 then some true else none
  | fuel + 1, m, first1, last1, first2 =>
    if first1 = last1 then some true
    else
      match deref m first1, deref m first2 with
      | some x, some y =>
        if x = y then
          match incr m first1, incr m first2 with
          | some n1, some n2 => std_equal fuel m n1 last1 n2
          | _, _ => none
        else some false
      | _, _ => none

/-- The algorithm `std::lexicographical_compare(first1, last1, first2, last2)`. -/
def std_lexicographical_compare [LT α] [DecidableRel (fun a b : α => a < b)] :
    Nat → Memory α → BasicIterator → BasicIterator → BasicIterator → BasicIterator →
      Option Bool
  | 0, _, first1, last1, first2, last2 =>
    if first1 ≠ last1 ∧ first2 ≠ last2 then none
    else some (decide (first1 = last1 ∧ first2 ≠ last2))
  | fuel + 1, m, first1, last1, first2, last2 =>
    if first1 ≠ last1 ∧ first2 ≠ last2 then
      match deref m first1, deref m first2 with
      | some x, some y =>
        if x < y then some true
        else if y < x then some false
        else
          match incr m first1, incr m first2 with
          | some n1, some n2 => std_lexicographical_compare fuel m n1 last1 n2 last2
          | _, _ => none
      | _, _ => none
    else some (decide (first1 = last1 ∧ first2 ≠ last2))

/-- The operator `lhs == rhs`: `std::equal(lhs.begin(), lhs.end(), rhs.begin())`. -/
def operator_eq [DecidableEq α] (m : Memory α) (lhs rhs : Nat) : Option Bool :=
  match begin m lhs, begin m rhs with
  | some b1, some b2 => std_equal (m.length + 1) m b1 (end_ lhs) b2
  | _, _ => none

/-- The operator `lhs != rhs`: `!(lhs == rhs)`. -/
def operator_ne [DecidableEq α] (m : Memory α) (lhs rhs : Nat) : Option Bool :=
  (operator_eq m lhs rhs).map (fun b => !b)

/-- The operator `lhs < rhs`:
`std::lexicographical_compare(lhs.begin(), lhs.end(), rhs.begin(), lhs.end())`. -/
def operator_lt [LT α] [DecidableRel (fun a b : α => a < b)] (m : Memory α) (lhs rhs : Nat) :
    Option Bool :=
  match begin m lhs, begin m rhs with
  | some b1, some b2 => std_lexicographical_compare (m.length + 1) m b1 (end_ lhs) b2 (end_ lhs)
  | _, _ => none

/-- The operator `lhs <= rhs`: `lhs < rhs || lhs == rhs`, the right operand evaluated only
when the left one is false. -/
def operator_le [DecidableEq α] [LT α] [DecidableRel (fun a b : α => a < b)] (m : Memory α)
    (lhs rhs : Nat) : Option Bool :=
  match operator_lt m lhs rhs with
  | none => none
  | some true => some true
  | some false => operator_eq m lhs rhs

/-- The operator `lhs > rhs`: `(!(lhs < rhs)) || lhs != rhs`. -/
def operator_gt [DecidableEq α] [LT α] [DecidableRel (fun a b : α => a < b)] (m : Memory α)
    (lhs rhs : Nat) : Option Bool :=
  match operator_lt m lhs rhs with
  | none => none
  | some false => some true
  | some true => operator_ne m lhs rhs

/-- The operator `lhs >= rhs`: `(!(lhs < rhs)) || lhs == rhs`. -/
def operator_ge [DecidableEq α] [LT α] [DecidableRel (fun a b : α => a < b)] (m : Memory α)
    (lhs rhs : Nat) : Option Bool :=
  match operator_lt m lhs rhs with
  | none => none
  | some false => some true
  | some true => operator_eq m lhs rhs

/-! ## Observation -/

/-- The loop `for (it = first; it != last; ++it) out.push_back(*it);`. -/
def collect : Nat → Memory α → BasicIterator → BasicIterator → Option (List α)
  | 0, _, it, last => if it = last then some [] else none
  | fuel + 1, m, it, last =>
    if it = last then some []
    else
      match deref m it, incr m it with
      | some x, some nxt => (collect fuel m nxt last).map (fun xs => x :: xs)
      | _, _ => none

/-- The element sequence of the list at `this`: what iterating from `begin()` to `end()`
yields. -/
def elements (m : Memory α) (this : Nat) : Option (List α) :=
  match begin m this with
  | none => none
  | some b => collect (m.length + 1) m b (end_ this)

/-! ## Representation predicates -/

/-- `Chain m p as xs`: following `next_node` from `p` visits exactly the live heap nodes
at the addresses `as`, which hold the values `xs`, and then reaches `nullptr`. -/
def Chain (m : Memory α) : Option Nat → List Nat → List α → Prop
  | p, [], [] => p = none
  | p, a :: as, x :: xs =>
    p = some a ∧ ∃ nxt, read m a = some (.node ⟨x, nxt⟩) ∧ Chain m nxt as xs
  | _, _, _ => False

/-- `IsList m this as xs s`: at address `this` lives a list object whose `size_` is the
`size_t` value `s` and whose sentinel heads the chain of nodes `as` with values `xs`. -/
def IsList (m : Memory α) (this : Nat) (as : List Nat) (xs : List α) (s : Nat) : Prop :=
  s < SIZE_MOD ∧ ∃ v p, read m this = some (.list ⟨v, p⟩ s) ∧ Chain m p as xs

/-- `Frame m m' fp`: every cell live in `m` and outside the footprint `fp` is the same
in `m'`. -/
def Frame (m m' : Memory α) (fp : List Nat) : Prop :=
  ∀ a c, read m a = some c → a ∉ fp → read m' a = some c

/-- `Iterates ops P first last S`: in every memory satisfying `P`, stepping from `first`
reads the values `S` one by one and then arrives at `last`. -/
def Iterates {I : Type} (ops : InputRange α I) (P : Memory α → Prop) : I → I → List α → Prop
  | it, last, [] => ops.eq it last = true
  | it, last, x :: xs =>
    ops.eq it last = false ∧
      ∃ nxt, (∀ m, P m → ops.deref m it = some x ∧ ops.incr m it = some nxt) ∧
        Iterates ops P nxt last xs

/-- `NoFailure copy_throws clock vals`: creating nodes for the values `vals` one after
the other, the first one at allocation count `clock`, never throws. -/
def NoFailure (copy_throws : Nat → α → Bool) (clock : Nat) (vals : List α) : Prop :=
  ∀ (i : Nat) (x : α), vals[i]? = some x → copy_throws (clock + i) x = false

/-- Lexicographic order as the specification words it: `xs` is a proper beginning of
`ys`, or at the first position where they differ the element of `xs` is the smaller. -/
def LexLess [LT α] (xs ys : List α) : Prop :=
  (∃ t, t ≠ [] ∧ ys = xs ++ t) ∨
    ∃ p x y s t, xs = p ++ x :: s ∧ ys = p ++ y :: t ∧ x < y

/-! ## Free-standing swap -/

/-- The free function `swap(lhs, rhs)`: `lhs.swap(rhs)`. -/
def nonmember_swap (m : Memory α) (lhs rhs : Nat) : Option (Memory α) :=
  swap m lhs rhs

/-! ## Client programs -/

/-- The node addresses visited by the loop `for (; it != end(); ++it)`. -/
def node_addresses : Nat → Memory α → BasicIterator → Option (List Nat)
  | 0, _, it => if it = none then some [] else none
  | fuel + 1, m, it =>
    match it with
    | none => some []
    | some a =>
      match incr m (some a) with
      | none => none
      | some nxt => (node_addresses fuel m nxt).map (fun as => a :: as)

/-- The iterators that denote a position of the list at `this`: `before_begin()`, then
the iterator to each element in turn. -/
def positions (m : Memory α) (this : Nat) : Option (List BasicIterator) :=
  match begin m this with
  | none => none
  | some b =>
    (node_addresses (m.length + 1) m b).map (fun as => before_begin this :: as.map some)

/-- One call made by a client of the container.  Lists are named by their address, a
position by its number in `positions`. -/
inductive Call (α : Type) where
  | construct
  | construct_values (values : List α)
  | PushFront (l : Nat) (value : α)
  | InsertAfter (l : Nat) (pos : Nat) (value : α)
  | PopFront (l : Nat)
  | EraseAfter (l : Nat) (pos : Nat)
  | Clear (l : Nat)
  | swap (a b : Nat)
  | assign (a b : Nat)

/-- The state of a client: the memory and the addresses of the lists it has constructed. -/
structure World (α : Type) where
  mem : Memory α
  lists : List Nat

/-- Runs one call.  The call must name lists the client has constructed and a position of
the list it acts on; a call with undefined behaviour has no result; a call that throws
leaves the memory the exception carries and the same lists. -/
def step [Inhabited α] (copy_throws : Nat → α → Bool) (w : World α) : Call α → Option (World α)
  | .construct =>
    match ctor_default w.mem with
    | (m', l) => some ⟨m', l :: w.lists⟩
  | .construct_values values =>
    match ctor_values copy_throws w.mem values with
    | .ok (m', l) => some ⟨m', l :: w.lists⟩
    | .throws m' => some ⟨m', w.lists⟩
    | .undefined => none
  | .PushFront l value =>
    if l ∈ w.lists then
      match PushFront copy_throws w.mem l value with
      | .ok m' => some ⟨m', w.lists⟩
      | .throws m' => some ⟨m', w.lists⟩
      | .undefined => none
    else none
  | .InsertAfter l pos value =>
    if l ∈ w.lists then
      match positions w.mem l with
      | none => none
      | some ps =>
        match ps[pos]? with
        | none => none
        | some it =>
          match InsertAfter copy_throws w.mem l it value with
          | .ok (m', _) => some ⟨m', w.lists⟩
          | .throws m' => some ⟨m', w.lists⟩
          | .undefined => none
    else none
  | .PopFront l =>
    if l ∈ w.lists then
      match PopFront w.mem l with
      | some m' => some ⟨m', w.lists⟩
      | none => none
    else none
  | .EraseAfter l pos =>
    if l ∈ w.lists then
      match positions w.mem l with
      | none => none
      | some ps =>
        match ps[pos]? with
        | none => none
        | some it =>
          match EraseAfter w.mem l it with
          | some (m', _) => some ⟨m', w.lists⟩
          | none => none
    else none
  | .Clear l =>
    if l ∈ w.lists then
      match Clear w.mem l with
      | some m' => some ⟨m', w.lists⟩
      | none => none
    else none
  | .swap a b =>
    if a ∈ w.lists ∧ b ∈ w.lists then
      match nonmember_swap w.mem a b with
      | some m' => some ⟨m', w.lists⟩
      | none => none
    else none
  | .assign a b =>
    if a ∈ w.lists ∧ b ∈ w.lists then
      match operator_assign copy_throws w.mem a b with
      | .ok m' => some ⟨m', w.lists⟩
      | .throws m' => some ⟨m', w.lists⟩
      | .undefined => none
    else none

/-- Runs a sequence of calls, one after the other. -/
def run [Inhabited α] (copy_throws : Nat → α → Bool) : List (Call α) → World α → Option (World α)
  | [], w => some w
  | c :: cs, w =>
    match step copy_throws w c with
    | none => none
    | some w' => run copy_throws cs w'

/-- The number of increments of a `size_` counter a call can cause. -/
def insertions : Call α → Nat
  | .construct_values values => values.length
  | .PushFront _ _ => 1
  | .InsertAfter _ _ _ => 1
  | _ => 0

/-- The invariant of a client state: every list is well formed with `size_` between the
number of its elements and the bound `B`, and no two lists share a node. -/
def WorldInv (w : World α) (B : Nat) : Prop :=
  (∀ l ∈ w.lists, ∃ as xs s, IsList w.mem l as xs s ∧ xs.length ≤ s ∧ s ≤ B) ∧
    ∀ l ∈ w.lists, ∀ k ∈ w.lists, l ≠ k → ∀ as xs s bs ys t,
      IsList w.mem l as xs s → IsList w.mem k bs ys t → ∀ a ∈ as, a ∉ bs

/-! ## Sample memories -/

/-- A memory holding the list `{1, 2}` at address 0 and the list `{1, 2, 3}` at
address 3. -/
def sample_pair : Memory Nat :=
  [some (.list ⟨0, some 1⟩ 2), some (.node ⟨1, some 2⟩), some (.node ⟨2, none⟩),
    some (.list ⟨0, some 4⟩ 3), some (.node ⟨1, some 5⟩), some (.node ⟨2, some 6⟩),
    some (.node ⟨3, none⟩)]

/-- A memory holding the list `{10, 20, 30}` at address 0. -/
def sample_triple : Memory Nat :=
  [some (.list ⟨0, some 1⟩ 3), some (.node ⟨10, some 2⟩), some (.node ⟨20, some 3⟩),
    some (.node ⟨30, none⟩)]

/-! ## Memory lemmas -/

theorem read_some_lt {m : Memory α} {a : Nat} {c : Cell α} (h : read m a = some c) :
    a < m.length := by
  by_contra hlt
  have : m[a]? = none := List.getElem?_eq_none (by omega)
  simp [read, this] at h

theorem read_set (m : Memory α) (a b : Nat) (c : Option (Cell α)) :
    read (m.set a c) b = if a = b ∧ a < m.length then c else read m b := by
  unfold read
  rw [List.getElem?_set]
  by_cases hab : a = b
  · subst hab
    by_cases hlt : a < m.length
    · simp [hlt]
    · have : m[a]? = none := List.getElem?_eq_none (by omega)
      simp [hlt, this]
  · simp [hab]

theorem read_set_ne (m : Memory α) {a b : Nat} (c : Option (Cell α)) (h : a ≠ b) :
    read (m.set a c) b = read m b := by
  rw [read_set]; simp [h]

theorem read_set_self {m : Memory α} {a : Nat} (c : Option (Cell α)) (h : a < m.length) :
    read (m.set a c) a = c := by
  rw [read_set]; simp [h]

theorem read_append_of_some {m : Memory α} {a : Nat} {c : Cell α} (t : Memory α)
    (h : read m a = some c) : read (m ++ t) a = some c := by
  have hlt := read_some_lt h
  unfold read at h ⊢
  rw [List.getElem?_append_left hlt]
  exact h

theorem read_append_length (m : Memory α) (c : Option (Cell α)) (t : Memory α) :
    read (m ++ c :: t) m.length = c := by
  unfold read
  rw [List.getElem?_append_right (le_refl _)]
  simp

theorem read_length (m : Memory α) : read m m.length = none := by
  unfold read
  simp

theorem load_node {m : Memory α} {a : Nat} {n : Node α} (h : read m a = some (.node n)) :
    load m a = some n := by
  simp [load, h]

theorem load_list {m : Memory α} {a : Nat} {h : Node α} {s : Nat}
    (hr : read m a = some (.list h s)) : load m a = some h := by
  simp [load, hr]

theorem set_next_list {m : Memory α} {a : Nat} {h : Node α} {s : Nat}
    (hr : read m a = some (.list h s)) (q : Option Nat) :
    set_next m a q = some (m.set a (some (.list ⟨h.value, q⟩ s))) := by
  simp [set_next, hr]

theorem set_next_node {m : Memory α} {a : Nat} {n : Node α}
    (hr : read m a = some (.node n)) (q : Option Nat) :
    set_next m a q = some (m.set a (some (.node ⟨n.value, q⟩))) := by
  simp [set_next, hr]

theorem get_size_list {m : Memory α} {a : Nat} {h : Node α} {s : Nat}
    (hr : read m a = some (.list h s)) : get_size m a = some s := by
  simp [get_size, hr]

theorem set_size_list {m : Memory α} {a : Nat} {h : Node α} {s : Nat}
    (hr : read m a = some (.list h s)) (t : Nat) :
    set_size m a t = some (m.set a (some (.list h t))) := by
  simp [set_size, hr]

theorem delete_node {m : Memory α} {a : Nat} {n : Node α} (hr : read m a = some (.node n)) :
    delete m a = some (m.set a none) := by
  simp [delete, hr]

/-! ## Chains and frames -/

theorem Chain_nil_iff {m : Memory α} {p : Option Nat} : Chain m p [] [] ↔ p = none := by
  simp [Chain]

theorem Chain_cons_iff {m : Memory α} {p : Option Nat} {a : Nat} {as : List Nat} {x : α}
    {xs : List α} :
    Chain m p (a :: as) (x :: xs) ↔
      p = some a ∧ ∃ nxt, read m a = some (.node ⟨x, nxt⟩) ∧ Chain m nxt as xs := by
  simp [Chain]

theorem Chain_length {m : Memory α} :
    ∀ {as : List Nat} {p : Option Nat} {xs : List α}, Chain m p as xs → as.length = xs.length
  | [], _, [], _ => rfl
  | [], _, _ :: _, h => by simp [Chain] at h
  | _ :: _, _, [], h => by simp [Chain] at h
  | _ :: as, _, _ :: xs, h => by
    obtain ⟨_, nxt, _, hc⟩ := Chain_cons_iff.mp h
    simp [Chain_length hc]

theorem Chain_node {m : Memory α} :
    ∀ {as : List Nat} {p : Option Nat} {xs : List α}, Chain m p as xs →
      ∀ a ∈ as, ∃ n, read m a = some (.node n)
  | [], _, _, _ => by simp
  | _ :: _, _, [], h => by simp [Chain] at h
  | b :: as, _, x :: xs, h => by
    obtain ⟨_, nxt, hr, hc⟩ := Chain_cons_iff.mp h
    intro a ha
    rcases List.mem_cons.mp ha with rfl | ha
    · exact ⟨_, hr⟩
    · exact Chain_node hc a ha

theorem Chain_congr {m m' : Memory α} :
    ∀ {as : List Nat} {p : Option Nat} {xs : List α}, Chain m p as xs →
      (∀ a ∈ as, read m' a = read m a) → Chain m' p as xs
  | [], _, [], h, _ => by simpa [Chain] using h
  | [], _, _ :: _, h, _ => by simp [Chain] at h
  | _ :: _, _, [], h, _ => by simp [Chain] at h
  | b :: as, _, x :: xs, h, hm => by
    obtain ⟨hp, nxt, hr, hc⟩ := Chain_cons_iff.mp h
    refine Chain_cons_iff.mpr ⟨hp, nxt, ?_, ?_⟩
    · rw [hm b (List.mem_cons_self _ _)]; exact hr
    · exact Chain_congr hc (fun a ha => hm a (List.mem_cons_of_mem _ ha))

theorem Chain_frame {m m' : Memory α} {fp : List Nat} {as : List Nat} {p : Option Nat}
    {xs : List α} (h : Chain m p as xs) (hf : Frame m m' fp) (hd : ∀ a ∈ as, a ∉ fp) :
    Chain m' p as xs := by
  refine Chain_congr h (fun a ha => ?_)
  obtain ⟨n, hn⟩ := Chain_node h a ha
  rw [hn]
  exact hf a _ hn (hd a ha)

theorem Chain_det {m : Memory α} :
    ∀ {as : List Nat} {p : Option Nat} {xs : List α} {bs : List Nat} {ys : List α},
      Chain m p as xs → Chain m p bs ys → as = bs ∧ xs = ys
  | [], _, [], [], [], _, _ => ⟨rfl, rfl⟩
  | [], _, [], [], _ :: _, _, h => by simp [Chain] at h
  | [], _, [], _ :: _, [], _, h => by simp [Chain] at h
  | [], _, [], _ :: _, _ :: _, h1, h2 => by
    have h1 := Chain_nil_iff.mp h1
    obtain ⟨hp, _⟩ := Chain_cons_iff.mp h2
    rw [h1] at hp
    cases hp
  | [], _, _ :: _, _, _, h, _ => by simp [Chain] at h
  | _ :: _, _, [], _, _, h, _ => by simp [Chain] at h
  | _ :: _, _, _ :: _, [], [], h1, h2 => by
    have h2 := Chain_nil_iff.mp h2
    obtain ⟨hp, _⟩ := Chain_cons_iff.mp h1
    rw [h2] at hp
    cases hp
  | _ :: _, _, _ :: _, [], _ :: _, _, h => by simp [Chain] at h
  | _ :: _, _, _ :: _, _ :: _, [], _, h => by simp [Chain] at h
  | a :: as, _, x :: xs, b :: bs, y :: ys, h1, h2 => by
    obtain ⟨hp1, n1, hr1, hc1⟩ := Chain_cons_iff.mp h1
    obtain ⟨hp2, n2, hr2, hc2⟩ := Chain_cons_iff.mp h2
    rw [hp1] at hp2
    cases hp2
    rw [hr1] at hr2
    cases hr2
    obtain ⟨e1, e2⟩ := Chain_det hc1 hc2
    exact ⟨by rw [e1], by rw [e2]⟩

theorem Chain_mem_split {m : Memory α} :
    ∀ {as : List Nat} {p : Option Nat} {xs : List α}, Chain m p as xs → ∀ a ∈ as,
      ∃ as1 as2 xs2, as = as1 ++ a :: as2 ∧ Chain m (some a) (a :: as2) xs2
  | [], _, _, _ => by simp
  | _ :: _, _, [], h => by simp [Chain] at h
  | b :: as, _, x :: xs, h => by
    obtain ⟨hp, nxt, hr, hc⟩ := Chain_cons_iff.mp h
    intro a ha
    rcases List.mem_cons.mp ha with rfl | ha
    · exact ⟨[], as, x :: xs, rfl, Chain_cons_iff.mpr ⟨rfl, nxt, hr, hc⟩⟩
    · obtain ⟨as1, as2, xs2, e, hc2⟩ := Chain_mem_split hc a ha
      exact ⟨b :: as1, as2, xs2, by rw [e]; rfl, hc2⟩

theorem Chain_nodup {m : Memory α} :
    ∀ {as : List Nat} {p : Option Nat} {xs : List α}, Chain m p as xs → as.Nodup
  | [], _, _, _ => List.nodup_nil
  | _ :: _, _, [], h => by simp [Chain] at h
  | b :: as, _, x :: xs, h => by
    obtain ⟨hp, nxt, hr, hc⟩ := Chain_cons_iff.mp h
    refine List.nodup_cons.mpr ⟨fun hb => ?_, Chain_nodup hc⟩
    obtain ⟨as1, as2, xs2, e, hc2⟩ := Chain_mem_split hc b hb
    have h1 : Chain m (some b) (b :: as) (x :: xs) := Chain_cons_iff.mpr ⟨rfl, nxt, hr, hc⟩
    obtain ⟨e1, _⟩ := Chain_det h1 hc2
    have e3 : as.length = as1.length + (as.length + 1) := by
      have e2 : as = as2 := by injection e1
      have := congrArg List.length e
      rw [← e2] at this
      simpa using this
    omega

theorem Chain_length_le {m : Memory α} {as : List Nat} {p : Option Nat} {xs : List α}
    (h : Chain m p as xs) : as.length ≤ m.length := by
  have hnd := Chain_nodup h
  have hsub : as.toFinset ⊆ Finset.range m.length := by
    intro a ha
    obtain ⟨n, hn⟩ := Chain_node h a (List.mem_toFinset.mp ha)
    exact Finset.mem_range.mpr (read_some_lt hn)
  have := Finset.card_le_card hsub
  rwa [List.toFinset_card_of_nodup hnd, Finset.card_range] at this

theorem Chain_not_list {m : Memory α} {as : List Nat} {p : Option Nat} {xs : List α}
    (h : Chain m p as xs) {l : Nat} {hd : Node α} {s : Nat}
    (hl : read m l = some (.list hd s)) : l ∉ as := by
  intro hmem
  obtain ⟨n, hn⟩ := Chain_node h l hmem
  rw [hl] at hn
  cases hn

theorem Frame_refl (m : Memory α) (fp : List Nat) : Frame m m fp :=
  fun _ _ h _ => h

theorem Frame_trans {m1 m2 m3 : Memory α} {fp1 fp2 : List Nat} (h1 : Frame m1 m2 fp1)
    (h2 : Frame m2 m3 fp2) : Frame m1 m3 (fp1 ++ fp2) := by
  intro a c hr hn
  have hn' := List.mem_append.not.mp hn
  push_neg at hn'
  exact h2 a c (h1 a c hr hn'.1) hn'.2

theorem Frame_mono {m m' : Memory α} {fp fp' : List Nat} (h : Frame m m' fp)
    (hsub : ∀ a ∈ fp, read m a ≠ none → a ∈ fp') : Frame m m' fp' := by
  intro a c hr hn
  exact h a c hr (fun hmem => hn (hsub a hmem (by rw [hr]; simp)))

theorem Frame_append (m t : Memory α) (fp : List Nat) : Frame m (m ++ t) fp :=
  fun _ _ h _ => read_append_of_some t h

theorem Frame_set (m : Memory α) (a : Nat) (c : Option (Cell α)) : Frame m (m.set a c) [a] := by
  intro b d hr hn
  rw [read_set_ne m c (by simpa [eq_comm] using hn)]
  exact hr

theorem IsList_frame {m m' : Memory α} {fp : List Nat} {l : Nat} {as : List Nat}
    {xs : List α} {s : Nat} (h : IsList m l as xs s) (hf : Frame m m' fp) (hl : l ∉ fp)
    (hd : ∀ a ∈ as, a ∉ fp) : IsList m' l as xs s := by
  obtain ⟨hs, v, p, hr, hc⟩ := h
  exact ⟨hs, v, p, hf l _ hr hl, Chain_frame hc hf hd⟩

theorem IsList_not_mem {m : Memory α} {l : Nat} {as : List Nat} {xs : List α} {s : Nat}
    (h : IsList m l as xs s) : l ∉ as := by
  obtain ⟨_, v, p, hr, hc⟩ := h
  exact Chain_not_list hc hr

theorem IsList_lt {m : Memory α} {l : Nat} {as : List Nat} {xs : List α} {s : Nat}
    (h : IsList m l as xs s) : l < m.length ∧ ∀ a ∈ as, a < m.length := by
  obtain ⟨_, v, p, hr, hc⟩ := h
  refine ⟨read_some_lt hr, fun a ha => ?_⟩
  obtain ⟨n, hn⟩ := Chain_node hc a ha
  exact read_some_lt hn

theorem IsList_other {m : Memory α} {l k : Nat} {as bs : List Nat} {xs ys : List α}
    {s t : Nat} (h : IsList m l as xs s) (hk : IsList m k bs ys t) : k ∉ as := by
  obtain ⟨_, v, p, hr, hc⟩ := h
  obtain ⟨_, w, q, hr2, _⟩ := hk
  exact Chain_not_list hc hr2

/-! ## Observation of a well-formed list -/

theorem collect_Chain {m : Memory α} :
    ∀ {as : List Nat} {p : Option Nat} {xs : List α}, Chain m p as xs →
      ∀ fuel, as.length ≤ fuel → collect fuel m p none = some xs
  | [], _, [], h, fuel, _ => by
    have hp := Chain_nil_iff.mp h
    subst hp
    cases fuel <;> simp [collect]
  | [], _, _ :: _, h, _, _ => by simp [Chain] at h
  | _ :: _, _, [], h, _, _ => by simp [Chain] at h
  | a :: as, _, x :: xs, h, fuel, hfuel => by
    obtain ⟨hp, nxt, hr, hc⟩ := Chain_cons_iff.mp h
    subst hp
    cases fuel with
    | zero => simp at hfuel
    | succ f =>
      have ih := collect_Chain hc f (by simpa using hfuel)
      simp [collect, deref, incr, load_node hr, ih]

theorem elements_IsList {m : Memory α} {l : Nat} {as : List Nat} {xs : List α} {s : Nat}
    (h : IsList m l as xs s) : elements m l = some xs := by
  obtain ⟨_, v, p, hr, hc⟩ := h
  have := collect_Chain hc (m.length + 1) (by have := Chain_length_le hc; omega)
  simp [elements, begin, load_list hr, end_, this]

theorem GetSize_IsList {m : Memory α} {l : Nat} {as : List Nat} {xs : List α} {s : Nat}
    (h : IsList m l as xs s) : GetSize m l = some s := by
  obtain ⟨_, v, p, hr, _⟩ := h
  simp [GetSize, get_size_list hr]

theorem begin_IsList {m : Memory α} {l : Nat} {as : List Nat} {xs : List α} {s : Nat}
    (h : IsList m l as xs s) : ∃ p, begin m l = some p ∧ Chain m p as xs := by
  obtain ⟨_, v, p, hr, hc⟩ := h
  exact ⟨p, by simp [begin, load_list hr], hc⟩

/-! ## Specifications of the mutating methods -/

theorem ctor_default_ok [Inhabited α] (m : Memory α) :
    IsList (ctor_default m).1 m.length [] [] 0 ∧ (ctor_default m).2 = m.length ∧
      Frame m (ctor_default m).1 [] ∧ (ctor_default m).1.length = m.length + 1 := by
  refine ⟨⟨by decide, default, none, ?_, Chain_nil_iff.mpr rfl⟩, rfl, Frame_append _ _ _, ?_⟩
  · exact read_append_length m _ []
  · simp [ctor_default]

theorem PushFront_throws {copy_throws : Nat → α → Bool} {m : Memory α} {l : Nat} {as : List Nat}
    {xs : List α} {s : Nat} (h : IsList m l as xs s) {v : α}
    (hv : copy_throws m.length v = true) :
    PushFront copy_throws m l v = .throws m := by
  obtain ⟨_, w, p, hr, _⟩ := h
  simp [PushFront, load_list hr, new_Node, hv]

theorem PushFront_ok {copy_throws : Nat → α → Bool} {m : Memory α} {l : Nat} {as : List Nat}
    {xs : List α} {s : Nat} (h : IsList m l as xs s) {v : α}
    (hv : copy_throws m.length v = false) :
    ∃ m', PushFront copy_throws m l v = .ok m' ∧
      IsList m' l (m.length :: as) (v :: xs) ((s + 1) % SIZE_MOD) ∧ Frame m m' [l] ∧
      m'.length = m.length + 1 := by
  obtain ⟨hlt, hlts⟩ := IsList_lt h
  have hnot := IsList_not_mem h
  obtain ⟨hs, w, p, hr, hc⟩ := h
  have hr1 : read (m ++ [some (Cell.node ⟨v, p⟩)]) l = some (.list ⟨w, p⟩ s) :=
    read_append_of_some _ hr
  have hl1 : l < (m ++ [some (Cell.node ⟨v, p⟩)]).length := by simp; omega
  have hr2 : read ((m ++ [some (Cell.node ⟨v, p⟩)]).set l
      (some (.list ⟨w, some m.length⟩ s))) l = some (.list ⟨w, some m.length⟩ s) :=
    read_set_self _ hl1
  refine ⟨((m ++ [some (Cell.node ⟨v, p⟩)]).set l (some (.list ⟨w, some m.length⟩ s))).set l
      (some (.list ⟨w, some m.length⟩ ((s + 1) % SIZE_MOD))), ?_, ?_, ?_, ?_⟩
  · simp [PushFront, load_list hr, new_Node, hv, set_next_list hr1, get_size_list hr2,
      set_size_list hr2]
  · have hfr : ∀ a, a ≠ l → read (((m ++ [some (Cell.node ⟨v, p⟩)]).set l
        (some (.list ⟨w, some m.length⟩ s))).set l
        (some (.list ⟨w, some m.length⟩ ((s + 1) % SIZE_MOD)))) a
        = read (m ++ [some (Cell.node ⟨v, p⟩)]) a := by
      intro a ha
      rw [read_set_ne _ _ (Ne.symm ha), read_set_ne _ _ (Ne.symm ha)]
    refine ⟨Nat.mod_lt _ (by decide), w, some m.length, ?_, ?_⟩
    · exact read_set_self _ (by simpa using hl1)
    · refine Chain_cons_iff.mpr ⟨rfl, p, ?_, ?_⟩
      · rw [hfr _ (by omega)]
        exact read_append_length m _ []
      · refine Chain_congr hc (fun a ha => ?_)
        have hal : a ≠ l := fun e => hnot (e ▸ ha)
        rw [hfr a hal]
        obtain ⟨n, hn⟩ := Chain_node hc a ha
        rw [hn]
        exact read_append_of_some _ hn
  · exact Frame_mono (Frame_trans (Frame_trans (Frame_append m _ []) (Frame_set _ l _))
      (Frame_set _ l _)) (by simp)
  · simp

theorem Clear_loop_ok {l : Nat} {v : α} {s : Nat} :
    ∀ {as : List Nat} {p : Option Nat} {xs : List α} {m : Memory α},
      read m l = some (.list ⟨v, p⟩ s) → Chain m p as xs → ∀ fuel, as.length < fuel →
      ∃ m', Clear_loop fuel m l = some m' ∧ read m' l = some (.list ⟨v, none⟩ s) ∧
        Frame m m' (l :: as) ∧ m'.length = m.length
  | [], _, [], m, hr, hc, fuel, hfuel => by
    have hp := Chain_nil_iff.mp hc
    subst hp
    cases fuel with
    | zero => simp at hfuel
    | succ f => exact ⟨m, by simp [Clear_loop, load_list hr], hr, Frame_refl _ _, rfl⟩
  | [], _, _ :: _, _, _, h, _, _ => by simp [Chain] at h
  | _ :: _, _, [], _, _, h, _, _ => by simp [Chain] at h
  | a :: as, _, x :: xs, m, hr, hc, fuel, hfuel => by
    have hnd := Chain_nodup hc
    have hnl := Chain_not_list hc hr
    obtain ⟨hp, nxt, hra, hc'⟩ := Chain_cons_iff.mp hc
    subst hp
    have hal : a ≠ l := fun e => hnl (e ▸ List.mem_cons_self _ _)
    cases fuel with
    | zero => simp at hfuel
    | succ f =>
      have hl := read_some_lt hr
      have hr1 : read (m.set l (some (.list ⟨v, nxt⟩ s))) a = some (.node ⟨x, nxt⟩) := by
        rw [read_set_ne _ _ (Ne.symm hal)]; exact hra
      have hr2 : read ((m.set l (some (.list ⟨v, nxt⟩ s))).set a none) l
          = some (.list ⟨v, nxt⟩ s) := by
        rw [read_set_ne _ _ hal]; exact read_set_self _ hl
      have hc2 : Chain ((m.set l (some (.list ⟨v, nxt⟩ s))).set a none) nxt as xs := by
        refine Chain_congr hc' (fun b hb => ?_)
        have hba : a ≠ b := fun e => (List.nodup_cons.mp hnd).1 (e ▸ hb)
        have hbl : l ≠ b := fun e => hnl (e ▸ List.mem_cons_of_mem _ hb)
        rw [read_set_ne _ _ hba, read_set_ne _ _ hbl]
      obtain ⟨m', hcl, hrl, hfr, hlen⟩ := Clear_loop_ok hr2 hc2 f (by simpa using hfuel)
      refine ⟨m', ?_, hrl, ?_, ?_⟩
      · simp [Clear_loop, load_list hr, load_node hra, set_next_list hr, delete_node hr1, hcl]
      · refine Frame_mono (Frame_trans (Frame_trans (Frame_set m l _) (Frame_set _ a _)) hfr) ?_
        intro b hb _
        simp only [List.mem_append, List.mem_cons, List.mem_singleton, List.not_mem_nil,
          or_false] at hb ⊢
        tauto
      · simpa using hlen

theorem Clear_ok {m : Memory α} {l : Nat} {as : List Nat} {xs : List α} {s : Nat}
    (h : IsList m l as xs s) :
    ∃ m', Clear m l = some m' ∧ IsList m' l [] [] 0 ∧ Frame m m' (l :: as) ∧
      m'.length = m.length := by
  obtain ⟨hs, v, p, hr, hc⟩ := h
  obtain ⟨m1, hcl, hrl, hfr, hlen⟩ :=
    Clear_loop_ok hr hc (m.length + 1) (by have := Chain_length_le hc; omega)
  have hl1 : l < m1.length := read_some_lt hrl
  refine ⟨m1.set l (some (.list ⟨v, none⟩ 0)), ?_, ?_, ?_, ?_⟩
  · simp [Clear, hcl, set_size_list hrl]
  · exact ⟨by decide, v, none, read_set_self _ hl1, Chain_nil_iff.mpr rfl⟩
  · refine Frame_mono (Frame_trans hfr (Frame_set m1 l _)) ?_
    intro b hb _
    simp only [List.mem_append, List.mem_cons, List.mem_singleton] at hb ⊢
    tauto
  · simpa using hlen

theorem destroy_ok {m : Memory α} {l : Nat} {as : List Nat} {xs : List α} {s : Nat}
    (h : IsList m l as xs s) :
    ∃ m', destroy m l = some m' ∧ Frame m m' (l :: as) ∧ m'.length = m.length := by
  obtain ⟨m1, hcl, hl1, hfr, hlen⟩ := Clear_ok h
  obtain ⟨_, v, p, hr, _⟩ := hl1
  refine ⟨m1.set l none, ?_, ?_, ?_⟩
  · simp [destroy, hcl, hr]
  · refine Frame_mono (Frame_trans hfr (Frame_set m1 l _)) ?_
    intro b hb _
    simp only [List.mem_append, List.mem_cons, List.mem_singleton] at hb ⊢
    tauto
  · simpa using hlen

theorem swap_ok {m : Memory α} {a b : Nat} {as bs : List Nat} {xs ys : List α} {s t : Nat}
    (ha : IsList m a as xs s) (hb : IsList m b bs ys t) (hab : a ≠ b) :
    ∃ m', swap m a b = some m' ∧ IsList m' a bs ys t ∧ IsList m' b as xs s ∧
      Frame m m' [a, b] ∧ m'.length = m.length := by
  have hba : b ≠ a := Ne.symm hab
  have hna := IsList_not_mem ha
  have hnb := IsList_not_mem hb
  have hnab := IsList_other hb ha
  have hnba := IsList_other ha hb
  obtain ⟨hs, v, p, hra, hca⟩ := ha
  obtain ⟨ht, w, q, hrb, hcb⟩ := hb
  have hla := read_some_lt hra
  have hlb := read_some_lt hrb
  have e1 : read (m.set b (some (.list ⟨w, p⟩ t))) a = some (.list ⟨v, p⟩ s) := by
    rw [read_set_ne _ _ hba]; exact hra
  have e2 : read (m.set b (some (.list ⟨w, p⟩ t))) b = some (.list ⟨w, p⟩ t) :=
    read_set_self _ hlb
  have e3 : read ((m.set b (some (.list ⟨w, p⟩ t))).set b (some (.list ⟨w, p⟩ s))) a
      = some (.list ⟨v, p⟩ s) := by
    rw [read_set_ne _ _ hba]; exact e1
  have e4 : read (((m.set b (some (.list ⟨w, p⟩ t))).set b (some (.list ⟨w, p⟩ s))).set a
      (some (.list ⟨v, q⟩ s))) a = some (.list ⟨v, q⟩ s) :=
    read_set_self _ (by simpa using hla)
  refine ⟨(((m.set b (some (.list ⟨w, p⟩ t))).set b (some (.list ⟨w, p⟩ s))).set a
      (some (.list ⟨v, q⟩ s))).set a (some (.list ⟨v, q⟩ t)), ?_, ?_, ?_, ?_, ?_⟩
  · unfold swap
    rw [if_pos hab]
    simp only [load_list hra, load_list hrb, get_size_list hrb, set_next_list hrb,
      get_size_list e1, set_size_list e2, set_next_list e3, set_size_list e4]
  · refine ⟨ht, v, q, read_set_self _ (by simpa using hla), Chain_congr hcb (fun c hc => ?_)⟩
    have hca' : a ≠ c := fun e => hnab (e ▸ hc)
    have hcb' : b ≠ c := fun e => hnb (e ▸ hc)
    rw [read_set_ne _ _ hca', read_set_ne _ _ hca', read_set_ne _ _ hcb', read_set_ne _ _ hcb']
  · refine ⟨hs, w, p, ?_, Chain_congr hca (fun c hc => ?_)⟩
    · rw [read_set_ne _ _ hab, read_set_ne _ _ hab]
      exact read_set_self _ (by simpa using hlb)
    · have hca' : a ≠ c := fun e => hna (e ▸ hc)
      have hcb' : b ≠ c := fun e => hnba (e ▸ hc)
      rw [read_set_ne _ _ hca', read_set_ne _ _ hca', read_set_ne _ _ hcb',
        read_set_ne _ _ hcb']
  · refine Frame_mono (Frame_trans (Frame_trans (Frame_trans (Frame_set m b _)
      (Frame_set _ b _)) (Frame_set _ a _)) (Frame_set _ a _)) ?_
    intro c hc _
    simp only [List.mem_append, List.mem_cons, List.mem_singleton, List.not_mem_nil,
      or_false] at hc ⊢
    tauto
  · simp

/-! ## Ranges -/

theorem Iterates_mono {I : Type} {ops : InputRange α I} {P Q : Memory α → Prop}
    (hPQ : ∀ m, Q m → P m) :
    ∀ {S : List α} {first last : I}, Iterates ops P first last S → Iterates ops Q first last S
  | [], _, _, h => h
  | _ :: _, _, _, h => by
    obtain ⟨he, nxt, hstep, hrest⟩ := h
    exact ⟨he, nxt, fun m hm => hstep m (hPQ m hm), Iterates_mono hPQ hrest⟩

theorem Iterates_ListIt {m : Memory α} {P : Memory α → Prop} :
    ∀ {as : List Nat} {p : Option Nat} {xs : List α}, Chain m p as xs →
      (∀ m', P m' → ∀ a ∈ as, read m' a = read m a) → Iterates ListIt P p none xs
  | [], _, [], h, _ => by
    have hp := Chain_nil_iff.mp h
    subst hp
    simp [Iterates, ListIt]
  | [], _, _ :: _, h, _ => by simp [Chain] at h
  | _ :: _, _, [], h, _ => by simp [Chain] at h
  | a :: as, _, x :: xs, h, hP => by
    obtain ⟨hp, nxt, hr, hc⟩ := Chain_cons_iff.mp h
    subst hp
    refine ⟨by simp [ListIt], nxt, fun m' hm' => ?_, ?_⟩
    · have hr' : read m' a = some (.node ⟨x, nxt⟩) := by
        rw [hP m' hm' a (List.mem_cons_self _ _)]; exact hr
      simp [ListIt, deref, incr, load_node hr']
    · exact Iterates_ListIt hc (fun m' hm' b hb => hP m' hm' b (List.mem_cons_of_mem _ hb))

theorem distance_loop_Chain {m : Memory α} :
    ∀ {as : List Nat} {p : Option Nat} {xs : List α}, Chain m p as xs →
      ∀ fuel, as.length ≤ fuel → distance_loop fuel m p none = some as.length
  | [], _, [], h, fuel, _ => by
    have hp := Chain_nil_iff.mp h
    subst hp
    cases fuel <;> simp [distance_loop]
  | [], _, _ :: _, h, _, _ => by simp [Chain] at h
  | _ :: _, _, [], h, _, _ => by simp [Chain] at h
  | a :: as, _, x :: xs, h, fuel, hfuel => by
    obtain ⟨hp, nxt, hr, hc⟩ := Chain_cons_iff.mp h
    subst hp
    cases fuel with
    | zero => simp at hfuel
    | succ f =>
      have ih := distance_loop_Chain hc f (by simpa using hfuel)
      simp [distance_loop, incr, load_node hr, ih]

theorem Iterates_ArrayIt (values : List α) (P : Memory α → Prop) :
    ∀ (S : List α) (i : Nat), i ≤ values.length → values.drop i = S →
      Iterates (ArrayIt values) P i values.length S
  | [], i, hi, h => by
    have hle : values.length ≤ i := List.drop_eq_nil_iff.mp h
    have e : i = values.length := le_antisymm hi hle
    simp [Iterates, ArrayIt, e]
  | x :: S, i, _, h => by
    have hlt : i < values.length := by
      by_contra hge
      rw [List.drop_eq_nil_iff.mpr (by omega)] at h
      cases h
    rw [List.drop_eq_getElem_cons hlt] at h
    injection h with hx hS
    refine ⟨by simp [ArrayIt]; omega, i + 1, fun m _ => ?_, ?_⟩
    · simp [ArrayIt, hlt, List.getElem?_eq_getElem hlt, hx]
    · exact Iterates_ArrayIt values P S (i + 1) hlt hS

theorem push_range_ok {I : Type} (ops : InputRange α I) (copy_throws : Nat → α → Bool) {dst : Nat}
    {last : I} :
    ∀ (S : List α) {m : Memory α} {ds : List Nat} {ys : List α} {s : Nat} {first : I}
      {fuel : Nat}, IsList m dst ds ys s →
      Iterates ops (fun m' => Frame m m' [dst]) first last S →
      NoFailure copy_throws m.length S → S.length ≤ fuel →
      ∃ m' ns, push_range ops copy_throws fuel m dst first last = .ok m' ∧
        IsList m' dst (ns ++ ds) (S.reverse ++ ys) ((s + S.length) % SIZE_MOD) ∧
        Frame m m' [dst] ∧ (∀ a ∈ ns, m.length ≤ a) ∧ m'.length = m.length + S.length
  | [], m, ds, ys, s, first, fuel, hl, hit, _, _ => by
    have he : ops.eq first last = true := hit
    refine ⟨m, [], ?_, ?_, Frame_refl _ _, by simp, rfl⟩
    · cases fuel <;> simp [push_range, he]
    · have hs := hl.1
      simpa [Nat.mod_eq_of_lt hs] using hl
  | x :: S, m, ds, ys, s, first, fuel, hl, hit, hct, hfuel => by
    obtain ⟨he, nxt, hstep, hrest⟩ := hit
    cases fuel with
    | zero => simp at hfuel
    | succ f =>
      obtain ⟨hd, _⟩ := hstep m (Frame_refl _ _)
      obtain ⟨m1, hpf, hl1, hf1, hlen1⟩ := PushFront_ok hl (hct 0 x (by simp))
      obtain ⟨_, hi⟩ := hstep m1 hf1
      have hrest1 : Iterates ops (fun m' => Frame m1 m' [dst]) nxt last S :=
        Iterates_mono (fun m' hm' => Frame_mono (Frame_trans hf1 hm') (by simp)) hrest
      have hct1 : NoFailure copy_throws m1.length S := by
        intro i y hy
        have h := hct (i + 1) y (by simpa using hy)
        rwa [show m.length + (i + 1) = m1.length + i by omega] at h
      obtain ⟨m', ns, hpr, hl', hf', hns, hlen'⟩ := push_range_ok ops copy_throws S hl1 hrest1
        hct1 (by simpa using hfuel)
      refine ⟨m', ns ++ [m.length], ?_, ?_, ?_, ?_, by simp only [List.length_cons]; omega⟩
      · simp [push_range, he, hd, hpf, hi, hpr]
      · have e : ((s + 1) % SIZE_MOD + S.length) % SIZE_MOD
            = (s + (x :: S).length) % SIZE_MOD := by
          simp only [List.length_cons, SIZE_MOD]
          omega
        rw [← e]
        simpa using hl'
      · exact Frame_mono (Frame_trans hf1 hf') (by simp)
      · intro a ha
        rcases List.mem_append.mp ha with h | h
        · have := hns a h
          omega
        · simp at h
          omega

/-! ## Bulk fill -/

theorem Filling_release_ok {m : Memory α} {tr tmp : Nat} {rs ts : List Nat} {xs ys : List α}
    {s t : Nat} (hr : IsList m tr rs xs s) (ht : IsList m tmp ts ys t) (hne : tr ≠ tmp)
    (hdisj : ∀ a ∈ rs, a ∉ ts) :
    ∃ m', Filling_release m tr tmp = some m' ∧ Frame m m' (tr :: tmp :: (rs ++ ts)) ∧
      m'.length = m.length := by
  have h1 := IsList_other hr ht
  have h2 := IsList_other ht hr
  obtain ⟨m1, hc1, hr1, hf1, hlen1⟩ := Clear_ok hr
  have ht1 : IsList m1 tmp ts ys t := by
    refine IsList_frame ht hf1 ?_ ?_
    · simp only [List.mem_cons, not_or]
      exact ⟨Ne.symm hne, h1⟩
    · intro a ha
      simp only [List.mem_cons, not_or]
      exact ⟨fun e => h2 (e ▸ ha), fun har => hdisj a har ha⟩
  obtain ⟨m2, hc2, ht2, hf2, hlen2⟩ := Clear_ok ht1
  have hr2 : IsList m2 tr [] [] 0 := by
    refine IsList_frame hr1 hf2 ?_ (by simp)
    simp only [List.mem_cons, not_or]
    exact ⟨hne, h2⟩
  obtain ⟨m3, hd3, hf3, hlen3⟩ := destroy_ok ht2
  have hr3 : IsList m3 tr [] [] 0 :=
    IsList_frame hr2 hf3 (by simpa using hne) (by simp)
  obtain ⟨m4, hd4, hf4, hlen4⟩ := destroy_ok hr3
  refine ⟨m4, by simp [Filling_release, hc1, hc2, hd3, hd4], ?_, by omega⟩
  refine Frame_mono (Frame_trans (Frame_trans (Frame_trans hf1 hf2) hf3) hf4) ?_
  intro a ha _
  simp only [List.mem_append, List.mem_cons, List.mem_singleton, List.not_mem_nil,
    or_false] at ha ⊢
  tauto

theorem Filling_empty [Inhabited α] {I : Type} (ops : InputRange α I) (copy_throws : Nat → α → Bool)
    {m : Memory α} {this : Nat} {first last : I} (hd : ops.distance m first last = some 0) :
    Filling ops copy_throws m this first last = .ok m := by
  simp [Filling, hd]

theorem Filling_ok [Inhabited α] {I : Type} (ops : InputRange α I) (copy_throws : Nat → α → Bool)
    {m : Memory α} {this : Nat} {as : List Nat} {xs : List α} {s : Nat} {first last : I}
    (S : List α) (hthis : IsList m this as xs s)
    (hS : Iterates ops (fun m' => Frame m m' []) first last S)
    (hd : ops.distance m first last = some S.length)
    (hct : NoFailure copy_throws (m.length + 2) (S ++ S.reverse)) (hne : S ≠ []) :
    ∃ m' ns, Filling ops copy_throws m this first last = .ok m' ∧
      IsList m' this ns S (S.length % SIZE_MOD) ∧ Frame m m' (this :: as) ∧
      (∀ a ∈ ns, m.length ≤ a) := by
  obtain ⟨d, hlenS⟩ : ∃ d, S.length = d + 1 :=
    ⟨S.length - 1, by have := List.length_pos.mpr hne; omega⟩
  obtain ⟨hthis_lt, has_lt⟩ := IsList_lt hthis
  -- the two locals
  obtain ⟨htr1, -, hf01, hlen1⟩ := ctor_default_ok m
  obtain ⟨htmp2, -, hf12, hlen2⟩ := ctor_default_ok (ctor_default m).1
  generalize hm1 : (ctor_default m).1 = m1 at htr1 hf01 hlen1 htmp2 hf12 hlen2
  generalize hm2 : (ctor_default m1).1 = m2 at htmp2 hf12 hlen2
  rw [hlen1] at htmp2
  have hf02 : Frame m m2 [] := Frame_mono (Frame_trans hf01 hf12) (by simp)
  have htr2 : IsList m2 m.length [] [] 0 := IsList_frame htr1 hf12 (by simp) (by simp)
  have hthis2 : IsList m2 this as xs s := IsList_frame hthis hf02 (by simp) (by simp)
  -- first loop: the range is pushed onto tmp_reverse
  have hS2 : Iterates ops (fun m' => Frame m2 m' [m.length]) first last S := by
    refine Iterates_mono (fun m' hm' => ?_) hS
    refine Frame_mono (Frame_trans hf02 hm') ?_
    intro a ha hlive
    simp only [List.nil_append, List.mem_singleton] at ha
    subst ha
    exact absurd (read_length m) hlive
  have hct1 : NoFailure copy_throws m2.length S := by
    intro i x hx
    have hi : i < S.length := (List.getElem?_eq_some.mp hx).1
    have h := hct i x (by rw [List.getElem?_append_left hi]; exact hx)
    rwa [show m.length + 2 + i = m2.length + i by omega] at h
  obtain ⟨m3, ns1, hpr1, htr3, hf23, hns1, hlen3⟩ :=
    push_range_ok ops copy_throws S htr2 hS2 hct1 (by omega : S.length ≤ d + 1)
  simp only [List.append_nil, Nat.zero_add] at htr3
  have htmp3 : IsList m3 (m.length + 1) [] [] 0 :=
    IsList_frame htmp2 hf23 (by simp) (by simp)
  have hthis3 : IsList m3 this as xs s :=
    IsList_frame hthis2 hf23 (by simp; omega) (fun a ha => by have := has_lt a ha; simp; omega)
  -- second loop: tmp_reverse is pushed onto tmp
  obtain ⟨p, hbegin, hchain⟩ := begin_IsList htr3
  have hSrev : Iterates ListIt (fun m' => Frame m3 m' [m.length + 1]) p none S.reverse := by
    refine Iterates_ListIt hchain (fun m' hm' a ha => ?_)
    obtain ⟨n, hn⟩ := Chain_node hchain a ha
    rw [hn]
    refine hm' a _ hn ?_
    have := IsList_other htr3 htmp3
    simp only [List.mem_singleton]
    exact fun e => this (e ▸ ha)
  have hct2 : NoFailure copy_throws m3.length S.reverse := by
    intro i x hx
    have h := hct (S.length + i) x (by
      rw [List.getElem?_append_right (Nat.le_add_right _ _), Nat.add_sub_cancel_left]
      exact hx)
    rwa [show m.length + 2 + (S.length + i) = m3.length + i by omega] at h
  obtain ⟨m4, ns2, hpr2, htmp4, hf34, hns2, hlen4⟩ :=
    push_range_ok ListIt copy_throws S.reverse htmp3 hSrev hct2
      (by have := Chain_length_le hchain; have := Chain_length hchain; omega :
        S.reverse.length ≤ m3.length + 1)
  simp only [List.append_nil, Nat.zero_add, List.reverse_reverse, List.length_reverse]
    at htmp4
  have hns1_lt := (IsList_lt htr3).2
  have htr4 : IsList m4 m.length ns1 S.reverse (S.length % SIZE_MOD) := by
    refine IsList_frame htr3 hf34 (by simp) (fun a ha => ?_)
    have := IsList_other htr3 htmp3
    simp only [List.mem_singleton]
    exact fun e => this (e ▸ ha)
  have hthis4 : IsList m4 this as xs s :=
    IsList_frame hthis3 hf34 (by simp; omega) (fun a ha => by have := has_lt a ha; simp; omega)
  -- swap(tmp), then the locals are cleared and destroyed
  have hne_tt : this ≠ m.length + 1 := by omega
  obtain ⟨m5, hsw, hthis5, htmp5, hf45, hlen5⟩ := swap_ok hthis4 htmp4 hne_tt
  have htr5 : IsList m5 m.length ns1 S.reverse (S.length % SIZE_MOD) := by
    refine IsList_frame htr4 hf45 (by simp; omega) (fun a ha => ?_)
    have h1 := IsList_other htr4 hthis4
    have h2 := IsList_other htr4 htmp4
    simp only [List.mem_cons, List.mem_singleton, List.not_mem_nil, or_false, not_or]
    exact ⟨fun e => h1 (e ▸ ha), fun e => h2 (e ▸ ha)⟩
  have hdisj : ∀ a ∈ ns1, a ∉ as := by
    intro a ha haa
    have := hns1 a ha
    have := has_lt a haa
    omega
  obtain ⟨m6, hrel, hf56, hlen6⟩ := Filling_release_ok htr5 htmp5 (by omega) hdisj
  have hthis6 : IsList m6 this ns2 S (S.length % SIZE_MOD) := by
    refine IsList_frame hthis5 hf56 ?_ (fun a ha => ?_)
    · have h1 := IsList_other htr4 hthis4
      have h2 := IsList_not_mem hthis
      simp only [List.mem_cons, List.mem_append, not_or]
      exact ⟨by omega, by omega, h1, h2⟩
    · have h1 := hns2 a ha
      simp only [List.mem_cons, List.mem_append, not_or]
      refine ⟨by omega, by omega, fun h => ?_, fun h => ?_⟩
      · have := hns1_lt a h
        omega
      · have := has_lt a h
        omega
  refine ⟨m6, ns2, ?_, hthis6, ?_, fun a ha => ?_⟩
  · unfold Filling
    rw [hd, hlenS]
    have e1 : ctor_default m = (m1, m.length) := by rw [← hm1]; rfl
    have e2 : ctor_default m1 = (m2, m.length + 1) := by
      rw [← hm2]
      have : m1.length = m.length + 1 := hlen1
      simp [ctor_default, this]
    simp only [e1, e2, hpr1, hbegin, end_, hpr2, hsw, hrel]
  · refine Frame_mono (Frame_trans (Frame_trans (Frame_trans (Frame_trans hf02 hf23) hf34)
      hf45) hf56) ?_
    intro a ha hlive
    have ha_lt : a < m.length := by
      cases hra : read m a with
      | none => exact absurd hra hlive
      | some c => exact read_some_lt hra
    simp only [List.mem_append, List.mem_cons, List.mem_singleton, List.not_mem_nil,
      or_false, false_or] at ha ⊢
    have hn1 : a ∉ ns1 := fun h => by have := hns1 a h; omega
    have e1 : a ≠ m.length := by omega
    have e2 : a ≠ m.length + 1 := by omega
    tauto
  · have := hns2 a ha
    omega

theorem NoFailure_of_forall {copy_throws : Nat → α → Bool} {S : List α}
    (h : ∀ n, ∀ x ∈ S, copy_throws n x = false) (clock : Nat) :
    NoFailure copy_throws clock (S ++ S.reverse) := by
  intro i x hx
  obtain ⟨hlt, hget⟩ := List.getElem?_eq_some.mp hx
  have hmem : x ∈ S ++ S.reverse := hget ▸ List.getElem_mem hlt
  rcases List.mem_append.mp hmem with hm | hm
  · exact h _ x hm
  · exact h _ x (List.mem_reverse.mp hm)

theorem NoFailure_shift {copy_throws : Nat → α → Bool} {c c' : Nat} {vals : List α}
    (h : NoFailure copy_throws c vals) (e : c' = c) : NoFailure copy_throws c' vals := by
  subst e
  exact h

theorem Filling_fresh [Inhabited α] {I : Type} (ops : InputRange α I) (copy_throws : Nat → α → Bool)
    {m : Memory α} {this : Nat} {first last : I} (S : List α) (hthis : IsList m this [] [] 0)
    (hS : Iterates ops (fun m' => Frame m m' []) first last S)
    (hd : ops.distance m first last = some S.length)
    (hct : NoFailure copy_throws (m.length + 2) (S ++ S.reverse)) :
    ∃ m' ns, Filling ops copy_throws m this first last = .ok m' ∧
      IsList m' this ns S (S.length % SIZE_MOD) ∧ Frame m m' [this] ∧
      (∀ a ∈ ns, m.length ≤ a) := by
  by_cases hne : S = []
  · subst hne
    exact ⟨m, [], Filling_empty ops copy_throws hd, hthis, Frame_refl _ _, by simp⟩
  · exact Filling_ok ops copy_throws S hthis hS hd hct hne

theorem ctor_values_fresh [Inhabited α] (copy_throws : Nat → α → Bool) (m : Memory α) (S : List α)
    (hct : NoFailure copy_throws (m.length + 3) (S ++ S.reverse)) :
    ∃ m' ns, ctor_values copy_throws m S = .ok (m', m.length) ∧
      IsList m' m.length ns S (S.length % SIZE_MOD) ∧ Frame m m' [] ∧
      (∀ a ∈ ns, m.length ≤ a) := by
  obtain ⟨h1, -, hf01, hlen1⟩ := ctor_default_ok m
  generalize hm1 : (ctor_default m).1 = m1 at h1 hf01 hlen1
  have hS : Iterates (ArrayIt S) (fun m' => Frame m1 m' []) 0 S.length S :=
    Iterates_ArrayIt S _ S 0 (Nat.zero_le _) rfl
  obtain ⟨m2, ns, hfill, h2, hf12, hns⟩ :=
    Filling_fresh (ArrayIt S) copy_throws S h1 hS (by simp [ArrayIt])
      (NoFailure_shift hct (by omega))
  refine ⟨m2, ns, ?_, h2, ?_, fun a ha => by have := hns a ha; omega⟩
  · have e1 : ctor_default m = (m1, m.length) := by rw [← hm1]; rfl
    simp only [ctor_values, e1, hfill]
  · refine Frame_mono (Frame_trans hf01 hf12) ?_
    intro a ha hlive
    simp only [List.nil_append, List.mem_singleton] at ha
    subst ha
    exact absurd (read_length m) hlive

theorem ctor_values_ok [Inhabited α] (copy_throws : Nat → α → Bool) (m : Memory α) (S : List α)
    (hct : ∀ n, ∀ x ∈ S, copy_throws n x = false) :
    ∃ m' ns, ctor_values copy_throws m S = .ok (m', m.length) ∧
      IsList m' m.length ns S (S.length % SIZE_MOD) ∧ Frame m m' [] := by
  obtain ⟨m', ns, h1, h2, h3, -⟩ :=
    ctor_values_fresh copy_throws m S (NoFailure_of_forall hct _)
  exact ⟨m', ns, h1, h2, h3⟩

/-! ## Comparison of two well-formed lists -/

theorem LexLess_nil_left [LT α] (ys : List α) : LexLess [] ys ↔ ys ≠ [] := by
  constructor
  · rintro (⟨t, ht, e⟩ | ⟨p, x, y, s, t, e, _, _⟩)
    · simpa [e] using ht
    · simp at e
  · intro h
    exact Or.inl ⟨ys, h, rfl⟩

theorem LexLess_nil_right [LT α] (xs : List α) : ¬ LexLess xs [] := by
  rintro (⟨t, ht, e⟩ | ⟨p, x, y, s, t, _, e, _⟩)
  · exact ht (List.append_eq_nil.mp e.symm).2
  · simp at e

theorem LexLess_cons_cons [Preorder α] (x y : α) (xs ys : List α) :
    LexLess (x :: xs) (y :: ys) ↔ x < y ∨ (x = y ∧ LexLess xs ys) := by
  constructor
  · rintro (⟨t, ht, e⟩ | ⟨p, a, b, s, t, e1, e2, hab⟩)
    · injection e with e1 e2
      exact Or.inr ⟨e1.symm, Or.inl ⟨t, ht, e2⟩⟩
    · cases p with
      | nil =>
        injection e1 with h1 _
        injection e2 with h2 _
        exact Or.inl (by rw [h1, h2]; exact hab)
      | cons c p =>
        injection e1 with h1 h1'
        injection e2 with h2 h2'
        exact Or.inr ⟨by rw [h1, h2], Or.inr ⟨p, a, b, s, t, h1', h2', hab⟩⟩
  · rintro (h | ⟨rfl, ⟨t, ht, e⟩ | ⟨p, a, b, s, t, e1, e2, hab⟩⟩)
    · exact Or.inr ⟨[], x, y, xs, ys, rfl, rfl, h⟩
    · exact Or.inl ⟨t, ht, by rw [e]; rfl⟩
    · exact Or.inr ⟨x :: p, a, b, s, t, by rw [e1]; rfl, by rw [e2]; rfl, hab⟩

theorem LexLess_iff_Lex [Preorder α] :
    ∀ (xs ys : List α), LexLess xs ys ↔ List.Lex (fun a b : α => a < b) xs ys
  | [], [] => by
    rw [LexLess_nil_left]
    constructor
    · intro h; exact absurd rfl h
    · intro h; cases h
  | [], y :: ys => by
    rw [LexLess_nil_left]
    exact ⟨fun _ => List.Lex.nil, fun _ => by simp⟩
  | x :: xs, [] => by
    constructor
    · intro h; exact absurd h (LexLess_nil_right _)
    · intro h; cases h
  | x :: xs, y :: ys => by
    rw [LexLess_cons_cons]
    constructor
    · rintro (h | ⟨rfl, h⟩)
      · exact List.Lex.rel h
      · exact List.Lex.cons ((LexLess_iff_Lex xs ys).mp h)
    · intro h
      cases h with
      | cons h => exact Or.inr ⟨rfl, (LexLess_iff_Lex xs ys).mpr h⟩
      | rel h => exact Or.inl h

theorem lexicographical_compare_Chain [LinearOrder α] {m : Memory α} :
    ∀ {as : List Nat} {p : Option Nat} {xs : List α} {bs : List Nat} {q : Option Nat}
      {ys : List α}, Chain m p as xs → Chain m q bs ys → ∀ fuel, as.length ≤ fuel →
      ∃ r, std_lexicographical_compare fuel m p none q none = some r ∧
        (r = true ↔ LexLess xs ys)
  | [], _, [], bs, q, ys, h1, h2, fuel, _ => by
    have hp := Chain_nil_iff.mp h1
    subst hp
    refine ⟨decide (q ≠ none), by cases fuel <;> simp [std_lexicographical_compare], ?_⟩
    rw [LexLess_nil_left]
    cases bs with
    | nil =>
      cases ys with
      | nil => simp [Chain_nil_iff.mp h2]
      | cons y ys => simp [Chain] at h2
    | cons b bs =>
      cases ys with
      | nil => simp [Chain] at h2
      | cons y ys => simp [(Chain_cons_iff.mp h2).1]
  | [], _, _ :: _, _, _, _, h, _, _, _ => by simp [Chain] at h
  | _ :: _, _, [], _, _, _, h, _, _, _ => by simp [Chain] at h
  | a :: as, _, x :: xs, [], _, [], h1, h2, fuel, _ => by
    have hq := Chain_nil_iff.mp h2
    obtain ⟨hp, _⟩ := Chain_cons_iff.mp h1
    subst hq hp
    refine ⟨false, by cases fuel <;> simp [std_lexicographical_compare], ?_⟩
    simp [LexLess_nil_right]
  | _ :: _, _, _ :: _, [], _, _ :: _, _, h, _, _ => by simp [Chain] at h
  | _ :: _, _, _ :: _, _ :: _, _, [], _, h, _, _ => by simp [Chain] at h
  | a :: as, _, x :: xs, b :: bs, _, y :: ys, h1, h2, fuel, hfuel => by
    obtain ⟨hp, n1, hr1, hc1⟩ := Chain_cons_iff.mp h1
    obtain ⟨hq, n2, hr2, hc2⟩ := Chain_cons_iff.mp h2
    subst hp hq
    cases fuel with
    | zero => simp at hfuel
    | succ f =>
      rw [LexLess_cons_cons]
      rcases lt_trichotomy x y with hlt | heq | hgt
      · exact ⟨true, by simp [std_lexicographical_compare, deref, load_node hr1,
          load_node hr2, hlt], by simp [hlt]⟩
      · subst heq
        obtain ⟨r, hr, hiff⟩ := lexicographical_compare_Chain hc1 hc2 f (by simpa using hfuel)
        exact ⟨r, by simp [std_lexicographical_compare, deref, incr, load_node hr1,
          load_node hr2, hr], by simp [hiff]⟩
      · exact ⟨false, by simp [std_lexicographical_compare, deref, load_node hr1,
          load_node hr2, hgt, not_lt_of_gt hgt], by
            simp [not_lt_of_gt hgt, ne_of_gt hgt]⟩

theorem operator_lt_ok [LinearOrder α] {m : Memory α} {a b : Nat} {as bs : List Nat}
    {xs ys : List α} {s t : Nat} (ha : IsList m a as xs s) (hb : IsList m b bs ys t) :
    ∃ r, operator_lt m a b = some r ∧ (r = true ↔ LexLess xs ys) := by
  obtain ⟨p, hp, hcp⟩ := begin_IsList ha
  obtain ⟨q, hq, hcq⟩ := begin_IsList hb
  obtain ⟨r, hr, hiff⟩ := lexicographical_compare_Chain hcp hcq (m.length + 1)
    (by have := Chain_length_le hcp; omega)
  exact ⟨r, by simp [operator_lt, hp, hq, end_, hr], hiff⟩

theorem std_equal_Chain [DecidableEq α] {m : Memory α} :
    ∀ {as : List Nat} {p : Option Nat} {xs : List α} {bs : List Nat} {q : Option Nat}
      {ys : List α}, Chain m p as xs → Chain m q bs ys → xs.length ≤ ys.length →
      ∀ fuel, as.length ≤ fuel →
      std_equal fuel m p none q = some (decide (xs = ys.take xs.length))
  | [], _, [], _, _, _, h1, _, _, fuel, _ => by
    have hp := Chain_nil_iff.mp h1
    subst hp
    cases fuel <;> simp [std_equal]
  | [], _, _ :: _, _, _, _, h, _, _, _, _ => by simp [Chain] at h
  | _ :: _, _, [], _, _, _, h, _, _, _, _ => by simp [Chain] at h
  | _ :: _, _, _ :: _, [], _, [], _, _, hle, _, _ => by simp at hle
  | _ :: _, _, _ :: _, [], _, _ :: _, _, h, _, _, _ => by simp [Chain] at h
  | _ :: _, _, _ :: _, _ :: _, _, [], _, h, _, _, _ => by simp [Chain] at h
  | a :: as, _, x :: xs, b :: bs, _, y :: ys, h1, h2, hle, fuel, hfuel => by
    obtain ⟨hp, n1, hr1, hc1⟩ := Chain_cons_iff.mp h1
    obtain ⟨hq, n2, hr2, hc2⟩ := Chain_cons_iff.mp h2
    subst hp hq
    cases fuel with
    | zero => simp at hfuel
    | succ f =>
      have ih := std_equal_Chain hc1 hc2 (by simpa using hle) f (by simpa using hfuel)
      by_cases hxy : x = y
      · subst hxy
        simp [std_equal, deref, incr, load_node hr1, load_node hr2, ih]
      · simp [std_equal, deref, load_node hr1, load_node hr2, hxy]

theorem Filling_from_list [Inhabited α] (copy_throws : Nat → α → Bool) {m : Memory α}
    {this src : Nat} {as : List Nat} {xs : List α} {s : Nat}
    (hthis : IsList m this [] [] 0) (hsrc : IsList m src as xs s)
    (hct : NoFailure copy_throws (m.length + 2) (xs ++ xs.reverse)) :
    ∃ b m' ns, begin m src = some b ∧
      Filling ListIt copy_throws m this b (end_ src) = .ok m' ∧
      IsList m' this ns xs (xs.length % SIZE_MOD) ∧ Frame m m' [this] ∧
      (∀ a ∈ ns, m.length ≤ a) := by
  obtain ⟨b, hb, hc⟩ := begin_IsList hsrc
  have hS : Iterates ListIt (fun m' => Frame m m' []) b none xs := by
    refine Iterates_ListIt hc (fun m' hm' a ha => ?_)
    obtain ⟨n, hn⟩ := Chain_node hc a ha
    rw [hn]
    exact hm' a _ hn (by simp)
  have hd : ListIt.distance m b none = some xs.length := by
    have := distance_loop_Chain hc (m.length + 1) (by have := Chain_length_le hc; omega)
    rw [Chain_length hc] at this
    exact this
  obtain ⟨m', ns, hfill, h', hf, hns⟩ := Filling_fresh ListIt copy_throws xs hthis hS hd hct
  exact ⟨b, m', ns, hb, hfill, h', hf, hns⟩

theorem operator_assign_fresh [Inhabited α] (copy_throws : Nat → α → Bool) {m : Memory α}
    {this rhs : Nat} {cs as : List Nat} {ys xs : List α} {t s : Nat}
    (hthis : IsList m this cs ys t) (hrhs : IsList m rhs as xs s) (hne : this ≠ rhs)
    (hdisj : ∀ a ∈ cs, a ∉ as)
    (hct : NoFailure copy_throws (m.length + 3) (xs ++ xs.reverse)) :
    ∃ m' ns, operator_assign copy_throws m this rhs = .ok m' ∧
      IsList m' this ns xs (xs.length % SIZE_MOD) ∧ IsList m' rhs as xs s ∧
      Frame m m' (this :: cs) ∧ (∀ a ∈ ns, m.length ≤ a) := by
  obtain ⟨hthis_lt, hcs_lt⟩ := IsList_lt hthis
  obtain ⟨hrhs_lt, has_lt⟩ := IsList_lt hrhs
  have hrc := IsList_other hthis hrhs
  have htc := IsList_not_mem hthis
  have hta := IsList_other hrhs hthis
  obtain ⟨htmp1, -, hf01, hlen1⟩ := ctor_default_ok m
  generalize hm1 : (ctor_default m).1 = m1 at htmp1 hf01 hlen1
  have hthis1 : IsList m1 this cs ys t := IsList_frame hthis hf01 (by simp) (by simp)
  have hrhs1 : IsList m1 rhs as xs s := IsList_frame hrhs hf01 (by simp) (by simp)
  obtain ⟨b, m2, ns, hb, hfill, htmp2, hf12, hns⟩ :=
    Filling_from_list copy_throws htmp1 hrhs1 (NoFailure_shift hct (by omega))
  have hthis2 : IsList m2 this cs ys t :=
    IsList_frame hthis1 hf12 (by simp; omega)
      (fun a ha => by have := hcs_lt a ha; simp; omega)
  have hrhs2 : IsList m2 rhs as xs s :=
    IsList_frame hrhs1 hf12 (by simp; omega)
      (fun a ha => by have := has_lt a ha; simp; omega)
  obtain ⟨m3, hsw, hthis3, htmp3, hf23, -⟩ := swap_ok hthis2 htmp2 (by omega)
  have hrhs3 : IsList m3 rhs as xs s := by
    refine IsList_frame hrhs2 hf23 ?_ (fun a ha => ?_)
    · simp only [List.mem_cons, List.mem_singleton, List.not_mem_nil, or_false, not_or]
      exact ⟨Ne.symm hne, by omega⟩
    · have := has_lt a ha
      simp only [List.mem_cons, List.mem_singleton, List.not_mem_nil, or_false, not_or]
      exact ⟨fun e => hta (e ▸ ha), by omega⟩
  obtain ⟨m4, hcl, htmp4, hf34, -⟩ := Clear_ok htmp3
  have hfp : ∀ a, a ∈ m.length :: cs → a ≠ this ∧ a ≠ rhs ∧ a ∉ as ∧ a ∉ ns := by
    intro a ha
    rcases List.mem_cons.mp ha with rfl | ha
    · refine ⟨by omega, by omega, fun h => ?_, fun h => ?_⟩
      · have := has_lt _ h
        omega
      · have := hns _ h
        omega
    · refine ⟨fun e => htc (e ▸ ha), fun e => hrc (e ▸ ha), hdisj a ha, fun h => ?_⟩
      have := hns _ h
      have := hcs_lt a ha
      omega
  have hthis4 : IsList m4 this ns xs (xs.length % SIZE_MOD) :=
    IsList_frame hthis3 hf34 (fun h => (hfp _ h).1 rfl) (fun a ha h => (hfp _ h).2.2.2 ha)
  have hrhs4 : IsList m4 rhs as xs s :=
    IsList_frame hrhs3 hf34 (fun h => (hfp _ h).2.1 rfl) (fun a ha h => (hfp _ h).2.2.1 ha)
  obtain ⟨m5, hde, hf45, -⟩ := destroy_ok htmp4
  have hthis5 : IsList m5 this ns xs (xs.length % SIZE_MOD) :=
    IsList_frame hthis4 hf45 (by simp; omega)
      (fun a ha => by have := hns a ha; simp; omega)
  have hrhs5 : IsList m5 rhs as xs s :=
    IsList_frame hrhs4 hf45 (by simp; omega)
      (fun a ha => by have := has_lt a ha; simp; omega)
  refine ⟨m5, ns, ?_, hthis5, hrhs5, ?_, fun a ha => by have := hns a ha; omega⟩
  · have e1 : ctor_default m = (m1, m.length) := by rw [← hm1]; rfl
    unfold operator_assign
    rw [if_pos hne]
    simp only [e1, hb, hfill, hsw, hcl, hde]
  · refine Frame_mono (Frame_trans (Frame_trans (Frame_trans (Frame_trans hf01 hf12) hf23)
      hf34) hf45) ?_
    intro a ha hlive
    have ha_lt : a < m.length := by
      cases hra : read m a with
      | none => exact absurd hra hlive
      | some c => exact read_some_lt hra
    have e1 : a ≠ m.length := by omega
    simp only [List.mem_append, List.mem_cons, List.mem_singleton, List.not_mem_nil,
      or_false, false_or] at ha ⊢
    tauto

theorem Chain_head {m : Memory α} {as : List Nat} {p : Option Nat} {xs : List α}
    (h : Chain m p as xs) : p = as[0]? := by
  cases as with
  | nil =>
    cases xs with
    | nil => simpa using Chain_nil_iff.mp h
    | cons x xs => simp [Chain] at h
  | cons a as =>
    cases xs with
    | nil => simp [Chain] at h
    | cons x xs => simpa using (Chain_cons_iff.mp h).1

theorem Chain_deref {m : Memory α} :
    ∀ {as : List Nat} {p : Option Nat} {xs : List α}, Chain m p as xs →
      ∀ k : Nat, deref m (as[k]?) = xs[k]?
  | [], _, [], _, k => by simp [deref]
  | [], _, _ :: _, h, _ => by simp [Chain] at h
  | _ :: _, _, [], h, _ => by simp [Chain] at h
  | a :: as, _, x :: xs, h, k => by
    obtain ⟨_, nxt, hr, hc⟩ := Chain_cons_iff.mp h
    cases k with
    | zero => simp [deref, load_node hr]
    | succ k => simpa using Chain_deref hc k

theorem EraseAfter_node {m : Memory α} (l : Nat) {c a : Nat} {v x : α} {nxt : Option Nat}
    (hc : read m c = some (.node ⟨v, some a⟩)) (ha : read m a = some (.node ⟨x, nxt⟩))
    (hne : c ≠ a) :
    EraseAfter m l (some c) = some ((m.set a none).set c (some (.node ⟨v, nxt⟩)), nxt) := by
  have h1 : read (m.set a none) c = some (.node ⟨v, some a⟩) := by
    rw [read_set_ne _ _ (Ne.symm hne)]; exact hc
  have h2 : read ((m.set a none).set c (some (.node ⟨v, nxt⟩))) c = some (.node ⟨v, nxt⟩) :=
    read_set_self _ (by simpa using read_some_lt hc)
  unfold EraseAfter
  simp only [incr, load_node hc, Option.map_some', load_node ha, delete_node ha,
    set_next_node h1, load_node h2]

theorem EraseAfter_head {m : Memory α} {l a : Nat} {v x : α} {s : Nat} {nxt : Option Nat}
    (hl : read m l = some (.list ⟨v, some a⟩ s)) (ha : read m a = some (.node ⟨x, nxt⟩))
    (hne : l ≠ a) :
    EraseAfter m l (some l) = some ((m.set a none).set l (some (.list ⟨v, nxt⟩ s)), nxt) := by
  have h1 : read (m.set a none) l = some (.list ⟨v, some a⟩ s) := by
    rw [read_set_ne _ _ (Ne.symm hne)]; exact hl
  have h2 : read ((m.set a none).set l (some (.list ⟨v, nxt⟩ s))) l
      = some (.list ⟨v, nxt⟩ s) :=
    read_set_self _ (by simpa using read_some_lt hl)
  unfold EraseAfter
  simp only [incr, load_list hl, Option.map_some', load_node ha, delete_node ha,
    set_next_list h1, load_list h2]

theorem EraseAfter_chain {m : Memory α} (l : Nat) :
    ∀ (j : Nat) {as : List Nat} {p : Option Nat} {xs : List α}, Chain m p as xs →
      j + 1 < as.length →
      ∃ m', EraseAfter m l (as[j]?) = some (m', as[j + 2]?) ∧
        Chain m' p (as.eraseIdx (j + 1)) (xs.eraseIdx (j + 1)) ∧ Frame m m' as
  | _, [], _, _, _, hj => by simp at hj
  | _, [_], _, _, _, hj => by simp at hj
  | _, _ :: _, _, [], h, _ => by simp [Chain] at h
  | _, _ :: _ :: _, _, [_], h, _ => by simp [Chain] at h
  | 0, a0 :: a1 :: rest, _, x0 :: x1 :: xrest, h, _ => by
    have hnd := Chain_nodup h
    obtain ⟨hp, n0, hr0, h'⟩ := Chain_cons_iff.mp h
    obtain ⟨hp1, n1, hr1, hrest⟩ := Chain_cons_iff.mp h'
    subst hp1
    have h01 : a0 ≠ a1 := by
      intro e
      exact (List.nodup_cons.mp hnd).1 (e ▸ List.mem_cons_self _ _)
    refine ⟨(m.set a1 none).set a0 (some (.node ⟨x0, n1⟩)), ?_, ?_, ?_⟩
    · have e := Chain_head hrest
      have := EraseAfter_node l hr0 hr1 h01
      simp only [List.getElem?_cons_zero, this]
      simp [← e]
    · refine Chain_cons_iff.mpr ⟨hp, n1, read_set_self _ (by simpa using read_some_lt hr0), ?_⟩
      refine Chain_congr hrest (fun b hb => ?_)
      have hb0 : a0 ≠ b := fun e =>
        (List.nodup_cons.mp hnd).1 (e ▸ List.mem_cons_of_mem _ hb)
      have hb1 : a1 ≠ b := fun e =>
        (List.nodup_cons.mp (List.nodup_cons.mp hnd).2).1 (e ▸ hb)
      rw [read_set_ne _ _ hb0, read_set_ne _ _ hb1]
    · refine Frame_mono (Frame_trans (Frame_set m a1 none) (Frame_set _ a0 _)) ?_
      intro b hb _
      simp only [List.mem_append, List.mem_cons, List.mem_singleton, List.not_mem_nil,
        or_false] at hb ⊢
      tauto
  | j + 1, a0 :: a1 :: rest, _, x0 :: x1 :: xrest, h, hj => by
    have hnd := Chain_nodup h
    obtain ⟨hp, n0, hr0, h'⟩ := Chain_cons_iff.mp h
    obtain ⟨m', he, hc', hf⟩ := EraseAfter_chain l j h' (by simpa using hj)
    refine ⟨m', by simpa using he, ?_, ?_⟩
    · refine Chain_cons_iff.mpr ⟨hp, n0, hf _ _ hr0 (List.nodup_cons.mp hnd).1, ?_⟩
      simpa using hc'
    · exact Frame_mono hf (fun b hb _ => List.mem_cons_of_mem _ hb)

theorem EraseAfter_ok {m : Memory α} {l : Nat} {as : List Nat} {xs : List α} {s : Nat}
    (h : IsList m l as xs s) {i : Nat} (hi : i < xs.length) :
    ∃ m', EraseAfter m l ((l :: as)[i]?) = some (m', as[i + 1]?) ∧
      IsList m' l (as.eraseIdx i) (xs.eraseIdx i) s ∧ Frame m m' (l :: as) := by
  have hnot := IsList_not_mem h
  obtain ⟨hs, v, p, hr, hc⟩ := h
  have hlen := Chain_length hc
  cases i with
  | zero =>
    cases as with
    | nil => simp at hlen; omega
    | cons a rest =>
      cases xs with
      | nil => simp [Chain] at hc
      | cons x xrest =>
        have hnd := Chain_nodup hc
        obtain ⟨hp, nxt, hra, hrest⟩ := Chain_cons_iff.mp hc
        subst hp
        have hla : l ≠ a := fun e => hnot (e ▸ List.mem_cons_self _ _)
        refine ⟨(m.set a none).set l (some (.list ⟨v, nxt⟩ s)), ?_,
          ⟨hs, v, nxt, read_set_self _ (by simpa using read_some_lt hr), ?_⟩, ?_⟩
        · have e := Chain_head hrest
          have := EraseAfter_head hr hra hla
          simp only [List.getElem?_cons_zero, this]
          simp [← e]
        · refine Chain_congr hrest (fun b hb => ?_)
          have hb0 : l ≠ b := fun e => hnot (e ▸ List.mem_cons_of_mem _ hb)
          have hb1 : a ≠ b := fun e => (List.nodup_cons.mp hnd).1 (e ▸ hb)
          rw [read_set_ne _ _ hb0, read_set_ne _ _ hb1]
        · refine Frame_mono (Frame_trans (Frame_set m a none) (Frame_set _ l _)) ?_
          intro b hb _
          simp only [List.mem_append, List.mem_cons, List.mem_singleton, List.not_mem_nil,
            or_false] at hb ⊢
          tauto
  | succ j =>
    obtain ⟨m', he, hc', hf⟩ := EraseAfter_chain l j hc (by omega)
    refine ⟨m', by simpa using he, ⟨hs, v, p, hf _ _ hr hnot, hc'⟩, ?_⟩
    exact Frame_mono hf (fun b hb _ => List.mem_cons_of_mem _ hb)

/-! ## Failing copies -/

theorem first_failure (copy_throws : Nat → α → Bool) :
    ∀ (vals : List α) (c : Nat),
      (∃ (i : Nat) (x : α), vals[i]? = some x ∧ copy_throws (c + i) x = true) →
      ∃ pre x post, vals = pre ++ x :: post ∧ NoFailure copy_throws c pre ∧
        copy_throws (c + pre.length) x = true
  | [], c, h => by
    obtain ⟨i, x, hx, _⟩ := h
    simp at hx
  | y :: vals, c, h => by
    by_cases hy : copy_throws c y = true
    · refine ⟨[], y, vals, rfl, ?_, by simpa using hy⟩
      intro i x hx
      simp at hx
    · have hrest : ∃ (i : Nat) (x : α), vals[i]? = some x ∧
          copy_throws (c + 1 + i) x = true := by
        obtain ⟨i, x, hx, hf⟩ := h
        cases i with
        | zero =>
          simp only [List.getElem?_cons_zero, Option.some.injEq] at hx
          subst hx
          exact absurd hf hy
        | succ i =>
          refine ⟨i, x, by simpa using hx, ?_⟩
          rwa [show c + 1 + i = c + (i + 1) by omega]
      obtain ⟨pre, x, post, e, hpre, hx⟩ := first_failure copy_throws vals (c + 1) hrest
      refine ⟨y :: pre, x, post, by rw [e]; rfl, ?_, ?_⟩
      · intro i z hz
        cases i with
        | zero =>
          simp only [List.getElem?_cons_zero, Option.some.injEq] at hz
          subst hz
          simpa using hy
        | succ i =>
          have h1 := hpre i z (by simpa using hz)
          rwa [show c + 1 + i = c + (i + 1) by omega] at h1
      · rwa [show c + (y :: pre).length = c + 1 + pre.length by
          simp only [List.length_cons]; omega]

theorem NoFailure_of_not_exists {copy_throws : Nat → α → Bool} {c : Nat} {vals : List α}
    (h : ¬ ∃ (i : Nat) (x : α), vals[i]? = some x ∧ copy_throws (c + i) x = true) :
    NoFailure copy_throws c vals := by
  intro i x hx
  cases hc : copy_throws (c + i) x with
  | false => rfl
  | true => exact absurd ⟨i, x, hx, hc⟩ h

theorem NoFailure_append_left {copy_throws : Nat → α → Bool} {c : Nat} {l1 l2 : List α}
    (h : NoFailure copy_throws c (l1 ++ l2)) : NoFailure copy_throws c l1 := by
  intro i x hx
  have hi : i < l1.length := (List.getElem?_eq_some.mp hx).1
  exact h i x (by rw [List.getElem?_append_left hi]; exact hx)

theorem NoFailure_append_right {copy_throws : Nat → α → Bool} {c : Nat} {l1 l2 : List α}
    (h : NoFailure copy_throws c (l1 ++ l2)) : NoFailure copy_throws (c + l1.length) l2 := by
  intro i x hx
  have h1 := h (l1.length + i) x (by
    rw [List.getElem?_append_right (Nat.le_add_right _ _), Nat.add_sub_cancel_left]
    exact hx)
  rwa [show c + (l1.length + i) = c + l1.length + i by omega] at h1

theorem push_range_throws {I : Type} (ops : InputRange α I) (copy_throws : Nat → α → Bool)
    {dst : Nat} {last : I} (x : α) (post : List α) :
    ∀ (pre : List α) {m : Memory α} {ds : List Nat} {ys : List α} {s : Nat} {first : I}
      {fuel : Nat}, IsList m dst ds ys s →
      Iterates ops (fun m' => Frame m m' [dst]) first last (pre ++ x :: post) →
      NoFailure copy_throws m.length pre → copy_throws (m.length + pre.length) x = true →
      pre.length < fuel →
      ∃ m' ns, push_range ops copy_throws fuel m dst first last = .throws m' ∧
        IsList m' dst (ns ++ ds) (pre.reverse ++ ys) ((s + pre.length) % SIZE_MOD) ∧
        Frame m m' [dst] ∧ (∀ a ∈ ns, m.length ≤ a) ∧ m'.length = m.length + pre.length
  | [], m, ds, ys, s, first, fuel, hl, hit, _, hx, hfuel => by
    obtain ⟨he, nxt, hstep, -⟩ := hit
    cases fuel with
    | zero => simp at hfuel
    | succ f =>
      obtain ⟨hd, _⟩ := hstep m (Frame_refl _ _)
      have hx' : copy_throws m.length x = true := by simpa using hx
      refine ⟨m, [], ?_, ?_, Frame_refl _ _, by simp, rfl⟩
      · simp [push_range, he, hd, PushFront_throws hl hx']
      · have hs := hl.1
        simpa [Nat.mod_eq_of_lt hs] using hl
  | y :: pre, m, ds, ys, s, first, fuel, hl, hit, hct, hx, hfuel => by
    obtain ⟨he, nxt, hstep, hrest⟩ := hit
    cases fuel with
    | zero => simp at hfuel
    | succ f =>
      obtain ⟨hd, _⟩ := hstep m (Frame_refl _ _)
      obtain ⟨m1, hpf, hl1, hf1, hlen1⟩ := PushFront_ok hl (hct 0 y (by simp))
      obtain ⟨_, hi⟩ := hstep m1 hf1
      have hrest1 : Iterates ops (fun m' => Frame m1 m' [dst]) nxt last (pre ++ x :: post) :=
        Iterates_mono (fun m' hm' => Frame_mono (Frame_trans hf1 hm') (by simp)) hrest
      have hct1 : NoFailure copy_throws m1.length pre := by
        intro i z hz
        have h := hct (i + 1) z (by simpa using hz)
        rwa [show m.length + (i + 1) = m1.length + i by omega] at h
      have hx1 : copy_throws (m1.length + pre.length) x = true := by
        rwa [show m.length + (y :: pre).length = m1.length + pre.length by
          simp only [List.length_cons]; omega] at hx
      obtain ⟨m', ns, hpr, hl', hf', hns, hlen'⟩ := push_range_throws ops copy_throws x post
        pre hl1 hrest1 hct1 hx1 (by simpa using hfuel)
      refine ⟨m', ns ++ [m.length], ?_, ?_, ?_, ?_, by simp only [List.length_cons]; omega⟩
      · simp [push_range, he, hd, hpf, hi, hpr]
      · have e : ((s + 1) % SIZE_MOD + pre.length) % SIZE_MOD
            = (s + (y :: pre).length) % SIZE_MOD := by
          simp only [List.length_cons, SIZE_MOD]
          omega
        rw [← e]
        simpa using hl'
      · exact Frame_mono (Frame_trans hf1 hf') (by simp)
      · intro a ha
        rcases List.mem_append.mp ha with h | h
        · have := hns a h
          omega
        · simp at h
          omega

theorem Filling_throws_first [Inhabited α] {I : Type} (ops : InputRange α I)
    (copy_throws : Nat → α → Bool) {m : Memory α} (this : Nat) {first last : I}
    (pre : List α) (x : α) (post : List α)
    (hS : Iterates ops (fun m' => Frame m m' []) first last (pre ++ x :: post))
    (hd : ops.distance m first last = some (pre ++ x :: post).length)
    (hpre : NoFailure copy_throws (m.length + 2) pre)
    (hx : copy_throws (m.length + 2 + pre.length) x = true) :
    ∃ m', Filling ops copy_throws m this first last = .throws m' ∧ Frame m m' [] := by
  have hlenS : (pre ++ x :: post).length = pre.length + post.length + 1 := by
    simp only [List.length_append, List.length_cons]
    omega
  obtain ⟨htr1, -, hf01, hlen1⟩ := ctor_default_ok m
  obtain ⟨htmp2, -, hf12, hlen2⟩ := ctor_default_ok (ctor_default m).1
  generalize hm1 : (ctor_default m).1 = m1 at htr1 hf01 hlen1 htmp2 hf12 hlen2
  generalize hm2 : (ctor_default m1).1 = m2 at htmp2 hf12 hlen2
  rw [hlen1] at htmp2
  have hf02 : Frame m m2 [] := Frame_mono (Frame_trans hf01 hf12) (by simp)
  have htr2 : IsList m2 m.length [] [] 0 := IsList_frame htr1 hf12 (by simp) (by simp)
  have hS2 : Iterates ops (fun m' => Frame m2 m' [m.length]) first last (pre ++ x :: post) := by
    refine Iterates_mono (fun m' hm' => ?_) hS
    refine Frame_mono (Frame_trans hf02 hm') ?_
    intro a ha hlive
    simp only [List.nil_append, List.mem_singleton] at ha
    subst ha
    exact absurd (read_length m) hlive
  obtain ⟨m3, ns1, hpr1, htr3, hf23, hns1, hlen3⟩ :=
    push_range_throws ops copy_throws x post pre htr2 hS2
      (NoFailure_shift hpre (by omega))
      (by rwa [show m2.length + pre.length = m.length + 2 + pre.length by omega])
      (by omega : pre.length < pre.length + post.length + 1)
  simp only [List.append_nil, Nat.zero_add] at htr3
  have htmp3 : IsList m3 (m.length + 1) [] [] 0 :=
    IsList_frame htmp2 hf23 (by simp) (by simp)
  obtain ⟨m4, hrel, hf34, hlen4⟩ :=
    Filling_release_ok htr3 htmp3 (by omega) (by simp)
  refine ⟨m4, ?_, ?_⟩
  · unfold Filling
    rw [hd, hlenS]
    have e1 : ctor_default m = (m1, m.length) := by rw [← hm1]; rfl
    have e2 : ctor_default m1 = (m2, m.length + 1) := by
      rw [← hm2]
      have : m1.length = m.length + 1 := hlen1
      simp [ctor_default, this]
    simp only [e1, e2, hpr1, hrel]
  · refine Frame_mono (Frame_trans (Frame_trans hf02 hf23) hf34) ?_
    intro a ha hlive
    have ha_lt : a < m.length := by
      cases hra : read m a with
      | none => exact absurd hra hlive
      | some c => exact read_some_lt hra
    have hn1 : a ∉ ns1 := fun h => by have := hns1 a h; omega
    have e1 : a ≠ m.length := by omega
    have e2 : a ≠ m.length + 1 := by omega
    simp only [List.mem_append, List.mem_cons, List.mem_singleton, List.not_mem_nil,
      or_false, false_or] at ha
    tauto

theorem Filling_throws_second [Inhabited α] {I : Type} (ops : InputRange α I)
    (copy_throws : Nat → α → Bool) {m : Memory α} (this : Nat) {first last : I}
    (S pre : List α) (x : α) (post : List α)
    (hS : Iterates ops (fun m' => Frame m m' []) first last S)
    (hd : ops.distance m first last = some S.length)
    (hrev : S.reverse = pre ++ x :: post)
    (hfst : NoFailure copy_throws (m.length + 2) S)
    (hpre : NoFailure copy_throws (m.length + 2 + S.length) pre)
    (hx : copy_throws (m.length + 2 + S.length + pre.length) x = true) :
    ∃ m', Filling ops copy_throws m this first last = .throws m' ∧ Frame m m' [] := by
  have hlenrev : S.length = pre.length + post.length + 1 := by
    have := congrArg List.length hrev
    simp only [List.length_reverse, List.length_append, List.length_cons] at this
    omega
  obtain ⟨htr1, -, hf01, hlen1⟩ := ctor_default_ok m
  obtain ⟨htmp2, -, hf12, hlen2⟩ := ctor_default_ok (ctor_default m).1
  generalize hm1 : (ctor_default m).1 = m1 at htr1 hf01 hlen1 htmp2 hf12 hlen2
  generalize hm2 : (ctor_default m1).1 = m2 at htmp2 hf12 hlen2
  rw [hlen1] at htmp2
  have hf02 : Frame m m2 [] := Frame_mono (Frame_trans hf01 hf12) (by simp)
  have htr2 : IsList m2 m.length [] [] 0 := IsList_frame htr1 hf12 (by simp) (by simp)
  have hS2 : Iterates ops (fun m' => Frame m2 m' [m.length]) first last S := by
    refine Iterates_mono (fun m' hm' => ?_) hS
    refine Frame_mono (Frame_trans hf02 hm') ?_
    intro a ha hlive
    simp only [List.nil_append, List.mem_singleton] at ha
    subst ha
    exact absurd (read_length m) hlive
  -- the first loop completes
  obtain ⟨m3, ns1, hpr1, htr3, hf23, hns1, hlen3⟩ :=
    push_range_ok ops copy_throws S htr2 hS2 (NoFailure_shift hfst (by omega))
      (by omega : S.length ≤ pre.length + post.length + 1)
  simp only [List.append_nil, Nat.zero_add] at htr3
  have htmp3 : IsList m3 (m.length + 1) [] [] 0 :=
    IsList_frame htmp2 hf23 (by simp) (by simp)
  -- the second loop throws
  obtain ⟨p, hbegin, hchain⟩ := begin_IsList htr3
  have hSrev : Iterates ListIt (fun m' => Frame m3 m' [m.length + 1]) p none
      (pre ++ x :: post) := by
    rw [← hrev]
    refine Iterates_ListIt hchain (fun m' hm' a ha => ?_)
    obtain ⟨n, hn⟩ := Chain_node hchain a ha
    rw [hn]
    refine hm' a _ hn ?_
    have := IsList_other htr3 htmp3
    simp only [List.mem_singleton]
    exact fun e => this (e ▸ ha)
  obtain ⟨m4, ns2, hpr2, htmp4, hf34, hns2, hlen4⟩ :=
    push_range_throws ListIt copy_throws x post pre htmp3 hSrev
      (NoFailure_shift hpre (by omega))
      (by rwa [show m3.length + pre.length = m.length + 2 + S.length + pre.length by omega])
      (by have := Chain_length_le hchain; have := Chain_length hchain
          simp only [List.length_reverse] at this; omega : pre.length < m3.length + 1)
  simp only [List.append_nil, Nat.zero_add] at htmp4
  have hns1_lt := (IsList_lt htr3).2
  have htr4 : IsList m4 m.length ns1 S.reverse (S.length % SIZE_MOD) := by
    refine IsList_frame htr3 hf34 (by simp) (fun a ha => ?_)
    have := IsList_other htr3 htmp3
    simp only [List.mem_singleton]
    exact fun e => this (e ▸ ha)
  have hdisj : ∀ a ∈ ns1, a ∉ ns2 := by
    intro a ha ha2
    have := hns1_lt a ha
    have := hns2 a ha2
    omega
  obtain ⟨m5, hrel, hf45, hlen5⟩ := Filling_release_ok htr4 htmp4 (by omega) hdisj
  refine ⟨m5, ?_, ?_⟩
  · unfold Filling
    rw [hd, hlenrev]
    have e1 : ctor_default m = (m1, m.length) := by rw [← hm1]; rfl
    have e2 : ctor_default m1 = (m2, m.length + 1) := by
      rw [← hm2]
      have : m1.length = m.length + 1 := hlen1
      simp [ctor_default, this]
    simp only [e1, e2, hpr1, hbegin, end_, hpr2, hrel]
  · refine Frame_mono (Frame_trans (Frame_trans (Frame_trans hf02 hf23) hf34) hf45) ?_
    intro a ha hlive
    have ha_lt : a < m.length := by
      cases hra : read m a with
      | none => exact absurd hra hlive
      | some c => exact read_some_lt hra
    have hn1 : a ∉ ns1 := fun h => by have := hns1 a h; omega
    have hn2 : a ∉ ns2 := fun h => by have := hns2 a h; omega
    have e1 : a ≠ m.length := by omega
    have e2 : a ≠ m.length + 1 := by omega
    simp only [List.mem_append, List.mem_cons, List.mem_singleton, List.not_mem_nil,
      or_false, false_or] at ha
    tauto

theorem Filling_throws [Inhabited α] {I : Type} (ops : InputRange α I) (copy_throws : Nat → α → Bool)
    {m : Memory α} (this : Nat) {first last : I} (S : List α)
    (hS : Iterates ops (fun m' => Frame m m' []) first last S)
    (hd : ops.distance m first last = some S.length)
    (hfail : ∃ (i : Nat) (x : α), (S ++ S.reverse)[i]? = some x ∧
      copy_throws (m.length + 2 + i) x = true) :
    ∃ m', Filling ops copy_throws m this first last = .throws m' ∧ Frame m m' [] := by
  obtain ⟨pre, x, post, hsplit, hpre, hx⟩ :=
    first_failure copy_throws (S ++ S.reverse) (m.length + 2) hfail
  rcases List.append_eq_append_iff.mp hsplit with ⟨a', e1, e2⟩ | ⟨c', e1, e2⟩
  · subst e1
    refine Filling_throws_second ops copy_throws this S a' x post hS hd e2
      (NoFailure_append_left hpre) (NoFailure_append_right hpre) ?_
    rwa [show m.length + 2 + S.length + a'.length = m.length + 2 + (S ++ a').length by
      simp only [List.length_append]; omega]
  · cases c' with
    | nil =>
      simp only [List.append_nil, List.nil_append] at e1 e2
      subst e1
      refine Filling_throws_second ops copy_throws this S [] x post hS hd e2.symm hpre
        (fun i y hy => by simp at hy) ?_
      simpa using hx
    | cons z c'' =>
      injection e2 with e3 e4
      subst e3
      subst e1
      exact Filling_throws_first ops copy_throws this pre x c'' hS hd hpre hx

theorem operator_assign_throws [Inhabited α] (copy_throws : Nat → α → Bool) {m : Memory α}
    {this rhs : Nat} {as : List Nat} {xs : List α} {s : Nat}
    (hrhs : IsList m rhs as xs s) (hne : this ≠ rhs)
    (hfail : ∃ (i : Nat) (x : α), (xs ++ xs.reverse)[i]? = some x ∧
      copy_throws (m.length + 3 + i) x = true) :
    ∃ m', operator_assign copy_throws m this rhs = .throws m' ∧ Frame m m' [] := by
  obtain ⟨htmp1, -, hf01, hlen1⟩ := ctor_default_ok m
  generalize hm1 : (ctor_default m).1 = m1 at htmp1 hf01 hlen1
  have hrhs1 : IsList m1 rhs as xs s := IsList_frame hrhs hf01 (by simp) (by simp)
  obtain ⟨b, hb, hc⟩ := begin_IsList hrhs1
  have hS : Iterates ListIt (fun m' => Frame m1 m' []) b none xs := by
    refine Iterates_ListIt hc (fun m' hm' a ha => ?_)
    obtain ⟨n, hn⟩ := Chain_node hc a ha
    rw [hn]
    exact hm' a _ hn (by simp)
  have hd : ListIt.distance m1 b none = some xs.length := by
    have := distance_loop_Chain hc (m1.length + 1) (by have := Chain_length_le hc; omega)
    rw [Chain_length hc] at this
    exact this
  have hfail1 : ∃ (i : Nat) (x : α), (xs ++ xs.reverse)[i]? = some x ∧
      copy_throws (m1.length + 2 + i) x = true := by
    obtain ⟨i, x, hx, hf⟩ := hfail
    exact ⟨i, x, hx, by rwa [show m1.length + 2 + i = m.length + 3 + i by omega]⟩
  obtain ⟨m2, hfill, hf12⟩ := Filling_throws ListIt copy_throws m.length xs hS hd hfail1
  have htmp2 : IsList m2 m.length [] [] 0 := IsList_frame htmp1 hf12 (by simp) (by simp)
  obtain ⟨m3, hcl, htmp3, hf23, -⟩ := Clear_ok htmp2
  obtain ⟨m4, hde, hf34, -⟩ := destroy_ok htmp3
  refine ⟨m4, ?_, ?_⟩
  · have e1 : ctor_default m = (m1, m.length) := by rw [← hm1]; rfl
    unfold operator_assign
    rw [if_pos hne]
    simp only [e1, hb, end_, hfill, hcl, hde]
  · refine Frame_mono (Frame_trans (Frame_trans (Frame_trans hf01 hf12) hf23) hf34) ?_
    intro a ha hlive
    simp only [List.mem_append, List.mem_cons, List.mem_singleton, List.not_mem_nil,
      or_false, false_or, or_self] at ha
    subst ha
    exact absurd (read_length m) hlive

/-- Either creation of the node of the `N`-th element of `S`, the one of the first loop
(attempt `N`) or the one of the second loop (attempt `|S| + (|S| - 1 - N)`), is an
attempt of the sequence `S ++ S.reverse` of all creations of a bulk fill. -/
theorem failing_attempt_of_element (copy_throws : Nat → α → Bool) (c : Nat) {S : List α}
    {N : Nat} {x : α} (hN : S[N]? = some x)
    (h : copy_throws (c + N) x = true ∨
      copy_throws (c + (S.length + (S.length - 1 - N))) x = true) :
    ∃ (i : Nat) (y : α), (S ++ S.reverse)[i]? = some y ∧ copy_throws (c + i) y = true := by
  obtain ⟨hlt, -⟩ := List.getElem?_eq_some.mp hN
  rcases h with h | h
  · exact ⟨N, x, by rw [List.getElem?_append_left hlt]; exact hN, h⟩
  · refine ⟨S.length + (S.length - 1 - N), x, ?_, h⟩
    rw [List.getElem?_append_right (by omega)]
    simp only [Nat.add_sub_cancel_left]
    rw [List.getElem?_reverse (by omega)]
    have e : S.length - 1 - (S.length - 1 - N) = N := by omega
    rw [e]; exact hN

/-! ## Removing the first element -/

theorem PopFront_ok {m : Memory α} {l a : Nat} {as : List Nat} {x : α} {xs : List α}
    {s : Nat} (h : IsList m l (a :: as) (x :: xs) s) :
    ∃ m', PopFront m l = some m' ∧ IsList m' l as xs ((s + SIZE_MOD - 1) % SIZE_MOD) ∧
      Frame m m' [l, a] ∧ m'.length = m.length := by
  have hnot := IsList_not_mem h
  obtain ⟨hs, v, p, hr, hc⟩ := h
  have hnd := Chain_nodup hc
  obtain ⟨hp, nxt, hra, hrest⟩ := Chain_cons_iff.mp hc
  subst hp
  have hla : l ≠ a := fun e => hnot (e ▸ List.mem_cons_self _ _)
  have hl := read_some_lt hr
  have h1 : read (m.set l (some (.list ⟨v, nxt⟩ s))) l = some (.list ⟨v, nxt⟩ s) :=
    read_set_self _ hl
  have h2 : read ((m.set l (some (.list ⟨v, nxt⟩ s))).set l
      (some (.list ⟨v, nxt⟩ ((s + SIZE_MOD - 1) % SIZE_MOD)))) a
      = some (.node ⟨x, nxt⟩) := by
    rw [read_set_ne _ _ hla, read_set_ne _ _ hla]; exact hra
  refine ⟨(((m.set l (some (.list ⟨v, nxt⟩ s))).set l
      (some (.list ⟨v, nxt⟩ ((s + SIZE_MOD - 1) % SIZE_MOD)))).set a none), ?_, ?_, ?_, by simp⟩
  · unfold PopFront
    simp only [incr, before_begin, load_list hr, Option.map_some', load_node hra,
      set_next_list hr, get_size_list h1, set_size_list h1, delete_node h2]
  · refine ⟨Nat.mod_lt _ (by decide), v, nxt, ?_, ?_⟩
    · rw [read_set_ne _ _ (Ne.symm hla)]
      exact read_set_self _ (by simpa using hl)
    · refine Chain_congr hrest (fun b hb => ?_)
      have hb0 : l ≠ b := fun e => hnot (e ▸ List.mem_cons_of_mem _ hb)
      have hb1 : a ≠ b := fun e => (List.nodup_cons.mp hnd).1 (e ▸ hb)
      rw [read_set_ne _ _ hb1, read_set_ne _ _ hb0, read_set_ne _ _ hb0]
  · refine Frame_mono (Frame_trans (Frame_trans (Frame_set m l _) (Frame_set _ l _))
      (Frame_set _ a _)) ?_
    intro b hb _
    simp only [List.mem_append, List.mem_cons, List.mem_singleton, List.not_mem_nil,
      or_false] at hb ⊢
    tauto

theorem IsEmpty_IsList {m : Memory α} {l : Nat} {as : List Nat} {xs : List α} {s : Nat}
    (h : IsList m l as xs s) : IsEmpty m l = some (decide (s = 0)) := by
  obtain ⟨_, v, p, hr, _⟩ := h
  by_cases hs : s = 0 <;> simp [IsEmpty, get_size_list hr, hs]

/-! ## Inserting after a position -/

theorem InsertAfter_head {copy_throws : Nat → α → Bool} {m : Memory α} {l : Nat} {w : α}
    {p : Option Nat} {s : Nat} (hr : read m l = some (.list ⟨w, p⟩ s)) {v : α}
    (hv : copy_throws m.length v = false) :
    InsertAfter copy_throws m l (some l) v =
        .ok (((m ++ [some (Cell.node ⟨v, p⟩)]).set l (some (.list ⟨w, some m.length⟩ s))).set l
          (some (.list ⟨w, some m.length⟩ ((s + 1) % SIZE_MOD))), some m.length) ∧
      PushFront copy_throws m l v =
        .ok (((m ++ [some (Cell.node ⟨v, p⟩)]).set l (some (.list ⟨w, some m.length⟩ s))).set l
          (some (.list ⟨w, some m.length⟩ ((s + 1) % SIZE_MOD)))) := by
  have hr1 : read (m ++ [some (Cell.node ⟨v, p⟩)]) l = some (.list ⟨w, p⟩ s) :=
    read_append_of_some _ hr
  have hl1 : l < (m ++ [some (Cell.node ⟨v, p⟩)]).length := by
    have := read_some_lt hr
    simp
    omega
  have hr2 : read ((m ++ [some (Cell.node ⟨v, p⟩)]).set l
      (some (.list ⟨w, some m.length⟩ s))) l = some (.list ⟨w, some m.length⟩ s) :=
    read_set_self _ hl1
  have hr3 : read (((m ++ [some (Cell.node ⟨v, p⟩)]).set l
      (some (.list ⟨w, some m.length⟩ s))).set l
      (some (.list ⟨w, some m.length⟩ ((s + 1) % SIZE_MOD)))) l
      = some (.list ⟨w, some m.length⟩ ((s + 1) % SIZE_MOD)) :=
    read_set_self _ (by simpa using hl1)
  constructor
  · unfold InsertAfter
    simp only [load_list hr, get_size_list hr, new_Node, hv, Bool.false_eq_true, if_false,
      set_next_list hr1, get_size_list hr2, set_size_list hr2, load_list hr3]
  · unfold PushFront
    simp only [load_list hr, new_Node, hv, Bool.false_eq_true, if_false,
      set_next_list hr1, get_size_list hr2, set_size_list hr2]

theorem InsertAfter_node {copy_throws : Nat → α → Bool} {m : Memory α} {l c : Nat} {w v0 : α}
    {p q : Option Nat} {s : Nat} (hr : read m l = some (.list ⟨w, p⟩ s))
    (hc : read m c = some (.node ⟨v0, q⟩)) {v : α} (hv : copy_throws m.length v = false) :
    InsertAfter copy_throws m l (some c) v =
      .ok (((m ++ [some (Cell.node ⟨v, q⟩)]).set c (some (.node ⟨v0, some m.length⟩))).set l
        (some (.list ⟨w, p⟩ ((s + 1) % SIZE_MOD))), some m.length) := by
  have hcl : c ≠ l := by
    intro e
    rw [e, hr] at hc
    cases hc
  have hc1 : read (m ++ [some (Cell.node ⟨v, q⟩)]) c = some (.node ⟨v0, q⟩) :=
    read_append_of_some _ hc
  have hlc : c < (m ++ [some (Cell.node ⟨v, q⟩)]).length := by
    have := read_some_lt hc
    simp
    omega
  have hr2 : read ((m ++ [some (Cell.node ⟨v, q⟩)]).set c
      (some (.node ⟨v0, some m.length⟩))) l = some (.list ⟨w, p⟩ s) := by
    rw [read_set_ne _ _ hcl]
    exact read_append_of_some _ hr
  have hc3 : read (((m ++ [some (Cell.node ⟨v, q⟩)]).set c
      (some (.node ⟨v0, some m.length⟩))).set l
      (some (.list ⟨w, p⟩ ((s + 1) % SIZE_MOD)))) c = some (.node ⟨v0, some m.length⟩) := by
    rw [read_set_ne _ _ (Ne.symm hcl)]
    exact read_set_self _ hlc
  unfold InsertAfter
  simp only [load_node hc, get_size_list hr, new_Node, hv, Bool.false_eq_true, if_false,
    set_next_node hc1, get_size_list hr2, set_size_list hr2, load_node hc3]

theorem Chain_insert {m m' : Memory α} {n : Nat} {v : α} :
    ∀ (i : Nat) {as : List Nat} {p : Option Nat} {xs : List α}, Chain m p as xs →
      ∀ {c : Nat} {v0 : α} {q : Option Nat}, as[i]? = some c →
      read m c = some (.node ⟨v0, q⟩) → read m' c = some (.node ⟨v0, some n⟩) →
      read m' n = some (.node ⟨v, q⟩) → n ∉ as →
      (∀ b ∈ as, b ≠ c → read m' b = read m b) →
      Chain m' p (as.take (i + 1) ++ n :: as.drop (i + 1))
        (xs.take (i + 1) ++ v :: xs.drop (i + 1))
  | _, [], _, _, _, _, _, _, hi, _, _, _, _, _ => by simp at hi
  | _, _ :: _, _, [], h, _, _, _, _, _, _, _, _, _ => by simp [Chain] at h
  | 0, a :: rest, _, x :: xrest, h, c, v0, q, hi, hc, hc', hn', hn, hfr => by
    have hnd := Chain_nodup h
    obtain ⟨hp, nxt, hra, hrest⟩ := Chain_cons_iff.mp h
    have hac : a = c := by simpa using hi
    subst hac
    rw [hra] at hc
    injection hc with hc
    injection hc with hc
    injection hc with e1 e2
    subst e1 e2
    simp only [List.take_succ_cons, List.take_zero, List.drop_succ_cons, List.drop_zero,
      List.cons_append, List.nil_append]
    refine Chain_cons_iff.mpr ⟨hp, some n, hc', Chain_cons_iff.mpr ⟨rfl, nxt, hn', ?_⟩⟩
    refine Chain_congr hrest (fun b hb => hfr b (List.mem_cons_of_mem _ hb) ?_)
    intro e
    exact (List.nodup_cons.mp hnd).1 (e ▸ hb)
  | i + 1, a :: rest, _, x :: xrest, h, c, v0, q, hi, hc, hc', hn', hn, hfr => by
    have hnd := Chain_nodup h
    obtain ⟨hp, nxt, hra, hrest⟩ := Chain_cons_iff.mp h
    have hi' : rest[i]? = some c := by simpa using hi
    have hcmem : c ∈ rest := by
      obtain ⟨hlt, hget⟩ := List.getElem?_eq_some.mp hi'
      exact hget ▸ List.getElem_mem hlt
    have hac : a ≠ c := fun e => (List.nodup_cons.mp hnd).1 (e ▸ hcmem)
    have ih := Chain_insert i hrest hi' hc hc' hn'
      (fun hmem => hn (List.mem_cons_of_mem _ hmem))
      (fun b hb hbc => hfr b (List.mem_cons_of_mem _ hb) hbc)
    simp only [List.take_succ_cons, List.drop_succ_cons, List.cons_append]
    refine Chain_cons_iff.mpr ⟨hp, nxt, ?_, ih⟩
    rw [hfr a (List.mem_cons_self _ _) hac]
    exact hra

theorem InsertAfter_ok {copy_throws : Nat → α → Bool} {m : Memory α} {l : Nat} {as : List Nat}
    {xs : List α} {s : Nat} (h : IsList m l as xs s) {i : Nat} (hi : i ≤ xs.length) {v : α}
    (hv : copy_throws m.length v = false) :
    ∃ m', InsertAfter copy_throws m l ((l :: as)[i]?) v = .ok (m', some m.length) ∧
      IsList m' l (as.take i ++ m.length :: as.drop i) (xs.take i ++ v :: xs.drop i)
        ((s + 1) % SIZE_MOD) ∧
      Frame m m' (l :: as) ∧ m'.length = m.length + 1 := by
  cases i with
  | zero =>
    obtain ⟨m', hpf, hl', hf, hlen⟩ := PushFront_ok h hv
    obtain ⟨_, w, p, hr, _⟩ := h
    obtain ⟨hia, hpf'⟩ := InsertAfter_head hr hv
    rw [hpf'] at hpf
    injection hpf with hpf
    subst hpf
    refine ⟨_, by simpa using hia, by simpa using hl', ?_, hlen⟩
    exact Frame_mono hf (fun b hb _ => by
      simp only [List.mem_singleton] at hb
      subst hb
      exact List.mem_cons_self _ _)
  | succ j =>
    have hnot := IsList_not_mem h
    obtain ⟨hlt_l, hlt_as⟩ := IsList_lt h
    obtain ⟨hs, w, p, hr, hc⟩ := h
    have hlen := Chain_length hc
    have hj : j < as.length := by omega
    have hget : as[j]? = some as[j] := List.getElem?_eq_getElem hj
    have hcmem : as[j] ∈ as := List.getElem_mem hj
    obtain ⟨nd, hnd⟩ := Chain_node hc _ hcmem
    obtain ⟨v0, q⟩ := nd
    have hcl : as[j] ≠ l := fun e => hnot (e ▸ hcmem)
    have hia := InsertAfter_node hr hnd hv
    have hlc : as[j] < (m ++ [some (Cell.node ⟨v, q⟩)]).length := by
      have := hlt_as _ hcmem
      simp
      omega
    have hll : l < (m ++ [some (Cell.node ⟨v, q⟩)]).length := by
      simp
      omega
    refine ⟨_, by simpa [hget] using hia, ⟨Nat.mod_lt _ (by decide), w, p, ?_, ?_⟩, ?_, by simp⟩
    · exact read_set_self _ (by simpa using hll)
    · refine Chain_insert j hc hget hnd ?_ ?_ ?_ ?_
      · rw [read_set_ne _ _ (Ne.symm hcl)]
        exact read_set_self _ hlc
      · have h1 : l ≠ m.length := by omega
        have h2 : as[j] ≠ m.length := by have := hlt_as _ hcmem; omega
        rw [read_set_ne _ _ h1, read_set_ne _ _ h2]
        exact read_append_length m _ []
      · intro hmem
        have := hlt_as _ hmem
        omega
      · intro b hb hbc
        have hbl : l ≠ b := fun e => hnot (e ▸ hb)
        rw [read_set_ne _ _ hbl, read_set_ne _ _ (Ne.symm hbc)]
        obtain ⟨nb, hnb⟩ := Chain_node hc b hb
        rw [hnb]
        exact read_append_of_some _ hnb
    · refine Frame_mono (Frame_trans (Frame_trans (Frame_append m _ []) (Frame_set _ as[j] _))
        (Frame_set _ l _)) ?_
      intro b hb _
      simp only [List.nil_append, List.mem_append, List.mem_cons, List.mem_singleton,
        List.not_mem_nil, or_false] at hb ⊢
      rcases hb with rfl | rfl
      · exact Or.inr hcmem
      · exact Or.inl rfl

theorem position_getD (l : Nat) (as : List Nat) (i : Nat) :
    (before_begin l :: as.map some).getD i none = (l :: as)[i]? := by
  cases i with
  | zero => simp [before_begin]
  | succ j =>
    simp only [List.getD_cons_succ, List.getElem?_cons_succ]
    rw [List.getD_eq_getElem?_getD, List.getElem?_map]
    cases as[j]? <;> rfl

/-! ## Client programs: auxiliary facts -/

theorem IsList_det {m : Memory α} {l : Nat} {as bs : List Nat} {xs ys : List α} {s t : Nat}
    (h1 : IsList m l as xs s) (h2 : IsList m l bs ys t) : as = bs ∧ xs = ys ∧ s = t := by
  obtain ⟨_, v, p, hr, hc⟩ := h1
  obtain ⟨_, w, q, hr', hc'⟩ := h2
  rw [hr] at hr'
  injection hr' with hr'
  injection hr' with e1 e2
  injection e1 with _ e3
  subst e3
  obtain ⟨ea, ex⟩ := Chain_det hc hc'
  exact ⟨ea, ex, e2⟩

theorem node_addresses_Chain {m : Memory α} :
    ∀ {as : List Nat} {p : Option Nat} {xs : List α}, Chain m p as xs →
      ∀ fuel, as.length ≤ fuel → node_addresses fuel m p = some as
  | [], _, [], h, fuel, _ => by
    have hp := Chain_nil_iff.mp h
    subst hp
    cases fuel <;> simp [node_addresses]
  | [], _, _ :: _, h, _, _ => by simp [Chain] at h
  | _ :: _, _, [], h, _, _ => by simp [Chain] at h
  | a :: as, _, x :: xs, h, fuel, hfuel => by
    obtain ⟨hp, nxt, hr, hc⟩ := Chain_cons_iff.mp h
    subst hp
    cases fuel with
    | zero => simp at hfuel
    | succ f =>
      have ih := node_addresses_Chain hc f (by simpa using hfuel)
      simp [node_addresses, incr, load_node hr, ih]

theorem positions_IsList {m : Memory α} {l : Nat} {as : List Nat} {xs : List α} {s : Nat}
    (h : IsList m l as xs s) : positions m l = some (before_begin l :: as.map some) := by
  obtain ⟨p, hb, hc⟩ := begin_IsList h
  have := node_addresses_Chain hc (m.length + 1) (by have := Chain_length_le hc; omega)
  simp [positions, hb, this]

theorem position_of_get {l : Nat} {as : List Nat} {i : Nat} {it : BasicIterator}
    (h : (before_begin l :: as.map some)[i]? = some it) :
    i ≤ as.length ∧ it = (l :: as)[i]? := by
  cases i with
  | zero =>
    simp [before_begin] at h
    exact ⟨Nat.zero_le _, by simp [h]⟩
  | succ j =>
    simp only [List.getElem?_cons_succ, List.getElem?_map] at h ⊢
    cases hj : as[j]? with
    | none => simp [hj] at h
    | some a =>
      obtain ⟨hlt, _⟩ := List.getElem?_eq_some.mp hj
      rw [hj] at h
      simp at h
      exact ⟨hlt, h.symm⟩

theorem Chain_incr {m : Memory α} :
    ∀ {as : List Nat} {p : Option Nat} {xs : List α}, Chain m p as xs →
      ∀ j : Nat, j < as.length → incr m (as[j]?) = some (as[j + 1]?)
  | [], _, _, _, j, hj => by simp at hj
  | _ :: _, _, [], h, _, _ => by simp [Chain] at h
  | a :: as, _, x :: xs, h, j, hj => by
    obtain ⟨_, nxt, hr, hc⟩ := Chain_cons_iff.mp h
    cases j with
    | zero => simp [incr, load_node hr, Chain_head hc]
    | succ j => simpa using Chain_incr hc j (by simpa using hj)

theorem incr_position {m : Memory α} {l : Nat} {as : List Nat} {xs : List α} {s : Nat}
    (h : IsList m l as xs s) {i : Nat} (hi : i ≤ as.length) :
    incr m ((l :: as)[i]?) = some (as[i]?) := by
  obtain ⟨_, v, p, hr, hc⟩ := h
  cases i with
  | zero => simp [incr, load_list hr, Chain_head hc]
  | succ j => simpa using Chain_incr hc j (by omega)

theorem EraseAfter_last {m : Memory α} {l : Nat} {as : List Nat} {xs : List α} {s : Nat}
    (h : IsList m l as xs s) : EraseAfter m l ((l :: as)[as.length]?) = none := by
  have hi := incr_position h (le_refl as.length)
  have hnone : as[as.length]? = none := List.getElem?_eq_none (le_refl _)
  rw [hnone] at hi
  unfold EraseAfter
  rw [hi]

theorem PopFront_empty {m : Memory α} {l : Nat} {s : Nat} (h : IsList m l [] ([] : List α) s) :
    PopFront m l = none := by
  have hi := incr_position h (Nat.zero_le _)
  simp only [List.getElem?_cons_zero, List.getElem?_nil] at hi
  unfold PopFront
  simp only [before_begin]
  rw [hi]

theorem read_set_same {m : Memory α} {a : Nat} {c : Cell α} (h : read m a = some c) (b : Nat) :
    read (m.set a (some c)) b = read m b := by
  rw [read_set]
  by_cases hab : a = b
  · subst hab
    simp [read_some_lt h, h]
  · simp [hab]

theorem InsertAfter_throws {copy_throws : Nat → α → Bool} {m : Memory α} {l : Nat} {as : List Nat}
    {xs : List α} {s : Nat} (h : IsList m l as xs s) {i : Nat} (hi : i ≤ as.length) {v : α}
    (hv : copy_throws m.length v = true) :
    ∃ m', InsertAfter copy_throws m l ((l :: as)[i]?) v = .throws m' ∧
      ∀ a, read m' a = read m a := by
  obtain ⟨_, w, p, hr, hc⟩ := h
  cases i with
  | zero =>
    have h1 : read (m.set l (some (.list ⟨w, p⟩ s))) l = some (.list ⟨w, p⟩ s) :=
      read_set_self _ (read_some_lt hr)
    refine ⟨(m.set l (some (.list ⟨w, p⟩ s))).set l (some (.list ⟨w, p⟩ s)), ?_, ?_⟩
    · unfold InsertAfter
      simp only [List.getElem?_cons_zero, load_list hr, get_size_list hr, new_Node, hv, if_true,
        set_next_list hr, set_size_list h1]
    · intro a
      rw [read_set_same h1, read_set_same hr]
  | succ j =>
    have hj : j < as.length := by omega
    have hget : as[j]? = some as[j] := List.getElem?_eq_getElem hj
    have hcmem : as[j] ∈ as := List.getElem_mem hj
    obtain ⟨nd, hnd⟩ := Chain_node hc _ hcmem
    obtain ⟨v0, q⟩ := nd
    have hcl : as[j] ≠ l := fun e => Chain_not_list hc hr (e ▸ hcmem)
    have h1 : read (m.set as[j] (some (.node ⟨v0, q⟩))) l = some (.list ⟨w, p⟩ s) := by
      rw [read_set_ne _ _ hcl]; exact hr
    refine ⟨(m.set as[j] (some (.node ⟨v0, q⟩))).set l (some (.list ⟨w, p⟩ s)), ?_, ?_⟩
    · unfold InsertAfter
      simp only [List.getElem?_cons_succ, hget, load_node hnd, get_size_list hr, new_Node, hv,
        if_true, set_next_node hnd, set_size_list h1]
    · intro a
      rw [read_set_same h1, read_set_same hnd]

theorem Frame_of_read_eq {m m' : Memory α} (h : ∀ a, read m' a = read m a) (fp : List Nat) :
    Frame m m' fp := by
  intro a c hr _
  rw [h a]
  exact hr

theorem ctor_values_throws [Inhabited α] (copy_throws : Nat → α → Bool) (m : Memory α) (S : List α)
    (hfail : ∃ (i : Nat) (x : α), (S ++ S.reverse)[i]? = some x ∧
      copy_throws (m.length + 3 + i) x = true) :
    ∃ m', ctor_values copy_throws m S = .throws m' ∧ Frame m m' [] := by
  obtain ⟨h1, -, hf01, hlen1⟩ := ctor_default_ok m
  generalize hm1 : (ctor_default m).1 = m1 at h1 hf01 hlen1
  have hS : Iterates (ArrayIt S) (fun m' => Frame m1 m' []) 0 S.length S :=
    Iterates_ArrayIt S _ S 0 (Nat.zero_le _) rfl
  have hfail1 : ∃ (i : Nat) (x : α), (S ++ S.reverse)[i]? = some x ∧
      copy_throws (m1.length + 2 + i) x = true := by
    obtain ⟨i, x, hx, hf⟩ := hfail
    exact ⟨i, x, hx, by rwa [show m1.length + 2 + i = m.length + 3 + i by omega]⟩
  obtain ⟨m2, hfill, hf12⟩ :=
    Filling_throws (ArrayIt S) copy_throws m.length S hS (by simp [ArrayIt]) hfail1
  refine ⟨m2.set m.length none, ?_, ?_⟩
  · have e1 : ctor_default m = (m1, m.length) := by rw [← hm1]; rfl
    simp only [ctor_values, e1, hfill]
  · refine Frame_mono (Frame_trans (Frame_trans hf01 hf12) (Frame_set m2 m.length none)) ?_
    intro a ha hlive
    simp only [List.nil_append, List.mem_singleton] at ha
    subst ha
    exact absurd (read_length m) hlive

/-! ## Client programs: the invariant is kept -/

theorem WorldInv_update {m m' : Memory α} {lists : List Nat} {B B' : Nat} {l : Nat}
    {as as' : List Nat} {xs xs' : List α} {s s' : Nat} (hinv : WorldInv ⟨m, lists⟩ B)
    (hl : l ∈ lists) (h : IsList m l as xs s) (h' : IsList m' l as' xs' s')
    (hcount : xs'.length ≤ s') (hB : s' ≤ B') (hBB : B ≤ B') (hf : Frame m m' (l :: as))
    (hnew : ∀ a ∈ as', a ∈ as ∨ m.length ≤ a) : WorldInv ⟨m', lists⟩ B' := by
  obtain ⟨hdesc, hsep⟩ := hinv
  have key : ∀ k ∈ lists, k ≠ l → ∀ bs ys t, IsList m k bs ys t →
      IsList m' k bs ys t ∧ ∀ a ∈ as', a ∉ bs := by
    intro k hk hkl bs ys t hkd
    have hsep1 := hsep l hl k hk (Ne.symm hkl) as xs s bs ys t h hkd
    constructor
    · refine IsList_frame hkd hf ?_ (fun b hb => ?_)
      · simp only [List.mem_cons, not_or]
        exact ⟨hkl, IsList_other h hkd⟩
      · simp only [List.mem_cons, not_or]
        exact ⟨fun e => IsList_other hkd h (e ▸ hb), fun hba => hsep1 b hba hb⟩
    · intro a ha hab
      rcases hnew a ha with h1 | h1
      · exact hsep1 a h1 hab
      · have := (IsList_lt hkd).2 a hab
        omega
  constructor
  · intro k hk
    by_cases hkl : k = l
    · subst hkl
      exact ⟨as', xs', s', h', hcount, hB⟩
    · obtain ⟨bs, ys, t, hkd, h1, h2⟩ := hdesc k hk
      exact ⟨bs, ys, t, (key k hk hkl bs ys t hkd).1, h1, le_trans h2 hBB⟩
  · intro j hj k hk hjk as1 xs1 s1 as2 xs2 s2 hd1 hd2 a ha1 ha2
    by_cases hjl : j = l
    · subst hjl
      obtain ⟨bs, ys, t, hkd, -, -⟩ := hdesc k hk
      obtain ⟨hk', hdis⟩ := key k hk (Ne.symm hjk) bs ys t hkd
      obtain ⟨e1, -, -⟩ := IsList_det hd1 h'
      obtain ⟨e2, -, -⟩ := IsList_det hd2 hk'
      subst e1 e2
      exact hdis a ha1 ha2
    · by_cases hkl : k = l
      · subst hkl
        obtain ⟨bs, ys, t, hjd, -, -⟩ := hdesc j hj
        obtain ⟨hj', hdis⟩ := key j hj hjl bs ys t hjd
        obtain ⟨e1, -, -⟩ := IsList_det hd1 hj'
        obtain ⟨e2, -, -⟩ := IsList_det hd2 h'
        subst e1 e2
        exact hdis a ha2 ha1
      · obtain ⟨bs, ys, t, hjd, -, -⟩ := hdesc j hj
        obtain ⟨cs, zs, u, hkd, -, -⟩ := hdesc k hk
        obtain ⟨hj', -⟩ := key j hj hjl bs ys t hjd
        obtain ⟨hk', -⟩ := key k hk hkl cs zs u hkd
        obtain ⟨e1, -, -⟩ := IsList_det hd1 hj'
        obtain ⟨e2, -, -⟩ := IsList_det hd2 hk'
        subst e1 e2
        exact hsep j hj k hk hjk _ _ _ _ _ _ hjd hkd a ha1 ha2

theorem WorldInv_map {m m' : Memory α} {lists : List Nat} {B : Nat} (σ : Nat → Nat)
    (hσ : ∀ j ∈ lists, σ j ∈ lists) (hinj : ∀ j ∈ lists, ∀ k ∈ lists, σ j = σ k → j = k)
    (hmove : ∀ j ∈ lists, ∀ as xs s, IsList m (σ j) as xs s → IsList m' j as xs s)
    (hinv : WorldInv ⟨m, lists⟩ B) : WorldInv ⟨m', lists⟩ B := by
  obtain ⟨hdesc, hsep⟩ := hinv
  constructor
  · intro j hj
    obtain ⟨as, xs, s, hd, h1, h2⟩ := hdesc (σ j) (hσ j hj)
    exact ⟨as, xs, s, hmove j hj as xs s hd, h1, h2⟩
  · intro j hj k hk hjk as1 xs1 s1 as2 xs2 s2 hd1 hd2 a ha1 ha2
    obtain ⟨bs, ys, t, hjd, -, -⟩ := hdesc (σ j) (hσ j hj)
    obtain ⟨cs, zs, u, hkd, -, -⟩ := hdesc (σ k) (hσ k hk)
    obtain ⟨e1, -, -⟩ := IsList_det hd1 (hmove j hj _ _ _ hjd)
    obtain ⟨e2, -, -⟩ := IsList_det hd2 (hmove k hk _ _ _ hkd)
    subst e1 e2
    exact hsep (σ j) (hσ j hj) (σ k) (hσ k hk) (fun e => hjk (hinj j hj k hk e))
      _ _ _ _ _ _ hjd hkd a ha1 ha2

theorem WorldInv_frame {m m' : Memory α} {lists : List Nat} {B : Nat}
    (hinv : WorldInv ⟨m, lists⟩ B) (hf : Frame m m' []) : WorldInv ⟨m', lists⟩ B :=
  WorldInv_map id (fun _ hj => hj) (fun _ _ _ _ e => e)
    (fun _ _ _ _ _ hd => IsList_frame hd hf (by simp) (by simp)) hinv

theorem WorldInv_add {m m' : Memory α} {lists : List Nat} {B B' : Nat} {ns : List Nat}
    {S : List α} {s' : Nat} (hinv : WorldInv ⟨m, lists⟩ B) (hf : Frame m m' [])
    (hnew : IsList m' m.length ns S s') (hns : ∀ a ∈ ns, m.length ≤ a)
    (hcount : S.length ≤ s') (hB : s' ≤ B') (hBB : B ≤ B') :
    WorldInv ⟨m', m.length :: lists⟩ B' := by
  obtain ⟨hdesc, hsep⟩ := hinv
  have hold : ∀ k ∈ lists, ∃ bs ys t, IsList m k bs ys t ∧ IsList m' k bs ys t ∧
      k < m.length ∧ (∀ b ∈ bs, b < m.length) ∧ ys.length ≤ t ∧ t ≤ B := by
    intro k hk
    obtain ⟨bs, ys, t, hd, h1, h2⟩ := hdesc k hk
    exact ⟨bs, ys, t, hd, IsList_frame hd hf (by simp) (by simp), (IsList_lt hd).1,
      (IsList_lt hd).2, h1, h2⟩
  constructor
  · intro k hk
    rcases List.mem_cons.mp hk with rfl | hk
    · exact ⟨ns, S, s', hnew, hcount, hB⟩
    · obtain ⟨bs, ys, t, -, hd', -, -, h1, h2⟩ := hold k hk
      exact ⟨bs, ys, t, hd', h1, le_trans h2 hBB⟩
  · intro j hj k hk hjk as1 xs1 s1 as2 xs2 s2 hd1 hd2 a ha1 ha2
    rcases List.mem_cons.mp hj with rfl | hj
    · rcases List.mem_cons.mp hk with rfl | hk
      · exact hjk rfl
      · obtain ⟨bs, ys, t, -, hd', -, hlt, -, -⟩ := hold k hk
        obtain ⟨e1, -, -⟩ := IsList_det hd1 hnew
        obtain ⟨e2, -, -⟩ := IsList_det hd2 hd'
        subst e1 e2
        have := hns a ha1
        have := hlt a ha2
        omega
    · rcases List.mem_cons.mp hk with rfl | hk
      · obtain ⟨bs, ys, t, -, hd', -, hlt, -, -⟩ := hold j hj
        obtain ⟨e1, -, -⟩ := IsList_det hd1 hd'
        obtain ⟨e2, -, -⟩ := IsList_det hd2 hnew
        subst e1 e2
        have := hns a ha2
        have := hlt a ha1
        omega
      · obtain ⟨bs, ys, t, hjd, hd1', -, -, -, -⟩ := hold j hj
        obtain ⟨cs, zs, u, hkd, hd2', -, -, -, -⟩ := hold k hk
        obtain ⟨e1, -, -⟩ := IsList_det hd1 hd1'
        obtain ⟨e2, -, -⟩ := IsList_det hd2 hd2'
        subst e1 e2
        exact hsep j hj k hk hjk _ _ _ _ _ _ hjd hkd a ha1 ha2

theorem WorldInv_bound {w : World α} {B B' : Nat} (hinv : WorldInv w B) (hBB : B ≤ B') :
    WorldInv w B' := by
  obtain ⟨hdesc, hsep⟩ := hinv
  refine ⟨fun l hl => ?_, hsep⟩
  obtain ⟨as, xs, s, hd, h1, h2⟩ := hdesc l hl
  exact ⟨as, xs, s, hd, h1, le_trans h2 hBB⟩

theorem step_construct [Inhabited α] {copy_throws : Nat → α → Bool} {m : Memory α}
    {lists : List Nat} {w' : World α} {B : Nat}
    (hstep : step copy_throws ⟨m, lists⟩ .construct = some w')
    (hinv : WorldInv ⟨m, lists⟩ B) : WorldInv w' B := by
  obtain ⟨h1, -, hf, -⟩ := ctor_default_ok m
  have e : step copy_throws ⟨m, lists⟩ .construct
      = some ⟨(ctor_default m).1, m.length :: lists⟩ := rfl
  rw [e] at hstep
  injection hstep with hstep
  subst hstep
  exact WorldInv_add hinv hf h1 (by simp) (by simp) (Nat.zero_le _) (le_refl _)

theorem step_construct_values [Inhabited α] {copy_throws : Nat → α → Bool} {m : Memory α}
    {lists : List Nat} {w' : World α} {B : Nat} {S : List α}
    (hstep : step copy_throws ⟨m, lists⟩ (.construct_values S) = some w')
    (hinv : WorldInv ⟨m, lists⟩ B) (hB : B + S.length < SIZE_MOD) :
    WorldInv w' (B + S.length) := by
  by_cases hfail : ∃ (i : Nat) (x : α), (S ++ S.reverse)[i]? = some x ∧
      copy_throws (m.length + 3 + i) x = true
  · obtain ⟨m', hc, hf⟩ := ctor_values_throws copy_throws m S hfail
    have e : step copy_throws ⟨m, lists⟩ (.construct_values S) = some ⟨m', lists⟩ := by
      simp only [step, hc]
    rw [e] at hstep
    injection hstep with hstep
    subst hstep
    exact WorldInv_bound (WorldInv_frame hinv hf) (Nat.le_add_right _ _)
  · obtain ⟨m', ns, hc, hl, hf, hns⟩ :=
      ctor_values_fresh copy_throws m S (NoFailure_of_not_exists hfail)
    rw [Nat.mod_eq_of_lt (by omega)] at hl
    have e : step copy_throws ⟨m, lists⟩ (.construct_values S)
        = some ⟨m', m.length :: lists⟩ := by
      simp only [step, hc]
    rw [e] at hstep
    injection hstep with hstep
    subst hstep
    exact WorldInv_add hinv hf hl hns (le_refl _) (Nat.le_add_left _ _) (Nat.le_add_right _ _)

theorem step_PushFront [Inhabited α] {copy_throws : Nat → α → Bool} {m : Memory α}
    {lists : List Nat} {w' : World α} {B : Nat} {l : Nat} {v : α}
    (hstep : step copy_throws ⟨m, lists⟩ (.PushFront l v) = some w')
    (hinv : WorldInv ⟨m, lists⟩ B) (hB : B + 1 < SIZE_MOD) : WorldInv w' (B + 1) := by
  by_cases hl : l ∈ lists
  · obtain ⟨as, xs, s, hd, h1, h2⟩ := hinv.1 l hl
    cases hv : copy_throws m.length v with
    | true =>
      have e : step copy_throws ⟨m, lists⟩ (.PushFront l v) = some ⟨m, lists⟩ := by
        simp only [step, hl, if_true, PushFront_throws hd hv]
      rw [e] at hstep
      injection hstep with hstep
      subst hstep
      exact WorldInv_bound hinv (Nat.le_add_right _ _)
    | false =>
      obtain ⟨m', hpf, hd', hf, -⟩ := PushFront_ok hd hv
      rw [Nat.mod_eq_of_lt (by omega)] at hd'
      have e : step copy_throws ⟨m, lists⟩ (.PushFront l v) = some ⟨m', lists⟩ := by
        simp only [step, hl, if_true, hpf]
      rw [e] at hstep
      injection hstep with hstep
      subst hstep
      refine WorldInv_update hinv hl hd hd' (by simp; omega) (by omega) (Nat.le_add_right _ _)
        (Frame_mono hf (fun b hb _ => ?_)) (fun a ha => ?_)
      · simp only [List.mem_singleton] at hb
        subst hb
        exact List.mem_cons_self _ _
      · rcases List.mem_cons.mp ha with rfl | ha
        · exact Or.inr (le_refl _)
        · exact Or.inl ha
  · simp [step, hl] at hstep

theorem step_InsertAfter [Inhabited α] {copy_throws : Nat → α → Bool} {m : Memory α}
    {lists : List Nat} {w' : World α} {B : Nat} {l i : Nat} {v : α}
    (hstep : step copy_throws ⟨m, lists⟩ (.InsertAfter l i v) = some w')
    (hinv : WorldInv ⟨m, lists⟩ B) (hB : B + 1 < SIZE_MOD) : WorldInv w' (B + 1) := by
  by_cases hl : l ∈ lists
  · obtain ⟨as, xs, s, hd, h1, h2⟩ := hinv.1 l hl
    have hps := positions_IsList hd
    have hlen : as.length = xs.length := by
      obtain ⟨_, _, _, _, hc⟩ := hd
      exact Chain_length hc
    cases hit : (before_begin l :: as.map some)[i]? with
    | none => simp [step, hl, hps, hit] at hstep
    | some it =>
      obtain ⟨hi, hpos⟩ := position_of_get hit
      subst hpos
      cases hv : copy_throws m.length v with
      | true =>
        obtain ⟨m', hia, hread⟩ := InsertAfter_throws hd hi hv
        have e : step copy_throws ⟨m, lists⟩ (.InsertAfter l i v) = some ⟨m', lists⟩ := by
          simp only [step, hl, if_true, hps, hit, hia]
        rw [e] at hstep
        injection hstep with hstep
        subst hstep
        exact WorldInv_bound (WorldInv_frame hinv (Frame_of_read_eq hread _))
          (Nat.le_add_right _ _)
      | false =>
        obtain ⟨m', hia, hd', hf, -⟩ := InsertAfter_ok hd (by omega : i ≤ xs.length) hv
        rw [Nat.mod_eq_of_lt (by omega)] at hd'
        have e : step copy_throws ⟨m, lists⟩ (.InsertAfter l i v) = some ⟨m', lists⟩ := by
          simp only [step, hl, if_true, hps, hit, hia]
        rw [e] at hstep
        injection hstep with hstep
        subst hstep
        refine WorldInv_update hinv hl hd hd' ?_ (by omega) (Nat.le_add_right _ _) hf
          (fun a ha => ?_)
        · simp only [List.length_append, List.length_cons, List.length_take, List.length_drop]
          omega
        · rcases List.mem_append.mp ha with h | h
          · exact Or.inl (List.mem_of_mem_take h)
          · rcases List.mem_cons.mp h with rfl | h
            · exact Or.inr (le_refl _)
            · exact Or.inl (List.mem_of_mem_drop h)
  · simp [step, hl] at hstep

theorem step_PopFront [Inhabited α] {copy_throws : Nat → α → Bool} {m : Memory α}
    {lists : List Nat} {w' : World α} {B : Nat} {l : Nat}
    (hstep : step copy_throws ⟨m, lists⟩ (.PopFront l) = some w')
    (hinv : WorldInv ⟨m, lists⟩ B) : WorldInv w' B := by
  by_cases hl : l ∈ lists
  · obtain ⟨as, xs, s, hd, h1, h2⟩ := hinv.1 l hl
    have hlen : as.length = xs.length := by
      obtain ⟨_, _, _, _, hc⟩ := hd
      exact Chain_length hc
    cases as with
    | nil =>
      cases xs with
      | nil => simp [step, hl, PopFront_empty hd] at hstep
      | cons x xs => simp at hlen
    | cons a as =>
      cases xs with
      | nil => simp at hlen
      | cons x xs =>
        obtain ⟨m', hpop, hd', hf, -⟩ := PopFront_ok hd
        have hs := hd.1
        have e1 : (s + SIZE_MOD - 1) % SIZE_MOD = s - 1 := by
          simp only [List.length_cons, SIZE_MOD] at h1 hs ⊢
          omega
        rw [e1] at hd'
        have e : step copy_throws ⟨m, lists⟩ (.PopFront l) = some ⟨m', lists⟩ := by
          simp only [step, hl, if_true, hpop]
        rw [e] at hstep
        injection hstep with hstep
        subst hstep
        refine WorldInv_update hinv hl hd hd' ?_ (by omega) (le_refl _)
          (Frame_mono hf (fun b hb _ => ?_)) (fun b hb => Or.inl (List.mem_cons_of_mem _ hb))
        · simp only [List.length_cons] at h1
          omega
        · simp only [List.mem_cons, List.mem_singleton, List.not_mem_nil, or_false] at hb
          rcases hb with rfl | rfl
          · exact List.mem_cons_self _ _
          · exact List.mem_cons_of_mem _ (List.mem_cons_self _ _)
  · simp [step, hl] at hstep

theorem step_EraseAfter [Inhabited α] {copy_throws : Nat → α → Bool} {m : Memory α}
    {lists : List Nat} {w' : World α} {B : Nat} {l i : Nat}
    (hstep : step copy_throws ⟨m, lists⟩ (.EraseAfter l i) = some w')
    (hinv : WorldInv ⟨m, lists⟩ B) : WorldInv w' B := by
  by_cases hl : l ∈ lists
  · obtain ⟨as, xs, s, hd, h1, h2⟩ := hinv.1 l hl
    have hps := positions_IsList hd
    have hlen : as.length = xs.length := by
      obtain ⟨_, _, _, _, hc⟩ := hd
      exact Chain_length hc
    cases hit : (before_begin l :: as.map some)[i]? with
    | none => simp [step, hl, hps, hit] at hstep
    | some it =>
      obtain ⟨hi, hpos⟩ := position_of_get hit
      subst hpos
      by_cases hlast : i = as.length
      · subst hlast
        have e : step copy_throws ⟨m, lists⟩ (.EraseAfter l as.length) = none := by
          simp only [step, hl, if_true, hps, hit, EraseAfter_last hd]
        rw [e] at hstep
        cases hstep
      · obtain ⟨m', hea, hd', hf⟩ := EraseAfter_ok hd (by omega : i < xs.length)
        have e : step copy_throws ⟨m, lists⟩ (.EraseAfter l i) = some ⟨m', lists⟩ := by
          simp only [step, hl, if_true, hps, hit, hea]
        rw [e] at hstep
        injection hstep with hstep
        subst hstep
        refine WorldInv_update hinv hl hd hd' ?_ h2 (le_refl _) hf
          (fun a ha => Or.inl (List.mem_of_mem_eraseIdx ha))
        rw [List.length_eraseIdx]
        split <;> omega
  · simp [step, hl] at hstep

theorem step_Clear [Inhabited α] {copy_throws : Nat → α → Bool} {m : Memory α}
    {lists : List Nat} {w' : World α} {B : Nat} {l : Nat}
    (hstep : step copy_throws ⟨m, lists⟩ (.Clear l) = some w')
    (hinv : WorldInv ⟨m, lists⟩ B) : WorldInv w' B := by
  by_cases hl : l ∈ lists
  · obtain ⟨as, xs, s, hd, h1, h2⟩ := hinv.1 l hl
    obtain ⟨m', hc, hd', hf, -⟩ := Clear_ok hd
    have e : step copy_throws ⟨m, lists⟩ (.Clear l) = some ⟨m', lists⟩ := by
      simp only [step, hl, if_true, hc]
    rw [e] at hstep
    injection hstep with hstep
    subst hstep
    exact WorldInv_update hinv hl hd hd' (by simp) (Nat.zero_le _) (le_refl _) hf (by simp)
  · simp [step, hl] at hstep

theorem step_swap [Inhabited α] {copy_throws : Nat → α → Bool} {m : Memory α}
    {lists : List Nat} {w' : World α} {B : Nat} {a b : Nat}
    (hstep : step copy_throws ⟨m, lists⟩ (.swap a b) = some w')
    (hinv : WorldInv ⟨m, lists⟩ B) : WorldInv w' B := by
  by_cases hab : a ∈ lists ∧ b ∈ lists
  · obtain ⟨ha, hb⟩ := hab
    obtain ⟨as, xs, s, hda, -, -⟩ := hinv.1 a ha
    obtain ⟨bs, ys, t, hdb, -, -⟩ := hinv.1 b hb
    by_cases hne : a = b
    · subst hne
      obtain ⟨_, v, p, hr, _⟩ := hda
      have e : step copy_throws ⟨m, lists⟩ (.swap a a) = some ⟨m, lists⟩ := by
        simp [step, ha, nonmember_swap, swap, hr]
      rw [e] at hstep
      injection hstep with hstep
      subst hstep
      exact hinv
    · obtain ⟨m', hsw, hda', hdb', hf, -⟩ := swap_ok hda hdb hne
      have e : step copy_throws ⟨m, lists⟩ (.swap a b) = some ⟨m', lists⟩ := by
        simp only [step, ha, hb, and_self, if_true, nonmember_swap, hsw]
      rw [e] at hstep
      injection hstep with hstep
      subst hstep
      refine WorldInv_map (Equiv.swap a b) ?_ ?_ ?_ hinv
      · intro j hj
        by_cases hja : j = a
        · subst hja
          rw [Equiv.swap_apply_left]
          exact hb
        · by_cases hjb : j = b
          · subst hjb
            rw [Equiv.swap_apply_right]
            exact ha
          · rw [Equiv.swap_apply_of_ne_of_ne hja hjb]
            exact hj
      · intro j _ k _ hjk
        exact (Equiv.swap a b).injective hjk
      · intro j hj cs zs u hd
        by_cases hja : j = a
        · subst hja
          rw [Equiv.swap_apply_left] at hd
          obtain ⟨e1, e2, e3⟩ := IsList_det hd hdb
          subst e1 e2 e3
          exact hda'
        · by_cases hjb : j = b
          · subst hjb
            rw [Equiv.swap_apply_right] at hd
            obtain ⟨e1, e2, e3⟩ := IsList_det hd hda
            subst e1 e2 e3
            exact hdb'
          · rw [Equiv.swap_apply_of_ne_of_ne hja hjb] at hd
            refine IsList_frame hd hf ?_ (fun c hc => ?_)
            · simp only [List.mem_cons, List.mem_singleton, List.not_mem_nil, or_false, not_or]
              exact ⟨hja, hjb⟩
            · simp only [List.mem_cons, List.mem_singleton, List.not_mem_nil, or_false, not_or]
              exact ⟨fun e => IsList_other hd hda (e ▸ hc), fun e => IsList_other hd hdb (e ▸ hc)⟩
  · simp [step, hab] at hstep

theorem step_assign [Inhabited α] {copy_throws : Nat → α → Bool} {m : Memory α}
    {lists : List Nat} {w' : World α} {B : Nat} {a b : Nat}
    (hstep : step copy_throws ⟨m, lists⟩ (.assign a b) = some w')
    (hinv : WorldInv ⟨m, lists⟩ B) (hB : B < SIZE_MOD) : WorldInv w' B := by
  by_cases hab : a ∈ lists ∧ b ∈ lists
  · obtain ⟨ha, hb⟩ := hab
    obtain ⟨as, xs, s, hda, -, -⟩ := hinv.1 a ha
    obtain ⟨bs, ys, t, hdb, h1, h2⟩ := hinv.1 b hb
    by_cases hne : a = b
    · subst hne
      have e : step copy_throws ⟨m, lists⟩ (.assign a a) = some ⟨m, lists⟩ := by
        simp [step, ha, operator_assign]
      rw [e] at hstep
      injection hstep with hstep
      subst hstep
      exact hinv
    · by_cases hfail : ∃ (i : Nat) (x : α), (ys ++ ys.reverse)[i]? = some x ∧
          copy_throws (m.length + 3 + i) x = true
      · obtain ⟨m', hoa, hf⟩ := operator_assign_throws copy_throws hdb hne hfail
        have e : step copy_throws ⟨m, lists⟩ (.assign a b) = some ⟨m', lists⟩ := by
          simp only [step, ha, hb, and_self, if_true, hoa]
        rw [e] at hstep
        injection hstep with hstep
        subst hstep
        exact WorldInv_frame hinv hf
      · have hdisj : ∀ c ∈ as, c ∉ bs := hinv.2 a ha b hb hne as xs s bs ys t hda hdb
        obtain ⟨m', ns, hoa, hda', -, hf, hns⟩ :=
          operator_assign_fresh copy_throws hda hdb hne hdisj (NoFailure_of_not_exists hfail)
        rw [Nat.mod_eq_of_lt (by omega)] at hda'
        have e : step copy_throws ⟨m, lists⟩ (.assign a b) = some ⟨m', lists⟩ := by
          simp only [step, ha, hb, and_self, if_true, hoa]
        rw [e] at hstep
        injection hstep with hstep
        subst hstep
        exact WorldInv_update hinv ha hda hda' (le_refl _) (by omega) (le_refl _) hf
          (fun c hc => Or.inr (hns c hc))
  · simp [step, hab] at hstep

theorem step_WorldInv [Inhabited α] {copy_throws : Nat → α → Bool} {w w' : World α} {c : Call α}
    {B : Nat} (hstep : step copy_throws w c = some w') (hinv : WorldInv w B)
    (hB : B + insertions c < SIZE_MOD) : WorldInv w' (B + insertions c) := by
  obtain ⟨m, lists⟩ := w
  cases c with
  | construct => exact step_construct hstep hinv
  | construct_values S => exact step_construct_values hstep hinv hB
  | PushFront l v => exact step_PushFront hstep hinv hB
  | InsertAfter l i v => exact step_InsertAfter hstep hinv hB
  | PopFront l => exact step_PopFront hstep hinv
  | EraseAfter l i => exact step_EraseAfter hstep hinv
  | Clear l => exact step_Clear hstep hinv
  | swap a b => exact step_swap hstep hinv
  | assign a b => exact step_assign hstep hinv hB

theorem run_WorldInv [Inhabited α] {copy_throws : Nat → α → Bool} :
    ∀ (calls : List (Call α)) {w w' : World α} {B : Nat},
      run copy_throws calls w = some w' → WorldInv w B →
      B + (calls.map insertions).sum < SIZE_MOD →
      WorldInv w' (B + (calls.map insertions).sum)
  | [], w, w', B, hrun, hinv, _ => by
    simp only [run] at hrun
    injection hrun with hrun
    subst hrun
    simpa using hinv
  | c :: cs, w, w', B, hrun, hinv, hB => by
    simp only [List.map_cons, List.sum_cons] at hB ⊢
    cases hs : step copy_throws w c with
    | none => simp [run, hs] at hrun
    | some w1 =>
      have hrun' : run copy_throws cs w1 = some w' := by simpa [run, hs] using hrun
      have h1 := step_WorldInv hs hinv (by omega)
      have h2 := run_WorldInv cs hrun' h1 (by omega)
      rw [Nat.add_assoc] at h2
      exact h2

theorem WorldInv_initial : WorldInv (⟨[], []⟩ : World α) 0 :=
  ⟨fun _ hl => (by cases hl), fun _ hl => (by cases hl)⟩

/-! ## The sample memories are well formed -/

theorem sample_pair_fst : IsList sample_pair 0 [1, 2] [1, 2] 2 :=
  ⟨by decide, 0, some 1, rfl, rfl, _, rfl, rfl, _, rfl, rfl⟩

theorem sample_pair_snd : IsList sample_pair 3 [4, 5, 6] [1, 2, 3] 3 :=
  ⟨by decide, 0, some 4, rfl, rfl, _, rfl, rfl, _, rfl, rfl, _, rfl, rfl⟩

theorem sample_triple_list : IsList sample_triple 0 [1, 2, 3] [10, 20, 30] 3 :=
  ⟨by decide, 0, some 1, rfl, rfl, _, rfl, rfl, _, rfl, rfl, _, rfl, rfl⟩

/-! ## Claims -/

/-- C2: for every value sequence `S` (of a length that `initializer_list::size()` can
report) whose elements copy without throwing, the initializer-list constructor returns
a list that yields exactly `S`, in order, when iterated from `begin()` to `end()`, and
whose `GetSize()` is the length of `S`. -/
theorem ctor_values_elements [Inhabited α] (copy_throws : Nat → α → Bool) (m : Memory α)
    (S : List α) (hct : ∀ n, ∀ x ∈ S, copy_throws n x = false) (hlen : S.length < SIZE_MOD) :
    ∃ m' this, ctor_values copy_throws m S = .ok (m', this) ∧
      elements m' this = some S ∧ GetSize m' this = some S.length := by
  obtain ⟨m', ns, hc, hl, -⟩ := ctor_values_ok copy_throws m S hct
  rw [Nat.mod_eq_of_lt hlen] at hl
  exact ⟨m', m.length, hc, elements_IsList hl, GetSize_IsList hl⟩

/-- Witness for C2 at the initializer list `{10, 20, 30}` in an empty memory. -/
theorem ctor_values_elements_witness :
    (∀ n, ∀ x ∈ [10, 20, 30], never_throws n x = false) ∧
      [10, 20, 30].length < SIZE_MOD ∧
      ∃ m' this, ctor_values never_throws [] [10, 20, 30] = .ok (m', this) ∧
        elements m' this = some [10, 20, 30] ∧
        GetSize m' this = some [10, 20, 30].length :=
  ⟨fun _ _ _ => rfl, by decide,
    ctor_values_elements never_throws [] [10, 20, 30] (fun _ _ _ => rfl) (by decide)⟩

/-- C1: on the list built from `{10, 20, 30}`, `EraseAfter(begin())` leaves `GetSize()`
at 3 although iteration from `begin()` to `end()` then yields only the two elements
`10, 30`. -/
theorem size_exceeds_elements_after_EraseAfter :
    ∃ m l it m' r, ctor_values never_throws [] [10, 20, 30] = .ok (m, l) ∧
      begin m l = some it ∧ EraseAfter m l it = some (m', r) ∧
      GetSize m' l = some 3 ∧ elements m' l = some [10, 30] :=
  ⟨_, _, _, _, _, rfl, rfl, rfl, rfl, rfl⟩

/-- C4: for lists `a` and `b` over a linearly ordered element type, `a < b` returns,
and returns true exactly when the elements of `a` are lexicographically less than those
of `b` (a proper beginning is less, otherwise the first differing position decides);
passing `lhs.end()` as the end of the second range is harmless because every `end()` is
the null iterator. -/
theorem operator_lt_lexicographic [LinearOrder α] (m : Memory α) (a b : Nat)
    (as bs : List Nat) (xs ys : List α) (s t : Nat) (ha : IsList m a as xs s)
    (hb : IsList m b bs ys t) :
    end_ a = end_ b ∧
      ∃ r, operator_lt m a b = some r ∧ (r = true ↔ LexLess xs ys) ∧
        (r = true ↔ List.Lex (fun u v : α => u < v) xs ys) := by
  obtain ⟨r, hr, hiff⟩ := operator_lt_ok ha hb
  exact ⟨rfl, r, hr, hiff, hiff.trans (LexLess_iff_Lex xs ys)⟩

/-- C9: for a list with element sequence `xs` and the position number `i` of
`before_begin()` followed by the element iterators (so position 0 is `before_begin()` and
position `i + 1` is the iterator to element `i`), if position `i` has a successor then
`EraseAfter` returns, the element sequence becomes `xs` without the element right after
that position, the order of the others kept, and the returned iterator points to the
element that followed the removed one, or is `end()` when there was none. -/
theorem EraseAfter_elements (m : Memory α) (l : Nat) (as : List Nat) (xs : List α) (s : Nat)
    (i : Nat) (h : IsList m l as xs s) (hi : i < xs.length) :
    ∃ m' it, EraseAfter m l ((before_begin l :: as.map some).getD i none) = some (m', it) ∧
      elements m' l = some (xs.eraseIdx i) ∧
      it = (as.eraseIdx i)[i]? ∧ deref m' it = xs[i + 1]? ∧
      (xs.length = i + 1 → it = end_ l) := by
  obtain ⟨m', he, hl', -⟩ := EraseAfter_ok h hi
  have hlen : as.length = xs.length := by
    obtain ⟨_, _, _, _, hc⟩ := h
    exact Chain_length hc
  have hpos : (before_begin l :: as.map some).getD i none = (l :: as)[i]? := by
    cases i with
    | zero => simp [before_begin]
    | succ j =>
      simp only [List.getD_cons_succ, List.getElem?_cons_succ]
      rw [List.getD_eq_getElem?_getD, List.getElem?_map]
      cases as[j]? <;> rfl
  have hit : as[i + 1]? = (as.eraseIdx i)[i]? := by
    rw [List.getElem?_eraseIdx]; simp
  refine ⟨m', as[i + 1]?, by rw [hpos]; exact he, elements_IsList hl', hit, ?_, ?_⟩
  · obtain ⟨_, _, p, _, hc'⟩ := hl'
    have := Chain_deref hc' i
    rw [← hit, List.getElem?_eraseIdx] at this
    simpa using this
  · intro e
    exact List.getElem?_eq_none (by omega)

/-- Witness for C4: `{1, 2} < {1, 2, 3}` in the sample memory. -/
theorem operator_lt_lexicographic_witness :
    IsList sample_pair 0 [1, 2] [1, 2] 2 ∧ IsList sample_pair 3 [4, 5, 6] [1, 2, 3] 3 ∧
      (end_ 0 = end_ 3 ∧
        ∃ r, operator_lt sample_pair 0 3 = some r ∧ (r = true ↔ LexLess [1, 2] [1, 2, 3]) ∧
          (r = true ↔ List.Lex (fun u v : Nat => u < v) [1, 2] [1, 2, 3])) :=
  ⟨sample_pair_fst, sample_pair_snd,
    operator_lt_lexicographic sample_pair 0 3 [1, 2] [4, 5, 6] [1, 2] [1, 2, 3] 2 3
      sample_pair_fst sample_pair_snd⟩

/-- Witness for C9: `{10, 20, 30}` with the position at `10` (position 1). -/
theorem EraseAfter_elements_witness :
    IsList sample_triple 0 [1, 2, 3] [10, 20, 30] 3 ∧ 1 < [10, 20, 30].length ∧
      ∃ m' it, EraseAfter sample_triple 0
          ((before_begin 0 :: [1, 2, 3].map some).getD 1 none) = some (m', it) ∧
        elements m' 0 = some ([10, 20, 30].eraseIdx 1) ∧
        it = ([1, 2, 3].eraseIdx 1)[1]? ∧ deref m' it = [10, 20, 30][1 + 1]? ∧
        ([10, 20, 30].length = 1 + 1 → it = end_ 0) :=
  ⟨sample_triple_list, by decide,
    EraseAfter_elements sample_triple 0 [1, 2, 3] [10, 20, 30] 3 1 sample_triple_list
      (by decide)⟩

/-- C3: `{1, 2} == {1, 2, 3}` and `{} == {1}` both return true, although the lists
differ in length. -/
theorem operator_eq_true_on_shorter_lhs :
    (∃ m1 a m2 b, ctor_values never_throws [] [1, 2] = .ok (m1, a) ∧
        ctor_values never_throws m1 [1, 2, 3] = .ok (m2, b) ∧
        operator_eq m2 a b = some true) ∧
      ∃ m1 a m2 b, ctor_values never_throws [] [] = .ok (m1, a) ∧
        ctor_values never_throws m1 [1] = .ok (m2, b) ∧
        operator_eq m2 a b = some true :=
  ⟨⟨_, _, _, _, rfl, rfl, rfl⟩, ⟨_, _, _, _, rfl, rfl, rfl⟩⟩

/-- C5: `a > a` returns true for `a = {1, 2, 3}`, and `{1, 2, 3} > {1, 2, 4}` returns
true. -/
theorem operator_gt_true_on_equal_and_smaller :
    (∃ m a, ctor_values never_throws [] [1, 2, 3] = .ok (m, a) ∧
        operator_gt m a a = some true) ∧
      ∃ m1 a m2 b, ctor_values never_throws [] [1, 2, 3] = .ok (m1, a) ∧
        ctor_values never_throws m1 [1, 2, 4] = .ok (m2, b) ∧
        operator_lt m2 a b = some true ∧ operator_gt m2 a b = some true :=
  ⟨⟨_, _, rfl, rfl⟩, ⟨_, _, _, _, rfl, rfl, rfl, rfl⟩⟩

/-- C6: `{1, 2} >= {1, 2, 3}` and `{} >= {1}` both return true although the left list is
lexicographically less than the right one. -/
theorem operator_ge_true_on_proper_beginning :
    (∃ m1 a m2 b, ctor_values never_throws [] [1, 2] = .ok (m1, a) ∧
        ctor_values never_throws m1 [1, 2, 3] = .ok (m2, b) ∧
        operator_lt m2 a b = some true ∧ operator_ge m2 a b = some true) ∧
      ∃ m1 a m2 b, ctor_values never_throws [] [] = .ok (m1, a) ∧
        ctor_values never_throws m1 [1] = .ok (m2, b) ∧
        operator_lt m2 a b = some true ∧ operator_ge m2 a b = some true :=
  ⟨⟨_, _, _, _, rfl, rfl, rfl, rfl⟩, ⟨_, _, _, _, rfl, rfl, rfl, rfl⟩⟩

/-- C7: evaluating `{1, 2, 3} <= {1, 2}` is undefined: `<` returns false, and `==` then
dereferences the end iterator of the right list. -/
theorem operator_le_reads_past_end :
    ∃ m1 a m2 b it, ctor_values never_throws [] [1, 2, 3] = .ok (m1, a) ∧
      ctor_values never_throws m1 [1, 2] = .ok (m2, b) ∧
      operator_lt m2 a b = some false ∧
      begin m2 b = some it ∧ incr m2 it >>= incr m2 = some (end_ b) ∧
      deref m2 (end_ b) = none ∧
      operator_eq m2 a b = none ∧ operator_le m2 a b = none :=
  ⟨_, _, _, _, _, rfl, rfl, rfl, rfl, rfl, rfl, rfl, rfl⟩

/-- C8: for every list and every position with a successor, `EraseAfter` returns with
`GetSize()` unchanged, while the element sequence loses one element. -/
theorem EraseAfter_keeps_GetSize (m : Memory α) (l : Nat) (as : List Nat) (xs : List α)
    (s : Nat) (i : Nat) (h : IsList m l as xs s) (hi : i < xs.length) :
    ∃ m' it, EraseAfter m l ((before_begin l :: as.map some).getD i none) = some (m', it) ∧
      GetSize m l = some s ∧ GetSize m' l = some s ∧
      (elements m' l).map List.length = some (xs.length - 1) := by
  obtain ⟨m', he, hl', -⟩ := EraseAfter_ok h hi
  have hpos : (before_begin l :: as.map some).getD i none = (l :: as)[i]? := by
    cases i with
    | zero => simp [before_begin]
    | succ j =>
      simp only [List.getD_cons_succ, List.getElem?_cons_succ]
      rw [List.getD_eq_getElem?_getD, List.getElem?_map]
      cases as[j]? <;> rfl
  refine ⟨m', as[i + 1]?, by rw [hpos]; exact he, GetSize_IsList h, GetSize_IsList hl', ?_⟩
  rw [elements_IsList hl']
  simp [List.length_eraseIdx, hi]

/-- Witness for C8: `{10, 20, 30}` with the position at `10`; `GetSize()` stays 3. -/
theorem EraseAfter_keeps_GetSize_witness :
    IsList sample_triple 0 [1, 2, 3] [10, 20, 30] 3 ∧ 1 < [10, 20, 30].length ∧
      ∃ m' it, EraseAfter sample_triple 0
          ((before_begin 0 :: [1, 2, 3].map some).getD 1 none) = some (m', it) ∧
        GetSize sample_triple 0 = some 3 ∧ GetSize m' 0 = some 3 ∧
        (elements m' 0).map List.length = some ([10, 20, 30].length - 1) :=
  ⟨sample_triple_list, by decide,
    EraseAfter_keeps_GetSize sample_triple 0 [1, 2, 3] [10, 20, 30] 3 1 sample_triple_list
      (by decide)⟩

/-- C11: `Filling` creates a node holding a copy of the `N`-th element of the source
range twice: once in its first loop, as the node creation that starts with
`m.length + 2 + N` cells allocated (the two local lists come first), and once in its
second loop, as the node creation that starts with
`m.length + 2 + (|S| + (|S| - 1 - N))` cells allocated. If either of the two creations
throws, whether the allocation or the copy of the value fails, `Filling` leaves by an
exception and the target list iterates to the same elements and reports the same
`GetSize()` as before the call. An assignment from another list holding these elements
allocates its temporary first, so that the two creations start with one cell more; if
either of them throws, the assignment leaves by an exception with its left-hand side
unchanged in the same sense. -/
theorem Filling_failure_keeps_target [Inhabited α] {I : Type} (ops : InputRange α I)
    (copy_throws : Nat → α → Bool) (m : Memory α) (this : Nat) (as : List Nat) (xs : List α)
    (s : Nat) (first last : I) (S : List α) (N : Nat) (x : α)
    (hthis : IsList m this as xs s)
    (hS : Iterates ops (fun m' => Frame m m' []) first last S)
    (hd : ops.distance m first last = some S.length)
    (hN : S[N]? = some x) :
    (copy_throws (m.length + 2 + N) x = true ∨
        copy_throws (m.length + 2 + (S.length + (S.length - 1 - N))) x = true →
        ∃ m', Filling ops copy_throws m this first last = .throws m' ∧
          elements m' this = some xs ∧ GetSize m' this = some s) ∧
      ∀ (rhs : Nat) (rs : List Nat) (t : Nat), IsList m rhs rs S t → this ≠ rhs →
        copy_throws (m.length + 3 + N) x = true ∨
          copy_throws (m.length + 3 + (S.length + (S.length - 1 - N))) x = true →
        ∃ m', operator_assign copy_throws m this rhs = .throws m' ∧
          elements m' this = some xs ∧ GetSize m' this = some s := by
  constructor
  · intro hfail
    obtain ⟨m', hf, hfr⟩ := Filling_throws ops copy_throws this S hS hd
      (failing_attempt_of_element copy_throws (m.length + 2) hN hfail)
    have h' : IsList m' this as xs s := IsList_frame hthis hfr (by simp) (by simp)
    exact ⟨m', hf, elements_IsList h', GetSize_IsList h'⟩
  · intro rhs rs t hrhs hne hfail
    obtain ⟨m', hf, hfr⟩ := operator_assign_throws copy_throws hrhs hne
      (failing_attempt_of_element copy_throws (m.length + 3) hN hfail)
    have h' : IsList m' this as xs s := IsList_frame hthis hfr (by simp) (by simp)
    exact ⟨m', hf, elements_IsList h', GetSize_IsList h'⟩

/-- Witness for C11: every node creation that starts with 14 or more cells allocated
throws. In the sample memory of 7 cells, `Filling` of the sample list `{1, 2}` from the
array `{1, 2, 3}` creates all three nodes of its first loop and two nodes of its second
loop, and the creation of the node of the element number 0 in the second loop throws;
the assignment to the same list of the sample list `{1, 2, 3}` fails in its second loop
too. -/
theorem Filling_failure_keeps_target_witness :
    IsList sample_pair 0 [1, 2] [1, 2] 2 ∧
      Iterates (ArrayIt [1, 2, 3]) (fun m' => Frame sample_pair m' []) 0 3 [1, 2, 3] ∧
      (ArrayIt [1, 2, 3]).distance sample_pair 0 3 = some [1, 2, 3].length ∧
      [1, 2, 3][0]? = some 1 ∧
      (fun (n : Nat) (_ : Nat) => decide (14 ≤ n)) (sample_pair.length + 2 + 0) 1 = false ∧
      (fun (n : Nat) (_ : Nat) => decide (14 ≤ n))
        (sample_pair.length + 2 + ([1, 2, 3].length + ([1, 2, 3].length - 1 - 0))) 1 = true ∧
      IsList sample_pair 3 [4, 5, 6] [1, 2, 3] 3 ∧
      (∃ m', Filling (ArrayIt [1, 2, 3]) (fun (n : Nat) (_ : Nat) => decide (14 ≤ n))
            sample_pair 0 0 3 = .throws m' ∧
          elements m' 0 = some [1, 2] ∧ GetSize m' 0 = some 2) ∧
      ∃ m', operator_assign (fun (n : Nat) (_ : Nat) => decide (14 ≤ n)) sample_pair 0 3
            = .throws m' ∧
          elements m' 0 = some [1, 2] ∧ GetSize m' 0 = some 2 :=
  ⟨sample_pair_fst, Iterates_ArrayIt [1, 2, 3] _ [1, 2, 3] 0 (by decide) rfl, rfl, rfl, rfl, rfl,
    sample_pair_snd,
    (Filling_failure_keeps_target (ArrayIt [1, 2, 3])
      (fun (n : Nat) (_ : Nat) => decide (14 ≤ n))
      sample_pair 0 [1, 2] [1, 2] 2 0 3 [1, 2, 3] 0 1 sample_pair_fst
      (Iterates_ArrayIt [1, 2, 3] _ [1, 2, 3] 0 (by decide) rfl) rfl rfl).1 (Or.inr rfl),
    (Filling_failure_keeps_target (ArrayIt [1, 2, 3])
      (fun (n : Nat) (_ : Nat) => decide (14 ≤ n))
      sample_pair 0 [1, 2] [1, 2] 2 0 3 [1, 2, 3] 0 1 sample_pair_fst
      (Iterates_ArrayIt [1, 2, 3] _ [1, 2, 3] 0 (by decide) rfl) rfl rfl).2
      3 [4, 5, 6] 3 sample_pair_snd (by decide) (Or.inr rfl)⟩

/-- C12: for every list and every value whose copy does not throw, `PushFront(v)`
followed by `PopFront()` returns and leaves the list with the element sequence, the
`GetSize()` and the `IsEmpty()` result it had before the two calls. -/
theorem PushFront_then_PopFront (copy_throws : Nat → α → Bool) (m : Memory α) (l : Nat)
    (as : List Nat) (xs : List α) (s : Nat) (v : α) (h : IsList m l as xs s)
    (hv : copy_throws m.length v = false) :
    ∃ m1 m2, PushFront copy_throws m l v = .ok m1 ∧ PopFront m1 l = some m2 ∧
      elements m2 l = elements m l ∧ elements m2 l = some xs ∧
      GetSize m2 l = GetSize m l ∧ GetSize m2 l = some s ∧ IsEmpty m2 l = IsEmpty m l := by
  obtain ⟨m1, hpush, h1, -, -⟩ := PushFront_ok h hv
  obtain ⟨m2, hpop, h2, -, -⟩ := PopFront_ok h1
  have e : ((s + 1) % SIZE_MOD + SIZE_MOD - 1) % SIZE_MOD = s := by
    have hs := h.1
    simp only [SIZE_MOD] at hs ⊢
    omega
  rw [e] at h2
  exact ⟨m1, m2, hpush, hpop, by rw [elements_IsList h2, elements_IsList h],
    elements_IsList h2, by rw [GetSize_IsList h2, GetSize_IsList h], GetSize_IsList h2,
    by rw [IsEmpty_IsList h2, IsEmpty_IsList h]⟩

/-- Witness for C12: `PushFront(7)` then `PopFront()` on the sample list `{10, 20, 30}`. -/
theorem PushFront_then_PopFront_witness :
    IsList sample_triple 0 [1, 2, 3] [10, 20, 30] 3 ∧ never_throws sample_triple.length 7 = false ∧
      ∃ m1 m2, PushFront never_throws sample_triple 0 7 = .ok m1 ∧
        PopFront m1 0 = some m2 ∧
        elements m2 0 = elements sample_triple 0 ∧ elements m2 0 = some [10, 20, 30] ∧
        GetSize m2 0 = GetSize sample_triple 0 ∧ GetSize m2 0 = some 3 ∧
        IsEmpty m2 0 = IsEmpty sample_triple 0 :=
  ⟨sample_triple_list, rfl,
    PushFront_then_PopFront never_throws sample_triple 0 [1, 2, 3] [10, 20, 30] 3 7
      sample_triple_list rfl⟩

/-- C13: for every list whose element sequence is `x` followed by `rest` and whose
`size_` is not zero, `PopFront()` returns, leaves the element sequence `rest` in the
original order, and leaves `GetSize()` exactly one less than before. -/
theorem PopFront_elements (m : Memory α) (l a : Nat) (as : List Nat) (x : α)
    (rest : List α) (s : Nat) (h : IsList m l (a :: as) (x :: rest) s) (hs : s ≠ 0) :
    ∃ m', PopFront m l = some m' ∧ elements m l = some (x :: rest) ∧
      elements m' l = some rest ∧ GetSize m l = some s ∧ GetSize m' l = some (s - 1) ∧
      (s - 1) + 1 = s := by
  obtain ⟨m', hpop, h', -, -⟩ := PopFront_ok h
  have e : (s + SIZE_MOD - 1) % SIZE_MOD = s - 1 := by
    have hlt := h.1
    simp only [SIZE_MOD] at hlt ⊢
    omega
  rw [e] at h'
  exact ⟨m', hpop, elements_IsList h, elements_IsList h', GetSize_IsList h,
    GetSize_IsList h', by omega⟩

/-- Witness for C13: `PopFront()` on the sample list `{10, 20, 30}`. -/
theorem PopFront_elements_witness :
    IsList sample_triple 0 (1 :: [2, 3]) (10 :: [20, 30]) 3 ∧ (3 : Nat) ≠ 0 ∧
      ∃ m', PopFront sample_triple 0 = some m' ∧
        elements sample_triple 0 = some (10 :: [20, 30]) ∧
        elements m' 0 = some [20, 30] ∧ GetSize sample_triple 0 = some 3 ∧
        GetSize m' 0 = some (3 - 1) ∧ (3 - 1) + 1 = 3 :=
  ⟨sample_triple_list, by decide,
    PopFront_elements sample_triple 0 1 [2, 3] 10 [20, 30] 3 sample_triple_list (by decide)⟩

/-- C14: for every list whose `size_` is below the largest `size_t` value and every value
whose copy does not throw, `InsertAfter(before_begin(), v)` and `PushFront(v)` both
return and leave the same memory: the element sequence is `v` followed by the former
elements and `GetSize()` is the former size plus one. -/
theorem InsertAfter_before_begin_same_as_PushFront (copy_throws : Nat → α → Bool) (m : Memory α)
    (l : Nat) (as : List Nat) (xs : List α) (s : Nat) (v : α) (h : IsList m l as xs s)
    (hv : copy_throws m.length v = false) (hs : s + 1 < SIZE_MOD) :
    ∃ m1 m2 it, PushFront copy_throws m l v = .ok m1 ∧
      InsertAfter copy_throws m l (before_begin l) v = .ok (m2, it) ∧ m1 = m2 ∧
      elements m1 l = some (v :: xs) ∧ elements m2 l = some (v :: xs) ∧
      GetSize m l = some s ∧ GetSize m1 l = some (s + 1) ∧ GetSize m2 l = some (s + 1) := by
  obtain ⟨m', hpf, hl', -, -⟩ := PushFront_ok h hv
  rw [Nat.mod_eq_of_lt hs] at hl'
  obtain ⟨_, w, p, hr, _⟩ := id h
  obtain ⟨hia, hpf'⟩ := InsertAfter_head hr hv
  rw [hpf'] at hpf
  injection hpf with hpf
  subst hpf
  exact ⟨_, _, _, hpf', hia, rfl, elements_IsList hl', elements_IsList hl', GetSize_IsList h,
    GetSize_IsList hl', GetSize_IsList hl'⟩

/-- Witness for C14: inserting 7 at the front of the sample list `{10, 20, 30}`. -/
theorem InsertAfter_before_begin_same_as_PushFront_witness :
    IsList sample_triple 0 [1, 2, 3] [10, 20, 30] 3 ∧ never_throws sample_triple.length 7 = false ∧
      3 + 1 < SIZE_MOD ∧
      ∃ m1 m2 it, PushFront never_throws sample_triple 0 7 = .ok m1 ∧
        InsertAfter never_throws sample_triple 0 (before_begin 0) 7 = .ok (m2, it) ∧
        m1 = m2 ∧ elements m1 0 = some (7 :: [10, 20, 30]) ∧
        elements m2 0 = some (7 :: [10, 20, 30]) ∧ GetSize sample_triple 0 = some 3 ∧
        GetSize m1 0 = some (3 + 1) ∧ GetSize m2 0 = some (3 + 1) :=
  ⟨sample_triple_list, rfl, by decide,
    InsertAfter_before_begin_same_as_PushFront never_throws sample_triple 0
      [1, 2, 3] [10, 20, 30] 3 7 sample_triple_list rfl (by decide)⟩

/-- C15: for a list with element sequence `xs` whose `size_` is below the largest `size_t`
value, the position number `i` of `before_begin()` followed by the element iterators
(position 0 is `before_begin()`, position `i + 1` the iterator to element `i`), and a
value whose copy does not throw, `InsertAfter` returns, the element sequence becomes `xs`
with `v` inserted at index `i` and the former elements in their order, `GetSize()` grows
by exactly one, and the returned iterator is the one of the inserted element. -/
theorem InsertAfter_elements (copy_throws : Nat → α → Bool) (m : Memory α) (l : Nat)
    (as : List Nat) (xs : List α) (s : Nat) (i : Nat) (v : α) (h : IsList m l as xs s)
    (hi : i ≤ xs.length) (hv : copy_throws m.length v = false) (hs : s + 1 < SIZE_MOD) :
    ∃ m' it, InsertAfter copy_throws m l ((before_begin l :: as.map some).getD i none) v
        = .ok (m', it) ∧
      elements m' l = some (xs.take i ++ v :: xs.drop i) ∧
      GetSize m l = some s ∧ GetSize m' l = some (s + 1) ∧
      deref m' it = some v ∧
      ∃ as', IsList m' l as' (xs.take i ++ v :: xs.drop i) (s + 1) ∧ it = as'[i]? := by
  obtain ⟨m', hia, hl', -, -⟩ := InsertAfter_ok h hi hv
  rw [Nat.mod_eq_of_lt hs] at hl'
  have hlen : as.length = xs.length := by
    obtain ⟨_, _, _, _, hc⟩ := h
    exact Chain_length hc
  have hidx : (List.take i as ++ m.length :: List.drop i as)[i]? = some m.length := by
    rw [List.getElem?_append_right (by simp)]
    simp [Nat.min_eq_left (by omega : i ≤ as.length)]
  refine ⟨m', some m.length, by rw [position_getD]; exact hia, elements_IsList hl',
    GetSize_IsList h, GetSize_IsList hl', ?_, _, hl', hidx.symm⟩
  obtain ⟨_, _, p, _, hc'⟩ := hl'
  have hd := Chain_deref hc' i
  rw [hidx] at hd
  rw [hd, List.getElem?_append_right (by simp)]
  simp [Nat.min_eq_left (by omega : i ≤ xs.length)]

/-- Witness for C15: inserting 15 after the iterator to `10` in the sample list
`{10, 20, 30}`. -/
theorem InsertAfter_elements_witness :
    IsList sample_triple 0 [1, 2, 3] [10, 20, 30] 3 ∧ 1 ≤ [10, 20, 30].length ∧
      never_throws sample_triple.length 15 = false ∧ 3 + 1 < SIZE_MOD ∧
      ∃ m' it, InsertAfter never_throws sample_triple 0
          ((before_begin 0 :: [1, 2, 3].map some).getD 1 none) 15 = .ok (m', it) ∧
        elements m' 0 = some ([10, 20, 30].take 1 ++ 15 :: [10, 20, 30].drop 1) ∧
        GetSize sample_triple 0 = some 3 ∧ GetSize m' 0 = some (3 + 1) ∧
        deref m' it = some 15 ∧
        ∃ as', IsList m' 0 as' ([10, 20, 30].take 1 ++ 15 :: [10, 20, 30].drop 1) (3 + 1) ∧
          it = as'[1]? :=
  ⟨sample_triple_list, by decide, rfl, by decide,
    InsertAfter_elements never_throws sample_triple 0 [1, 2, 3] [10, 20, 30] 3 1 15
      sample_triple_list (by decide) rfl (by decide)⟩

/-- C16: for two distinct lists `a` and `b`, `swap(a, b)` returns and leaves `a` with the
element sequence and `GetSize()` that `b` had and `b` with those that `a` had; a second
`swap(a, b)` gives both lists their original sequences and sizes back; and swapping a
list with itself returns the memory unchanged. -/
theorem swap_exchanges (m : Memory α) (a b : Nat) (as bs : List Nat) (xs ys : List α)
    (s t : Nat) (ha : IsList m a as xs s) (hb : IsList m b bs ys t) (hab : a ≠ b) :
    (∃ m1, nonmember_swap m a b = some m1 ∧
        elements m1 a = some ys ∧ GetSize m1 a = some t ∧
        elements m1 b = some xs ∧ GetSize m1 b = some s ∧
        ∃ m2, nonmember_swap m1 a b = some m2 ∧
          elements m2 a = some xs ∧ GetSize m2 a = some s ∧
          elements m2 b = some ys ∧ GetSize m2 b = some t) ∧
      nonmember_swap m a a = some m ∧ nonmember_swap m b b = some m := by
  obtain ⟨m1, h1, ha1, hb1, -, -⟩ := swap_ok ha hb hab
  obtain ⟨m2, h2, ha2, hb2, -, -⟩ := swap_ok ha1 hb1 hab
  refine ⟨⟨m1, h1, elements_IsList ha1, GetSize_IsList ha1, elements_IsList hb1,
    GetSize_IsList hb1, m2, h2, elements_IsList ha2, GetSize_IsList ha2, elements_IsList hb2,
    GetSize_IsList hb2⟩, ?_, ?_⟩
  · obtain ⟨_, v, p, hr, _⟩ := ha
    simp [nonmember_swap, swap, hr]
  · obtain ⟨_, v, p, hr, _⟩ := hb
    simp [nonmember_swap, swap, hr]

/-- Witness for C16: swapping the sample lists `{1, 2}` and `{1, 2, 3}`. -/
theorem swap_exchanges_witness :
    IsList sample_pair 0 [1, 2] [1, 2] 2 ∧ IsList sample_pair 3 [4, 5, 6] [1, 2, 3] 3 ∧
      (0 : Nat) ≠ 3 ∧
      ((∃ m1, nonmember_swap sample_pair 0 3 = some m1 ∧
          elements m1 0 = some [1, 2, 3] ∧ GetSize m1 0 = some 3 ∧
          elements m1 3 = some [1, 2] ∧ GetSize m1 3 = some 2 ∧
          ∃ m2, nonmember_swap m1 0 3 = some m2 ∧
            elements m2 0 = some [1, 2] ∧ GetSize m2 0 = some 2 ∧
            elements m2 3 = some [1, 2, 3] ∧ GetSize m2 3 = some 3) ∧
        nonmember_swap sample_pair 0 0 = some sample_pair ∧
        nonmember_swap sample_pair 3 3 = some sample_pair) :=
  ⟨sample_pair_fst, sample_pair_snd, by decide,
    swap_exchanges sample_pair 0 3 [1, 2] [4, 5, 6] [1, 2] [1, 2, 3] 2 3 sample_pair_fst
      sample_pair_snd (by decide)⟩

/-- C17: for every list, whatever its elements and its stored size, `Clear()` returns and
leaves `GetSize() == 0`, `IsEmpty()` true and `begin() == end()`, so that no element
remains. -/
theorem Clear_leaves_empty (m : Memory α) (l : Nat) (as : List Nat) (xs : List α) (s : Nat)
    (h : IsList m l as xs s) :
    ∃ m', Clear m l = some m' ∧ GetSize m' l = some 0 ∧ IsEmpty m' l = some true ∧
      begin m' l = some (end_ l) ∧ elements m' l = some [] := by
  obtain ⟨m', hc, h', -, -⟩ := Clear_ok h
  obtain ⟨p, hb, hch⟩ := begin_IsList h'
  have hp : p = none := Chain_nil_iff.mp hch
  subst hp
  exact ⟨m', hc, GetSize_IsList h', by simpa using IsEmpty_IsList h', hb, elements_IsList h'⟩

/-- Witness for C17: clearing the sample list `{10, 20, 30}`. -/
theorem Clear_leaves_empty_witness :
    IsList sample_triple 0 [1, 2, 3] [10, 20, 30] 3 ∧
      ∃ m', Clear sample_triple 0 = some m' ∧ GetSize m' 0 = some 0 ∧
        IsEmpty m' 0 = some true ∧ begin m' 0 = some (end_ 0) ∧
        elements m' 0 = some ([] : List Nat) :=
  ⟨sample_triple_list,
    Clear_leaves_empty sample_triple 0 [1, 2, 3] [10, 20, 30] 3 sample_triple_list⟩

/-- C18, as stated, fails: `Filling` with the empty range on the sample list `{1, 2}`
returns with the memory untouched, so the list still holds `1, 2` and `GetSize()` is
still 2; it is not left empty. -/
theorem Filling_empty_range_keeps_list :
    ∃ m', Filling (ArrayIt ([] : List Nat)) never_throws sample_pair 0 0 0 = .ok m' ∧
      elements m' 0 = some [1, 2] ∧ elements m' 0 ≠ some [] ∧
      GetSize m' 0 = some 2 ∧ GetSize m' 0 ≠ some ([] : List Nat).length :=
  ⟨sample_pair, rfl, rfl, by decide, rfl, by decide⟩

/-- C18, amended: for every target list and every source range whose element copies do
not throw (and whose length is a `size_t` value), `Filling` returns; when the range is
not empty the target then iterates to exactly the elements of the range, in the order of
the range, and `GetSize()` is the length of the range; when the range is empty the
memory, and with it the target's elements and `GetSize()`, is left as it was. -/
theorem Filling_elements [Inhabited α] {I : Type} (ops : InputRange α I)
    (copy_throws : Nat → α → Bool) (m : Memory α) (this : Nat) (as : List Nat) (xs : List α)
    (s : Nat) (first last : I) (S : List α) (hthis : IsList m this as xs s)
    (hS : Iterates ops (fun m' => Frame m m' []) first last S)
    (hd : ops.distance m first last = some S.length)
    (hct : ∀ n, ∀ x ∈ S, copy_throws n x = false) (hlen : S.length < SIZE_MOD) :
    ∃ m', Filling ops copy_throws m this first last = .ok m' ∧
      (S ≠ [] → elements m' this = some S ∧ GetSize m' this = some S.length) ∧
      (S = [] → m' = m ∧ elements m' this = some xs ∧ GetSize m' this = some s) := by
  by_cases hne : S = []
  · subst hne
    exact ⟨m, Filling_empty ops copy_throws hd, fun h => absurd rfl h,
      fun _ => ⟨rfl, elements_IsList hthis, GetSize_IsList hthis⟩⟩
  · obtain ⟨m', ns, hf, h', -, -⟩ := Filling_ok ops copy_throws S hthis hS hd (NoFailure_of_forall hct _) hne
    rw [Nat.mod_eq_of_lt hlen] at h'
    exact ⟨m', hf, fun _ => ⟨elements_IsList h', GetSize_IsList h'⟩, fun h => absurd h hne⟩

/-- Witness for C18 (amended): `Filling` of the sample list `{1, 2}` from the array
`{7, 8, 9}`. -/
theorem Filling_elements_witness :
    IsList sample_pair 0 [1, 2] [1, 2] 2 ∧
      Iterates (ArrayIt [7, 8, 9]) (fun m' => Frame sample_pair m' []) 0 3 [7, 8, 9] ∧
      (ArrayIt [7, 8, 9]).distance sample_pair 0 3 = some [7, 8, 9].length ∧
      (∀ n, ∀ x ∈ [7, 8, 9], never_throws n x = false) ∧ [7, 8, 9].length < SIZE_MOD ∧
      ∃ m', Filling (ArrayIt [7, 8, 9]) never_throws sample_pair 0 0 3 = .ok m' ∧
        (([7, 8, 9] : List Nat) ≠ [] →
          elements m' 0 = some [7, 8, 9] ∧ GetSize m' 0 = some [7, 8, 9].length) ∧
        (([7, 8, 9] : List Nat) = [] →
          m' = sample_pair ∧ elements m' 0 = some [1, 2] ∧ GetSize m' 0 = some 2) :=
  ⟨sample_pair_fst, Iterates_ArrayIt [7, 8, 9] _ [7, 8, 9] 0 (by decide) rfl, rfl,
    fun _ _ _ => rfl, by decide,
    Filling_elements (ArrayIt [7, 8, 9]) never_throws sample_pair 0 [1, 2] [1, 2] 2
      0 3 [7, 8, 9] sample_pair_fst (Iterates_ArrayIt [7, 8, 9] _ [7, 8, 9] 0 (by decide) rfl)
      rfl (fun _ _ _ => rfl) (by decide)⟩

/-- C19: for lists `a` and `b` where `a` has no more elements than `b`, `a == b` returns,
and returns true exactly when the elements of `a` are the first elements of `b` (so a
shorter list that begins a longer one compares equal to it); `a != b` returns the
negation. -/
theorem operator_eq_iff_beginning [DecidableEq α] (m : Memory α) (a b : Nat)
    (as bs : List Nat) (xs ys : List α) (s t : Nat) (ha : IsList m a as xs s)
    (hb : IsList m b bs ys t) (hle : xs.length ≤ ys.length) :
    ∃ r, operator_eq m a b = some r ∧ (r = true ↔ ∃ rest, ys = xs ++ rest) ∧
      operator_ne m a b = some (!r) := by
  obtain ⟨p, hp, hcp⟩ := begin_IsList ha
  obtain ⟨q, hq, hcq⟩ := begin_IsList hb
  have hstd := std_equal_Chain hcp hcq hle (m.length + 1)
    (by have := Chain_length_le hcp; omega)
  have heq : operator_eq m a b = some (decide (xs = ys.take xs.length)) := by
    simp [operator_eq, hp, hq, end_, hstd]
  refine ⟨decide (xs = ys.take xs.length), heq, ?_, by simp [operator_ne, heq]⟩
  rw [decide_eq_true_iff]
  constructor
  · intro h
    exact ⟨ys.drop xs.length, by
      conv_lhs => rw [← List.take_append_drop xs.length ys]
      rw [← h]⟩
  · rintro ⟨rest, rfl⟩
    simp

/-- Witness for C19: `{1, 2} == {1, 2, 3}` in the sample memory. -/
theorem operator_eq_iff_beginning_witness :
    IsList sample_pair 0 [1, 2] [1, 2] 2 ∧ IsList sample_pair 3 [4, 5, 6] [1, 2, 3] 3 ∧
      [1, 2].length ≤ [1, 2, 3].length ∧
      ∃ r, operator_eq sample_pair 0 3 = some r ∧
        (r = true ↔ ∃ rest, [1, 2, 3] = [1, 2] ++ rest) ∧
        operator_ne sample_pair 0 3 = some (!r) :=
  ⟨sample_pair_fst, sample_pair_snd, by decide,
    operator_eq_iff_beginning sample_pair 0 3 [1, 2] [4, 5, 6] [1, 2] [1, 2, 3] 2 3
      sample_pair_fst sample_pair_snd (by decide)⟩

/-- C20: for every list of a client state reached from the empty state by a finite
sequence of constructions (default or from an initializer list) and of `PushFront`,
`InsertAfter`, `PopFront`, `EraseAfter`, `Clear`, `swap` and assignment calls, each with
its precondition met, where the sequence makes fewer insertions than `size_t` has
values, `GetSize()` is never smaller than the number of elements that iterating from
`begin()` yields; hence when `IsEmpty()` returns true, `begin() == end()`. -/
theorem GetSize_never_below_elements [Inhabited α] (copy_throws : Nat → α → Bool)
    (calls : List (Call α)) (w : World α) (hrun : run copy_throws calls ⟨[], []⟩ = some w)
    (hbound : (calls.map insertions).sum < SIZE_MOD) :
    ∀ l ∈ w.lists, ∃ xs s, elements w.mem l = some xs ∧ GetSize w.mem l = some s ∧
      xs.length ≤ s ∧ (IsEmpty w.mem l = some true → begin w.mem l = some (end_ l)) := by
  have hinv := run_WorldInv calls hrun WorldInv_initial (by simpa using hbound)
  intro l hl
  obtain ⟨as, xs, s, hd, hle, -⟩ := hinv.1 l hl
  refine ⟨xs, s, elements_IsList hd, GetSize_IsList hd, hle, fun hempty => ?_⟩
  rw [IsEmpty_IsList hd] at hempty
  have hs : s = 0 := by simpa using hempty
  have hxs : xs = [] := List.length_eq_zero.mp (by omega)
  subst hxs
  obtain ⟨p, hb, hc⟩ := begin_IsList hd
  have has : as = [] := List.length_eq_zero.mp (Chain_length hc)
  subst has
  rw [hb, Chain_nil_iff.mp hc]
  rfl

/-- Witness for C20: a list is built from `{10, 20, 30}`, the element after `10` is
erased, 5 is pushed, a second list is constructed and swapped with the first, then
assigned to it. -/
theorem GetSize_never_below_elements_witness :
    ∃ w, run (fun (_ : Nat) (_ : Nat) => false)
        [.construct_values [10, 20, 30], .EraseAfter 0 1, .PushFront 0 5, .construct,
          .swap 0 10, .assign 0 10] ⟨[], []⟩ = some w ∧
      (([.construct_values [10, 20, 30], .EraseAfter 0 1, .PushFront 0 5, .construct,
          .swap 0 10, .assign 0 10] : List (Call Nat)).map insertions).sum < SIZE_MOD ∧
      w.lists = [10, 0] ∧
      ∀ l ∈ w.lists, ∃ xs s, elements w.mem l = some xs ∧ GetSize w.mem l = some s ∧
        xs.length ≤ s ∧ (IsEmpty w.mem l = some true → begin w.mem l = some (end_ l)) :=
  ⟨_, rfl, by decide, rfl,
    GetSize_never_below_elements (fun (_ : Nat) (_ : Nat) => false)
      [.construct_values [10, 20, 30], .EraseAfter 0 1, .PushFront 0 5, .construct,
        .swap 0 10, .assign 0 10] _ rfl (by decide)⟩

end SingleLinkedList
